import Mathlib

/-!
Verification of `bigmath.h`, an arbitrary precision integer engine.

A shallow embedding of `BigUnsigned` (a reference counted, copy-on-write word
buffer) and `BigInteger` (sign and magnitude) from `src/bigmath.h`.

* `WordType` is `uint32_t`: words are natural numbers below `2 ^ 32`, and every
  word operation that could leave that range is reduced explicitly.
* `Data` is the buffer record `BigUnsigned::Data`.  The array `words` is a list
  whose length is the extent of the allocation.
* A `BigUnsigned` held by value in a function body is represented by the `Data`
  its pointer designates.  The test `a.data == b.data` on buffer identity is the
  explicit flag `sameData`.
* The heap section (`Heap`, `BigUnsigned.data` as an address) models sharing of
  buffers for the copy-on-write statements.
* Operators that are declared in the header and defined in a translation unit
  that is not part of the sources are modelled from the specification.
-/

namespace BigMath

/-! ## Definitions -/

/-- The error kinds of the engine, with `outOfFuel` for a loop model whose
iteration bound was not enough. -/
inductive Err where
  | divideByZero
  | underflow
  | negativeExponent
  | signConversion
  | invalidDigit
  | outOfFuel
  deriving DecidableEq, Repr

deriving instance DecidableEq for Except

/-- Width of a word: `BitsPerWord = BytesPerWord * 8` with `uint32_t` words. -/
def BitsPerWord : Nat := 32

/-- Number of values of a word, `2 ^ BitsPerWord`. -/
def WordModulus : Nat := 2 ^ 32

/-- The constant `WordMax = ~(WordType)0`. -/
def WordMax : Nat := 2 ^ 32 - 1

/-- Content of a word of storage obtained from `new WordType[n]` and not yet
written: an arbitrary word, fixed here to a recognisable non-zero pattern. -/
def freshWord : Nat := 0xCDCDCDCD

/-- The record `BigUnsigned::Data`: `words` is the storage (for `size <= 1` the
inline member `word`), `size` the logical length, `allocated` the capacity. -/
structure Data where
  words : List Nat
  size : Nat
  allocated : Nat
  refCount : Nat
  deriving DecidableEq, Repr

/-- Array read `words[i]`. -/
def rd (ws : List Nat) (i : Nat) : Nat := ws.getD i 0

/-- The loop `for(i = lo; i < hi; i++) words[i] = 0;`. -/
def zeroFill (ws : List Nat) (lo hi : Nat) : List Nat :=
  (List.range (hi - lo)).foldl (fun acc k => acc.set (lo + k) 0) ws

/-- The loop `for(i = 0; i < n; i++) dst[i] = src[i];` into fresh storage of
extent `extent`. -/
def copyInto (src : List Nat) (n extent : Nat) : List Nat :=
  (List.range extent).map (fun i => if i < n then rd src i else freshWord)

/-- Constructor `Data(WordType v = 0, size_t size = 1)`. -/
def Data.new (v : Nat) (size : Nat) : Data :=
  if size > 1 then
    { words := zeroFill ((copyInto [] 0 size).set 0 v) 1 size,
      size := size, allocated := size, refCount := 1 }
  else
    { words := [v], size := size, allocated := size, refCount := 1 }

/-- Copy constructor `Data(Data & rt)`. -/
def Data.copy (rt : Data) : Data :=
  if rt.size ≤ 1 then
    { words := [if rt.size ≠ 0 then rd rt.words 0 else 0],
      size := 1, allocated := 1, refCount := 1 }
  else
    { words := copyInto rt.words rt.size rt.size,
      size := rt.size, allocated := rt.size, refCount := 1 }

/-- Method `Data::expand(size_t newSize)`. -/
def Data.expand (d : Data) (newSize : Nat) : Data :=
  if newSize ≤ d.size then d
  else
    let d1 : Data :=
      if newSize > d.allocated then
        { d with allocated := newSize + d.size / 4,
                 words := copyInto d.words d.size (newSize + d.size / 4) }
      else d
    { d1 with words := zeroFill d1.words d.size newSize, size := newSize }

/-- Method `Data::resize(size_t newSize)`. -/
def Data.resize (d : Data) (newSize : Nat) : Data :=
  { d.expand newSize with size := newSize }

/-- Method `Data::addRef()`. -/
def Data.addRef (d : Data) : Data := { d with refCount := d.refCount + 1 }

/-- The buffer a `BigUnsigned` designates after `onWrite()`: itself when the
reference count is at most one, a fresh copy otherwise. -/
def Data.onWrite (d : Data) : Data :=
  if d.refCount ≤ 1 then d else d.copy

/-- The loop `while(size > 1 && words[size - 1] == 0) size--;`, returning the
final size. -/
def normalizeLoop (ws : List Nat) : Nat → Nat
  | 0 => 0
  | n + 1 => if n + 1 > 1 ∧ rd ws n = 0 then normalizeLoop ws n else n + 1

/-- Method `BigUnsigned::normalize()`. -/
def Data.normalize (d : Data) : Data :=
  let d := d.onWrite
  { d with size := normalizeLoop d.words d.size }

/-- The words `words[0 .. size)` observed through a buffer. -/
def Data.observed (d : Data) : List Nat :=
  (List.range d.size).map (fun i => rd d.words i)

/-- The sum of `words[i] * 2 ^ (32 * i)` for `i < n`. -/
def wordsValue (ws : List Nat) : Nat → Nat
  | 0 => 0
  | n + 1 => wordsValue ws n + rd ws n * 2 ^ (32 * n)

/-- The number a buffer denotes. -/
def Data.value (d : Data) : Nat := wordsValue d.words d.size

/-- Well-formed buffers: at least one word, the logical size within the
storage, the recorded capacity equal to the storage extent, every stored word a
`uint32_t`. -/
def Data.wf (d : Data) : Prop :=
  1 ≤ d.size ∧ d.size ≤ d.words.length ∧ d.allocated = d.words.length ∧
    ∀ w ∈ d.words, w < WordModulus

instance (d : Data) : Decidable d.wf := by
  unfold Data.wf; infer_instance

/-- Normalized form: the most significant word is non-zero unless the length
is one. -/
def Data.normalized (d : Data) : Prop :=
  d.size = 1 ∨ rd d.words (d.size - 1) ≠ 0

instance (d : Data) : Decidable d.normalized := by
  unfold Data.normalized; infer_instance

/-- A magnitude as the specification describes it: well-formed and in
normalized form. -/
def Data.magnitude (d : Data) : Prop := d.wf ∧ d.normalized

instance (d : Data) : Decidable d.magnitude := by
  unfold Data.magnitude; infer_instance

/-- Little-endian base `2 ^ 32` digits of `n`, at least one digit. -/
def toWords : Nat → Nat → List Nat
  | 0, n => [n % WordModulus]
  | fuel + 1, n =>
    if n < WordModulus then [n] else (n % WordModulus) :: toWords fuel (n / WordModulus)

/-- The normalized magnitude denoting `n`, in a buffer of its own. -/
def Data.ofNat (n : Nat) : Data :=
  let ws := toWords n n
  { words := ws, size := ws.length, allocated := ws.length, refCount := 1 }

/-- Constructor `BigUnsigned(WordType v = 0)`, as the buffer the new value
designates: one word `v` (an entry of the small number table when `v < 32`,
which the new holder shares with the table, or a new buffer). -/
def ofWord (v : Nat) : Data :=
  if v < 32 then (Data.new v 1).addRef else Data.new v 1

/-! ### Comparison -/

/-- Operators `==(BigUnsigned n, WordType w)` and `==(WordType w, BigUnsigned n)`. -/
def eqWord (n : Data) (w : Nat) : Bool :=
  if n.size > 1 then false else rd n.words 0 == w

/-- Operator `==(BigUnsigned a, BigUnsigned b)`; `sameData` is `a.data == b.data`. -/
def opEq (sameData : Bool) (a b : Data) : Bool :=
  if sameData then true
  else if a.size ≠ b.size then false
  else (List.range a.size).all (fun i => !(rd a.words i != rd b.words i))

/-- Operator `!=(BigUnsigned a, BigUnsigned b)`. -/
def opNe (sameData : Bool) (a b : Data) : Bool := !opEq sameData a b

/-- Operators `!=` with a word on either side. -/
def neWord (n : Data) (w : Nat) : Bool := !eqWord n w

/-- The loop of `operator >`: `j` runs from `size - 1` down to `0`; the argument
is the number of words still to inspect. -/
def gtLoop (a b : List Nat) : Nat → Bool
  | 0 => false
  | j + 1 =>
    if rd a j > rd b j then true
    else if rd a j < rd b j then false
    else gtLoop a b j

/-- Operator `>(BigUnsigned a, BigUnsigned b)`. -/
def opGt (sameData : Bool) (a b : Data) : Bool :=
  if sameData then false
  else if a.size > b.size then true
  else if a.size < b.size then false
  else gtLoop a.words b.words a.size

/-- The loop of `compare`. -/
def compareLoop (a b : List Nat) : Nat → Int
  | 0 => 0
  | j + 1 =>
    if rd a j > rd b j then 1
    else if rd a j < rd b j then -1
    else compareLoop a b j

/-- Function `compare(BigUnsigned a, BigUnsigned b)`. -/
def compare (sameData : Bool) (a b : Data) : Int :=
  if sameData then 0
  else if a.size > b.size then 1
  else if a.size < b.size then -1
  else compareLoop a.words b.words a.size

/-- Operator `<(BigUnsigned a, BigUnsigned b)`, which is `operator >(b, a)`. -/
def opLt (sameData : Bool) (a b : Data) : Bool := opGt sameData b a

/-- Operator `>=(BigUnsigned a, BigUnsigned b)`, which is `!operator <(a, b)`. -/
def opGe (sameData : Bool) (a b : Data) : Bool := !opLt sameData a b

/-- Operator `<=(BigUnsigned a, BigUnsigned b)`, which is `!operator >(a, b)`. -/
def opLe (sameData : Bool) (a b : Data) : Bool := !opGt sameData a b

/-- Operator `>(WordType a, BigUnsigned b)`. -/
def gtWordLeft (a : Nat) (b : Data) : Bool :=
  if b.size > 1 then false else decide (a > rd b.words 0)

/-- Operator `>(BigUnsigned a, WordType b)`. -/
def gtWordRight (a : Data) (b : Nat) : Bool :=
  if a.size > 1 then true else decide (rd a.words 0 > b)

/-! ### Bitwise operators -/

/-- The loop `for(i = 0; i < n; i++) words[i] = f(words[i], other[i]);`. -/
def wordLoop (f : Nat → Nat → Nat) (ws other : List Nat) (n : Nat) : List Nat :=
  (List.range n).foldl (fun acc i => acc.set i (f (rd acc i) (rd other i))) ws

/-- Operator `^=(BigUnsigned b)`. -/
def xorAssign (self b : Data) : Data :=
  let d := self.onWrite
  let d := d.expand b.size
  let d := { d with words := wordLoop (fun x y => x ^^^ y) d.words b.words b.size }
  d.normalize

/-- Operator `^=(WordType b)`. -/
def xorAssignWord (self : Data) (b : Nat) : Data :=
  let d := self.onWrite
  { d with words := d.words.set 0 (rd d.words 0 ^^^ b) }

/-- Operator `|=(BigUnsigned b)`. -/
def orAssign (self b : Data) : Data :=
  let d := self.onWrite
  let d := d.expand b.size
  { d with words := wordLoop (fun x y => x ||| y) d.words b.words b.size }

/-- Operator `|=(WordType b)`. -/
def orAssignWord (self : Data) (b : Nat) : Data :=
  let d := self.onWrite
  { d with words := d.words.set 0 (rd d.words 0 ||| b) }

/-- Operator `&=(WordType b)`. -/
def andAssignWord (self : Data) (b : Nat) : Data :=
  let d := self.onWrite
  let d := { d with size := 1 }
  { d with words := d.words.set 0 (rd d.words 0 &&& b) }

/-- Operator `&=(BigUnsigned b)`. -/
def andAssign (self b : Data) : Data :=
  let d := self.onWrite
  let d := { d with size := min d.size b.size }
  let d := { d with words := wordLoop (fun x y => x &&& y) d.words b.words d.size }
  d.normalize

/-- Operator `^(BigUnsigned a, BigUnsigned b)`: `a` is a by-value copy of the
caller's operand, which shares its buffer. -/
def opXor (a b : Data) : Data := xorAssign a.addRef b

/-- Operator `|(BigUnsigned a, BigUnsigned b)`. -/
def opOr (a b : Data) : Data := orAssign a.addRef b

/-- Operator `&(BigUnsigned a, BigUnsigned b)`. -/
def opAnd (a b : Data) : Data := andAssign a.addRef b

/-! ### Operators declared in the header only -/

/-- Modelled from the spec: `operator *(BigUnsigned, BigUnsigned)` is declared
in the header and defined elsewhere; the schoolbook product is the exact
product, normalized after accumulation. -/
def mul (a b : Data) : Data := Data.ofNat (a.value * b.value)

/-- Modelled from the spec: `operator +=(BigUnsigned)` is declared in the
header and defined elsewhere; word-wise addition with carry is the exact sum,
normalized. -/
def add (a b : Data) : Data := Data.ofNat (a.value + b.value)

/-- Modelled from the spec: `operator -=(BigUnsigned)` is declared in the
header and defined elsewhere; it is the exact difference when the minuend is
at least the subtrahend and fails with an UnderflowError otherwise. -/
def subAssign (a b : Data) : Except Err Data :=
  if a.value < b.value then .error .underflow else .ok (Data.ofNat (a.value - b.value))

/-- Modelled from the spec: the private `divMod(BigUnsigned, BigUnsigned,
BigUnsigned *, BigUnsigned *)` is declared in the header and defined
elsewhere; binary long division gives the floor quotient and the remainder,
and a divisor of zero fails with a DivideByZeroError. -/
def divMod (dividend divisor : Data) : Except Err (Data × Data) :=
  if divisor.value = 0 then .error .divideByZero
  else .ok (Data.ofNat (dividend.value / divisor.value),
            Data.ofNat (dividend.value % divisor.value))

/-- Operator `/(BigUnsigned dividend, BigUnsigned divisor)`. -/
def div (dividend divisor : Data) : Except Err Data :=
  (divMod dividend divisor).map Prod.fst

/-- Operator `%(BigUnsigned dividend, BigUnsigned divisor)`. -/
def mod (dividend divisor : Data) : Except Err Data :=
  (divMod dividend divisor).map Prod.snd

/-- Operator `-(BigUnsigned a, BigUnsigned b)`: `a -= b; return a;`. -/
def sub (a b : Data) : Except Err Data := subAssign a b

/-! ### Exponentiation and gcd -/

/-- The mask `(WordType)1 << bitIndex`. -/
def bitMask (bitIndex : Nat) : Nat := (1 <<< bitIndex) % WordModulus

/-- The test `(word & ((WordType)1 << bitIndex)) != 0`. -/
def bitIsSet (word bitIndex : Nat) : Bool := (word &&& bitMask bitIndex) != 0

/-- The update `word &= ~((WordType)1 << bitIndex)`. -/
def clearBit (word bitIndex : Nat) : Nat := word &&& (WordMax ^^^ bitMask bitIndex)

/-- The in-place write `data->words[i] = v`. -/
def Data.setWord (d : Data) (i v : Nat) : Data := { d with words := d.words.set i v }

/-- The `while` loop of `pow(BigUnsigned, BigUnsigned)`.  The first argument
bounds the number of iterations. -/
def powLoop : Nat → Data → Data → Data → Nat → Nat → Except Err Data
  | 0, _, retval, exponent, wordIndex, _ =>
    if wordIndex < exponent.size ∧ rd exponent.words (exponent.size - 1) ≠ 0 then
      .error .outOfFuel
    else .ok retval
  | fuel + 1, base, retval, exponent, wordIndex, bitIndex =>
    if wordIndex < exponent.size ∧ rd exponent.words (exponent.size - 1) ≠ 0 then
      let base := mul base base
      let taken := bitIsSet (rd exponent.words wordIndex) bitIndex
      let exponent :=
        if taken then
          exponent.setWord wordIndex (clearBit (rd exponent.words wordIndex) bitIndex)
        else exponent
      let retval := if taken then mul retval base else retval
      if bitIndex + 1 ≥ BitsPerWord then
        powLoop fuel base retval exponent (wordIndex + 1) 0
      else
        powLoop fuel base retval exponent wordIndex (bitIndex + 1)
    else .ok retval

/-- Function `pow(BigUnsigned base, BigUnsigned exponent)`.  The loop advances
one bit position per iteration and stops at the latest when the word index
reaches `size`, so `32 * size` iterations are allowed. -/
def pow (base exponent : Data) : Except Err Data :=
  let retval := ofWord 1
  let exponent := exponent.onWrite
  let taken := bitIsSet (rd exponent.words 0) 0
  let retval := if taken then base else retval
  let exponent :=
    if taken then exponent.setWord 0 (clearBit (rd exponent.words 0) 0) else exponent
  powLoop (BitsPerWord * exponent.size) base retval exponent 0 1

/-- The `while` loop of `powMod(BigUnsigned, BigUnsigned, BigUnsigned)`. -/
def powModLoop : Nat → Data → Data → Data → Data → Nat → Nat → Except Err Data
  | 0, _, retval, exponent, _, wordIndex, _ =>
    if wordIndex < exponent.size ∧ rd exponent.words (exponent.size - 1) ≠ 0 then
      .error .outOfFuel
    else .ok retval
  | fuel + 1, base, retval, exponent, modulus, wordIndex, bitIndex =>
    if wordIndex < exponent.size ∧ rd exponent.words (exponent.size - 1) ≠ 0 then
      match mod (mul base base) modulus with
      | .error e => .error e
      | .ok base =>
        let taken := bitIsSet (rd exponent.words wordIndex) bitIndex
        let exponent :=
          if taken then
            exponent.setWord wordIndex (clearBit (rd exponent.words wordIndex) bitIndex)
          else exponent
        match (if taken then mod (mul retval base) modulus else .ok retval) with
        | .error e => .error e
        | .ok retval =>
          if bitIndex + 1 ≥ BitsPerWord then
            powModLoop fuel base retval exponent modulus (wordIndex + 1) 0
          else
            powModLoop fuel base retval exponent modulus wordIndex (bitIndex + 1)
    else .ok retval

/-- Function `powMod(BigUnsigned base, BigUnsigned exponent, BigUnsigned modulus)`. -/
def powMod (base exponent modulus : Data) : Except Err Data :=
  if eqWord modulus 1 then .ok (ofWord 0)
  else
    match mod base modulus with
    | .error e => .error e
    | .ok base =>
      let retval := ofWord 1
      let exponent := exponent.onWrite
      let taken := bitIsSet (rd exponent.words 0) 0
      let retval := if taken then base else retval
      let exponent :=
        if taken then exponent.setWord 0 (clearBit (rd exponent.words 0) 0) else exponent
      powModLoop (BitsPerWord * exponent.size) base retval exponent modulus 0 1

/-- The loop `for(;;)` of `gcd(BigUnsigned, BigUnsigned)`.  The first argument
bounds the number of iterations. -/
def gcdLoop : Nat → Data → Data → Except Err Data
  | 0, _, _ => .error .outOfFuel
  | fuel + 1, a, b =>
    match mod a b with
    | .error e => .error e
    | .ok c => if eqWord c 0 then .ok b else gcdLoop fuel b c

/-- Function `gcd(BigUnsigned a, BigUnsigned b)`.  The second operand of the
loop decreases at every iteration, so its value bounds the iterations. -/
def gcd (sameData : Bool) (a b : Data) : Except Err Data :=
  if eqWord a 0 || eqWord b 0 then .ok (ofWord 0)
  else if eqWord a 1 || eqWord b 1 then .ok (ofWord 1)
  else
    let swapped := opLt sameData a b
    let a1 := if swapped then b else a
    let b1 := if swapped then a else b
    gcdLoop (b1.value + 1) a1 b1

/-! ### BigInteger -/

/-- Class `BigInteger`: a magnitude and a sign flag. -/
structure BigInteger where
  value : Data
  negative : Bool
  deriving DecidableEq, Repr

/-- The integer a `BigInteger` denotes: sign times magnitude. -/
def BigInteger.toInt (x : BigInteger) : Int :=
  if x.negative then -(x.value.value : Int) else (x.value.value : Int)

/-- Private constructor `BigInteger(BigUnsigned value, bool negative)`.  The
member initializers copy the two parameters into the members.  In the body the
names `value` and `negative` denote the parameters, which hide the members, so
`negative = false` is an assignment to the parameter: the members are as the
initializers left them. -/
def BigInteger.ofSignMagnitude (value : Data) (negative : Bool) : BigInteger :=
  let self : BigInteger := { value := value, negative := negative }
  let negativeParameter := if eqWord value 0 then false else negative
  (self, negativeParameter).1

/-- Constructor `BigInteger(BigUnsigned value)`. -/
def BigInteger.ofMagnitude (value : Data) : BigInteger :=
  { value := value, negative := false }

/-- Constructor `BigInteger(WordType value)`. -/
def BigInteger.ofWord (value : Nat) : BigInteger :=
  { value := BigMath.ofWord value, negative := false }

/-- Operator `+=(BigInteger rt)`; `sameData` is `value.data == rt.value.data`. -/
def BigInteger.addAssign (sameData : Bool) (self rt : BigInteger) : Except Err BigInteger :=
  if self.negative && rt.negative then
    .ok { self with value := add self.value rt.value }
  else if !self.negative && !rt.negative then
    .ok { self with value := add self.value rt.value }
  else if self.negative then
    let negative := opGt sameData self.value rt.value
    if negative then
      (subAssign self.value rt.value).map (fun v => { value := v, negative := negative })
    else
      (sub rt.value self.value).map (fun v => { value := v, negative := negative })
  else
    let negative := opLt sameData self.value rt.value
    if negative then
      (sub rt.value self.value).map (fun v => { value := v, negative := negative })
    else
      (subAssign self.value rt.value).map (fun v => { value := v, negative := negative })

/-- Unary operator `-`. -/
def BigInteger.neg (self : BigInteger) : BigInteger :=
  BigInteger.ofSignMagnitude self.value (!self.negative)

/-- Function `abs(BigInteger v)`. -/
def BigInteger.abs (v : BigInteger) : BigInteger :=
  BigInteger.ofSignMagnitude v.value false

/-- Operator `-=(BigInteger rt)`: `*this += -rt`. -/
def BigInteger.subAssign (sameData : Bool) (self rt : BigInteger) : Except Err BigInteger :=
  BigInteger.addAssign sameData self rt.neg

/-- Operator `+(BigInteger a, BigInteger b)`: `a += b`. -/
def BigInteger.add (sameData : Bool) (a b : BigInteger) : Except Err BigInteger :=
  BigInteger.addAssign sameData a b

/-- Operator `-(BigInteger a, BigInteger b)`: `a + -b`. -/
def BigInteger.sub (sameData : Bool) (a b : BigInteger) : Except Err BigInteger :=
  BigInteger.add sameData a b.neg

/-- Operator `*(BigInteger a, BigInteger b)`. -/
def BigInteger.mul (a b : BigInteger) : BigInteger :=
  BigInteger.ofSignMagnitude (BigMath.mul a.value b.value)
    (if a.negative then !b.negative else b.negative)

/-- Operator `/(BigInteger a, BigInteger b)`. -/
def BigInteger.div (a b : BigInteger) : Except Err BigInteger :=
  (BigMath.div a.value b.value).map
    (fun q => BigInteger.ofSignMagnitude q (if a.negative then !b.negative else b.negative))

/-- Operator `%(BigInteger a, BigInteger b)`. -/
def BigInteger.mod (a b : BigInteger) : Except Err BigInteger :=
  (BigMath.mod a.value b.value).map (fun r => BigInteger.ofSignMagnitude r a.negative)

/-- Operator `==(BigInteger a, BigInteger b)`. -/
def BigInteger.opEq (sameData : Bool) (a b : BigInteger) : Bool :=
  if eqWord a.value 0 && eqWord b.value 0 then true
  else a.negative == b.negative && BigMath.opEq sameData a.value b.value

/-- The word at position `i` of the sequence observed through a buffer, zero
from `size` on. -/
def Data.word (d : Data) (i : Nat) : Nat := if i < d.size then rd d.words i else 0

/-! ### Heap: shared buffers -/

/-- The store: the buffer at each address (`none` once deleted) and the static
pointer `smallNumbers` (`none` while null), the address of the first of the
`SmallNumberCount` table entries. -/
structure State where
  heap : List (Option Data)
  smallNumbers : Option Nat
  deriving DecidableEq, Repr

/-- Class `BigUnsigned`: the pointer `data`. -/
structure BigUnsigned where
  data : Nat
  deriving DecidableEq, Repr

/-- The enumerator `SmallNumberCount`. -/
def SmallNumberCount : Nat := 32

/-- Dereference of a pointer. -/
def State.get (s : State) (p : Nat) : Option Data := s.heap.getD p none

/-- Store through a pointer. -/
def State.put (s : State) (p : Nat) (d : Data) : State :=
  { s with heap := s.heap.set p (some d) }

/-- Expression `new Data(...)`: the new buffer is placed at a fresh address. -/
def State.alloc (s : State) (d : Data) : State × Nat :=
  ({ s with heap := s.heap ++ [some d] }, s.heap.length)

/-- Call `p->addRef()`. -/
def State.addRef (s : State) (p : Nat) : State :=
  match s.get p with
  | some d => s.put p d.addRef
  | none => s

/-- Call `p->delRef()`: the count is lowered and the buffer deleted at zero. -/
def State.delRef (s : State) (p : Nat) : State :=
  match s.get p with
  | some d =>
    if d.refCount - 1 = 0 then { s with heap := s.heap.set p none }
    else s.put p { d with refCount := d.refCount - 1 }
  | none => s

/-- What a holder of the pointer `p` observes: the length and the storage. -/
def State.view (s : State) (p : Nat) : Option (Nat × List Nat) :=
  (s.get p).map (fun d => (d.size, d.words))

/-- Copy constructor `BigUnsigned(const BigUnsigned & rt)`. -/
def BigUnsigned.copy (s : State) (rt : BigUnsigned) : State × BigUnsigned :=
  (s.addRef rt.data, { data := rt.data })

/-- Method `BigUnsigned::onWrite()`. -/
def BigUnsigned.onWrite (s : State) (self : BigUnsigned) : State × BigUnsigned :=
  match s.get self.data with
  | none => (s, self)
  | some d =>
    if d.refCount ≤ 1 then (s, self)
    else
      let r := s.alloc d.copy
      (r.1.delRef self.data, { data := r.2 })

/-- In-place writes through `data` described by `f`, without `onWrite()`. -/
def BigUnsigned.modify (f : Data → Data) (s : State) (self : BigUnsigned) : State :=
  match s.get self.data with
  | none => s
  | some d => s.put self.data (f d)

/-- A mutator of the form `onWrite();` followed by in-place writes. -/
def BigUnsigned.mutate (f : Data → Data) (s : State) (self : BigUnsigned) :
    State × BigUnsigned :=
  let r := BigUnsigned.onWrite s self
  (BigUnsigned.modify f r.1 r.2, r.2)

/-- The lazy allocation `smallNumbers = new Data[SmallNumberCount]` with
`smallNumbers[i].words[0] = i`; returns the address of entry 0. -/
def State.initSmallNumbers (s : State) : State × Nat :=
  match s.smallNumbers with
  | some base => (s, base)
  | none =>
    ({ heap := s.heap ++
        (List.range SmallNumberCount).map (fun i => some ((Data.new 0 1).setWord 0 i)),
       smallNumbers := some s.heap.length }, s.heap.length)

/-- Constructor `BigUnsigned(WordType v = 0)` on the store. -/
def BigUnsigned.ofWordH (s : State) (v : Nat) : State × BigUnsigned :=
  if v < SmallNumberCount then
    let r := s.initSmallNumbers
    (r.1.addRef (r.2 + v), { data := r.2 + v })
  else
    let r := s.alloc (Data.new v 1)
    (r.1, { data := r.2 })

/-- Operator `=(WordType v)` on the store; the temporary `bv` takes the old
buffer in `swap` and releases it in its destructor. -/
def BigUnsigned.assignWord (s : State) (self : BigUnsigned) (v : Nat) :
    State × BigUnsigned :=
  match s.get self.data with
  | none => (s, self)
  | some d =>
    if d.size = 1 ∧ rd d.words 0 = v then (s, self)
    else if d.refCount > 1 then
      let r := BigUnsigned.ofWordH s v
      (r.1.delRef self.data, r.2)
    else
      (s.put self.data ({ d with size := 1 }.setWord 0 v), self)

/-- A mutator with a magnitude parameter `b` passed by value.  The parameter
is copy-constructed from the argument on entry, so that it is one more holder
of the argument's buffer while the body runs, and destroyed on return.  The
body is `onWrite();` followed by in-place writes that read the buffer `bd` of
the parameter; `g d bd` describes them. -/
def BigUnsigned.mutateWith (g : Data → Data → Data) (s : State) (self b : BigUnsigned) :
    State × BigUnsigned :=
  let c := BigUnsigned.copy s b
  match c.1.get c.2.data with
  | none => (s, self)
  | some bd =>
    let r := BigUnsigned.mutate (fun d => g d bd) c.1 self
    (r.1.delRef c.2.data, r.2)

/-- Operator `^=(BigUnsigned b)` on the store. -/
def BigUnsigned.xorAssign (s : State) (self b : BigUnsigned) : State × BigUnsigned :=
  BigUnsigned.mutateWith BigMath.xorAssign s self b

/-- Operator `|=(BigUnsigned b)` on the store. -/
def BigUnsigned.orAssign (s : State) (self b : BigUnsigned) : State × BigUnsigned :=
  BigUnsigned.mutateWith BigMath.orAssign s self b

/-- Operator `&=(BigUnsigned b)` on the store. -/
def BigUnsigned.andAssign (s : State) (self b : BigUnsigned) : State × BigUnsigned :=
  BigUnsigned.mutateWith BigMath.andAssign s self b

/-- Operator `^=(WordType b)` on the store. -/
def BigUnsigned.xorAssignWord (s : State) (self : BigUnsigned) (b : Nat) :
    State × BigUnsigned :=
  BigUnsigned.mutate (fun d => BigMath.xorAssignWord d b) s self

/-- Operator `|=(WordType b)` on the store. -/
def BigUnsigned.orAssignWord (s : State) (self : BigUnsigned) (b : Nat) :
    State × BigUnsigned :=
  BigUnsigned.mutate (fun d => BigMath.orAssignWord d b) s self

/-- Operator `&=(WordType b)` on the store. -/
def BigUnsigned.andAssignWord (s : State) (self : BigUnsigned) (b : Nat) :
    State × BigUnsigned :=
  BigUnsigned.mutate (fun d => BigMath.andAssignWord d b) s self

/-- Method `normalize()` on the store. -/
def BigUnsigned.normalize (s : State) (self : BigUnsigned) : State × BigUnsigned :=
  BigUnsigned.mutate Data.normalize s self

/-- The writes of `pow` and `powMod` to their by-value argument `exponent`:
`exponent.onWrite();` once, then for a sequence of positions the statement
`exponent.data->words[wordIndex] &= ~((WordType)1 << bitIndex)`. -/
def BigUnsigned.clearExponentBits (s : State) (exponent : BigUnsigned)
    (positions : List (Nat × Nat)) : State × BigUnsigned :=
  let r := BigUnsigned.onWrite s exponent
  (positions.foldl (fun st p =>
      BigUnsigned.modify (fun d => d.setWord p.1 (clearBit (rd d.words p.1) p.2)) st r.2)
    r.1, r.2)

/-- Operator `-(WordType a, BigUnsigned b)` on the store.  For `a < b` the
header delegates to the declared-only `-=`, which fails with an underflow
error. -/
def BigUnsigned.wordMinus (s : State) (a : Nat) (b : BigUnsigned) :
    Except Err (State × BigUnsigned) :=
  match s.get b.data with
  | none => .ok (s, b)
  | some bd =>
    if gtWordRight bd a then .error .underflow
    else
      .ok (BigUnsigned.mutate
        (fun d => d.setWord 0 ((a + WordModulus - rd d.words 0) % WordModulus)) s b)

/-! ### Word forms of the bitwise operators -/

/-- Operators `&(BigUnsigned a, WordType b)` and `&(WordType a, BigUnsigned b)`:
the magnitude is a by-value copy and receives `&=`. -/
def opAndWord (a : Data) (w : Nat) : Data := andAssignWord a.addRef w

/-- Operators `|(BigUnsigned a, WordType b)` and `|(WordType a, BigUnsigned b)`. -/
def opOrWord (a : Data) (w : Nat) : Data := orAssignWord a.addRef w

/-- Operators `^(BigUnsigned a, WordType b)` and `^(WordType a, BigUnsigned b)`. -/
def opXorWord (a : Data) (w : Nat) : Data := xorAssignWord a.addRef w

/-! ### Conversions and signed exponentiation -/

/-- Conversion `explicit operator BigUnsigned() const` of `BigInteger`. -/
def BigInteger.toBigUnsigned (self : BigInteger) : Except Err Data :=
  if neWord self.value 0 && self.negative then .error .signConversion
  else .ok self.value

/-- The cast `(WordType)x` of a signed machine integer: reduction modulo `2^32`. -/
def toWordType (x : Int) : Nat := (x % 4294967296).toNat

/-- Function `abs(int)` for an `int` other than `INT_MIN`.  At `INT_MIN` the
negation overflows and the behaviour of `abs` is undefined: the value
`2^31` this definition has there is not an `int` and stands for no behaviour
of the code, and every statement about `abs(int)` below takes
`INT_MIN < value`. -/
def absInt (value : Int) : Int := if value < 0 then -value else value

/-- Function `abs(long)` for a `long` other than `LONG_MIN`; as for
`abs(int)`, the behaviour at `LONG_MIN` is undefined and every statement below
takes `LONG_MIN < value`. -/
def absLong (value : Int) : Int := if value < 0 then -value else value

/-- Constructor `BigInteger(int value)`, for `INT_MIN < value <= INT_MAX`. -/
def BigInteger.ofInt (value : Int) : BigInteger :=
  { value := BigMath.ofWord (toWordType (absInt value)), negative := decide (value < 0) }

/-- Constructor `BigInteger(long value)`, `long` being 64 bits wide, for
`LONG_MIN < value <= LONG_MAX`. -/
def BigInteger.ofLong (value : Int) : BigInteger :=
  { value := BigMath.ofWord (toWordType (absLong value)), negative := decide (value < 0) }

/-- Function `compare(BigInteger a, BigInteger b)`; `sameData` is
`a.value.data == b.value.data`. -/
def BigInteger.compare (sameData : Bool) (a b : BigInteger) : Int :=
  if eqWord a.value 0 && eqWord b.value 0 then 0
  else if a.negative && !b.negative then -1
  else if !a.negative && b.negative then 1
  else if a.negative then -(BigMath.compare sameData a.value b.value)
  else BigMath.compare sameData a.value b.value

/-- Operator `<(BigInteger a, BigInteger b)`. -/
def BigInteger.opLt (sameData : Bool) (a b : BigInteger) : Bool :=
  decide (BigInteger.compare sameData a b < 0)

/-- Function `pow(BigInteger base, BigInteger exponent)`; the literal `0` of
`exponent < 0` is converted by `BigInteger(int)`, and `sameData` says whether
the exponent shares the buffer of that zero. -/
def BigInteger.pow (sameData : Bool) (base exponent : BigInteger) : Except Err BigInteger :=
  if BigInteger.opLt sameData exponent (BigInteger.ofInt 0) then .error .negativeExponent
  else
    (BigMath.pow base.value exponent.value).map (fun p =>
      BigInteger.ofSignMagnitude p (base.negative && neWord (opAndWord exponent.value 1) 0))

/-- Function `powMod(BigInteger base, BigInteger exponent, BigInteger modulus)`. -/
def BigInteger.powMod (sameData : Bool) (base exponent modulus : BigInteger) :
    Except Err BigInteger :=
  if BigInteger.opLt sameData exponent (BigInteger.ofInt 0) then .error .negativeExponent
  else
    (BigMath.powMod base.value exponent.value modulus.value).map (fun p =>
      BigInteger.ofSignMagnitude p (base.negative && neWord (opAndWord exponent.value 1) 0))

/-! ### Parsing -/

/-- Modelled from the spec: the digit value of a character, `0`-`9` by digit
and letters of either case from 10 up to 35; other characters have none. -/
def digitValue (c : Char) : Option Nat :=
  if 48 ≤ c.toNat ∧ c.toNat ≤ 57 then some (c.toNat - 48)
  else if 97 ≤ c.toNat ∧ c.toNat ≤ 122 then some (c.toNat - 97 + 10)
  else if 65 ≤ c.toNat ∧ c.toNat ≤ 90 then some (c.toNat - 65 + 10)
  else none

/-- Modelled from the spec: the accumulation `value = value * base + digit` over
the characters from left to right, failing with an InvalidDigitError at a
character whose digit value is not below the base. -/
def parseDigits (base : Nat) : List Char → Nat → Except Err Nat
  | [], acc => .ok acc
  | c :: rest, acc =>
    match digitValue c with
    | none => .error .invalidDigit
    | some digit =>
      if digit ≥ base then .error .invalidDigit
      else parseDigits base rest (acc * base + digit)

/-- Modelled from the spec: `BigUnsigned::parse(string str, unsigned base)` is
declared in the header and defined elsewhere. -/
def parseBase (str : List Char) (base : Nat) : Except Err Data :=
  (parseDigits base str 0).map Data.ofNat

/-- Function `BigUnsigned::parse(string str, bool useOctal = false)`;
`str.substr(0, n)` is `take n` and `str.substr(n)` is `drop n`. -/
def parse (str : List Char) (useOctal : Bool) : Except Err Data :=
  if str.take 2 = ['0', 'x'] ∨ str.take 2 = ['0', 'X'] then parseBase (str.drop 2) 0x10
  else if useOctal = true ∧ str.take 1 = ['0'] then parseBase (str.drop 1) 8
  else parseBase str 10

/-- Function `BigInteger::parse(string str, bool useOctal = false)`. -/
def BigInteger.parse (str : List Char) (useOctal : Bool) : Except Err BigInteger :=
  if str.length = 0 then
    (BigMath.parse str useOctal).map (fun v => BigInteger.ofSignMagnitude v false)
  else if str.head? = some '-' then
    (BigMath.parse (str.drop 1) useOctal).map (fun v => BigInteger.ofSignMagnitude v true)
  else if str.head? = some '+' then
    (BigMath.parse (str.drop 1) useOctal).map (fun v => BigInteger.ofSignMagnitude v false)
  else
    (BigMath.parse str useOctal).map (fun v => BigInteger.ofSignMagnitude v false)

/-! ### Reachable stores -/

/-- Destructor `~BigUnsigned()`. -/
def BigUnsigned.destroy (s : State) (self : BigUnsigned) : State :=
  s.delRef self.data

/-- Copy assignment `operator =(const BigUnsigned & rt)`. -/
def BigUnsigned.assign (s : State) (self rt : BigUnsigned) : State × BigUnsigned :=
  ((s.addRef rt.data).delRef self.data, { data := rt.data })

/-- The store together with the `BigUnsigned` objects that are alive. -/
structure World where
  state : State
  handles : List BigUnsigned

/-- The start of the program: nothing allocated, `smallNumbers` null. -/
def World.init : World := { state := { heap := [], smallNumbers := none }, handles := [] }

/-- The operations on `BigUnsigned` objects that touch the store.  `result` is
a magnitude returned in a buffer of its own by an operator defined outside the
header.  Modelled from the spec: `mutate` stands for the mutators declared in
the header and defined elsewhere (`+=`, `-=`, `<<=`, `>>=`), each of which
first ensures unique ownership of its buffer and then writes in place.  `swap`
and the move operations exchange pointers and change neither the store nor
the collection of live pointers. -/
inductive Op where
  | construct (v : Nat)
  | result (d : Data)
  | copy (x : BigUnsigned)
  | destroy (x : BigUnsigned)
  | assign (x y : BigUnsigned)
  | assignWord (x : BigUnsigned) (v : Nat)
  | xorAssign (x b : BigUnsigned)
  | orAssign (x b : BigUnsigned)
  | andAssign (x b : BigUnsigned)
  | xorAssignWord (x : BigUnsigned) (v : Nat)
  | orAssignWord (x : BigUnsigned) (v : Nat)
  | andAssignWord (x : BigUnsigned) (v : Nat)
  | normalize (x : BigUnsigned)
  | clearExponentBits (x : BigUnsigned) (positions : List (Nat × Nat))
  | wordMinus (v : Nat) (x : BigUnsigned)
  | mutate (x : BigUnsigned) (f : Data → Data)

/-- One operation; an operation on an object that is not alive does nothing. -/
def World.step (w : World) : Op → World
  | .construct v =>
    let r := BigUnsigned.ofWordH w.state v
    { state := r.1, handles := r.2 :: w.handles }
  | .result d =>
    let r := w.state.alloc { d with refCount := 1 }
    { state := r.1, handles := { data := r.2 } :: w.handles }
  | .copy x =>
    if x ∈ w.handles then
      let r := BigUnsigned.copy w.state x
      { state := r.1, handles := r.2 :: w.handles }
    else w
  | .destroy x =>
    if x ∈ w.handles then
      { state := BigUnsigned.destroy w.state x, handles := w.handles.erase x }
    else w
  | .assign x y =>
    if x ∈ w.handles ∧ y ∈ w.handles then
      let r := BigUnsigned.assign w.state x y
      { state := r.1, handles := r.2 :: w.handles.erase x }
    else w
  | .assignWord x v =>
    if x ∈ w.handles then
      let r := BigUnsigned.assignWord w.state x v
      { state := r.1, handles := r.2 :: w.handles.erase x }
    else w
  | .xorAssign x b =>
    if x ∈ w.handles then
      let r := BigUnsigned.xorAssign w.state x b
      { state := r.1, handles := r.2 :: w.handles.erase x }
    else w
  | .orAssign x b =>
    if x ∈ w.handles then
      let r := BigUnsigned.orAssign w.state x b
      { state := r.1, handles := r.2 :: w.handles.erase x }
    else w
  | .andAssign x b =>
    if x ∈ w.handles then
      let r := BigUnsigned.andAssign w.state x b
      { state := r.1, handles := r.2 :: w.handles.erase x }
    else w
  | .xorAssignWord x v =>
    if x ∈ w.handles then
      let r := BigUnsigned.xorAssignWord w.state x v
      { state := r.1, handles := r.2 :: w.handles.erase x }
    else w
  | .orAssignWord x v =>
    if x ∈ w.handles then
      let r := BigUnsigned.orAssignWord w.state x v
      { state := r.1, handles := r.2 :: w.handles.erase x }
    else w
  | .andAssignWord x v =>
    if x ∈ w.handles then
      let r := BigUnsigned.andAssignWord w.state x v
      { state := r.1, handles := r.2 :: w.handles.erase x }
    else w
  | .normalize x =>
    if x ∈ w.handles then
      let r := BigUnsigned.normalize w.state x
      { state := r.1, handles := r.2 :: w.handles.erase x }
    else w
  | .clearExponentBits x positions =>
    if x ∈ w.handles then
      let r := BigUnsigned.clearExponentBits w.state x positions
      { state := r.1, handles := r.2 :: w.handles.erase x }
    else w
  | .wordMinus v x =>
    if x ∈ w.handles then
      match BigUnsigned.wordMinus w.state v x with
      | .ok r => { state := r.1, handles := r.2 :: w.handles.erase x }
      | .error _ => w
    else w
  | .mutate x f =>
    if x ∈ w.handles then
      let r := BigUnsigned.mutate f w.state x
      { state := r.1, handles := r.2 :: w.handles.erase x }
    else w

/-- The states a program can reach. -/
inductive Reachable : World → Prop where
  | init : Reachable World.init
  | step {w : World} (op : Op) : Reachable w → Reachable (w.step op)

/-- The small number table is intact: entry `i` has length 1, the single word
`i`, and a reference count of one plus the number of live objects that point
at it. -/
def World.tableIntact (w : World) : Prop :=
  ∀ base, w.state.smallNumbers = some base → ∀ i, i < SmallNumberCount →
    ∃ d, w.state.get (base + i) = some d ∧ d.size = 1 ∧ d.words = [i] ∧
      d.refCount = 1 + w.handles.count { data := base + i }

/-- Every live object points into the store. -/
def World.bounded (w : World) : Prop :=
  ∀ h ∈ w.handles, h.data < w.state.heap.length

/-! ### Remaining operators -/

/-- The magnitude subtraction that `BigInteger::operator +=` invokes, as the
pair (minuend, subtrahend), in the branch the operands select; `none` in the
two branches that add. -/
def BigInteger.addAssignSubtraction (sameData : Bool) (self rt : BigInteger) :
    Option (Data × Data) :=
  if self.negative && rt.negative then none
  else if !self.negative && !rt.negative then none
  else if self.negative then
    if BigMath.opGt sameData self.value rt.value then some (self.value, rt.value)
    else some (rt.value, self.value)
  else
    if BigMath.opLt sameData self.value rt.value then some (rt.value, self.value)
    else some (self.value, rt.value)

/-- Prefix `operator ++()` of `BigInteger`: `*this += (WordType)1`. -/
def BigInteger.increment (sameData : Bool) (self : BigInteger) : Except Err BigInteger :=
  BigInteger.addAssign sameData self (BigInteger.ofWord 1)

/-- Prefix `operator --()` of `BigInteger`: `*this -= (WordType)1`. -/
def BigInteger.decrement (sameData : Bool) (self : BigInteger) : Except Err BigInteger :=
  BigInteger.subAssign sameData self (BigInteger.ofWord 1)

/-- Operator `*=(BigInteger b)`: in a member function `negative` is the member. -/
def BigInteger.mulAssign (self b : BigInteger) : BigInteger :=
  let negative := if self.negative then !b.negative else b.negative
  let value := BigMath.mul self.value b.value
  let negative := if eqWord value 0 then false else negative
  { value := value, negative := negative }

/-- Operator `/=(BigInteger b)`. -/
def BigInteger.divAssign (self b : BigInteger) : Except Err BigInteger :=
  let negative := if self.negative then !b.negative else b.negative
  (BigMath.div self.value b.value).map (fun value =>
    { value := value, negative := if eqWord value 0 then false else negative })

/-- Operator `%=(BigInteger b)`. -/
def BigInteger.modAssign (self b : BigInteger) : Except Err BigInteger :=
  (BigMath.mod self.value b.value).map (fun value =>
    { value := value, negative := if eqWord value 0 then false else self.negative })

/-- Operator `<=(BigInteger a, BigInteger b)`. -/
def BigInteger.opLe (sameData : Bool) (a b : BigInteger) : Bool :=
  decide (BigInteger.compare sameData a b ≤ 0)

/-- Operator `>(BigInteger a, BigInteger b)`. -/
def BigInteger.opGt (sameData : Bool) (a b : BigInteger) : Bool :=
  decide (BigInteger.compare sameData a b > 0)

/-- Operator `>=(BigInteger a, BigInteger b)`. -/
def BigInteger.opGe (sameData : Bool) (a b : BigInteger) : Bool :=
  decide (BigInteger.compare sameData a b ≥ 0)

/-- Operator `!=(BigInteger a, BigInteger b)`. -/
def BigInteger.opNe (sameData : Bool) (a b : BigInteger) : Bool :=
  !BigInteger.opEq sameData a b

/-- Operator `<(WordType a, BigUnsigned b)`, which is `operator >(b, a)`. -/
def ltWordLeft (a : Nat) (b : Data) : Bool := gtWordRight b a

/-- Operator `<(BigUnsigned a, WordType b)`, which is `operator >(b, a)`. -/
def ltWordRight (a : Data) (b : Nat) : Bool := gtWordLeft b a

/-- Operator `>=(WordType a, BigUnsigned b)`, which is `!operator <(a, b)`. -/
def geWordLeft (a : Nat) (b : Data) : Bool := !ltWordLeft a b

/-- Operator `>=(BigUnsigned a, WordType b)`, which is `!operator <(a, b)`. -/
def geWordRight (a : Data) (b : Nat) : Bool := !ltWordRight a b

/-- Operator `<=(WordType a, BigUnsigned b)`, which is `!operator >(a, b)`. -/
def leWordLeft (a : Nat) (b : Data) : Bool := !gtWordLeft a b

/-- Operator `<=(BigUnsigned a, WordType b)`, which is `!operator >(a, b)`. -/
def leWordRight (a : Data) (b : Nat) : Bool := !gtWordRight a b

/-! ## Words and values -/

theorem rd_lt {ws : List Nat} (h : ∀ w ∈ ws, w < WordModulus) (i : Nat) :
    rd ws i < WordModulus := by
  unfold rd
  by_cases hi : i < ws.length
  · rw [List.getD_eq_getElem _ _ hi]
    exact h _ (List.getElem_mem hi)
  · rw [List.getD_eq_default _ _ (by omega)]
    decide

theorem rd_of_le {ws : List Nat} {i : Nat} (h : ws.length ≤ i) : rd ws i = 0 := by
  unfold rd
  exact List.getD_eq_default _ _ h

theorem wordsValue_congr {a b : List Nat} {n : Nat} (h : ∀ i, i < n → rd a i = rd b i) :
    wordsValue a n = wordsValue b n := by
  induction n with
  | zero => rfl
  | succ n ih =>
    simp only [wordsValue]
    rw [ih (fun i hi => h i (by omega)), h n (by omega)]

theorem wordsValue_lt {ws : List Nat} (h : ∀ w ∈ ws, w < WordModulus) (n : Nat) :
    wordsValue ws n < 2 ^ (32 * n) := by
  induction n with
  | zero => simp [wordsValue]
  | succ n ih =>
    simp only [wordsValue]
    have h1 : rd ws n < 2 ^ 32 := rd_lt h n
    have h2 : 2 ^ (32 * (n + 1)) = 2 ^ 32 * 2 ^ (32 * n) := by
      rw [← pow_add]; congr 1; ring
    rw [h2]
    have h3 : (rd ws n + 1) * 2 ^ (32 * n) ≤ 2 ^ 32 * 2 ^ (32 * n) :=
      Nat.mul_le_mul_right _ h1
    have h4 : (rd ws n + 1) * 2 ^ (32 * n) = rd ws n * 2 ^ (32 * n) + 2 ^ (32 * n) := by ring
    omega

theorem testBit_wordsValue {ws : List Nat} (h : ∀ w ∈ ws, w < WordModulus) (n k : Nat) :
    (wordsValue ws n).testBit k = (decide (k / 32 < n) && (rd ws (k / 32)).testBit (k % 32)) := by
  induction n with
  | zero => simp [wordsValue]
  | succ n ih =>
    simp only [wordsValue]
    have hlt := wordsValue_lt h n
    have e : wordsValue ws n + rd ws n * 2 ^ (32 * n) = 2 ^ (32 * n) * rd ws n + wordsValue ws n := by
      ring
    rw [e, Nat.testBit_mul_pow_two_add _ hlt]
    by_cases hk : k < 32 * n
    · have : k / 32 < n := by omega
      simp [hk, ih, this]
      intro h'
      omega
    · simp only [hk, if_false]
      by_cases hk2 : k / 32 = n
      · have e2 : k - 32 * n = k % 32 := by omega
        simp [hk2, e2]
      · have hge : 32 ≤ k - 32 * n := by omega
        have hw : rd ws n < 2 ^ (k - 32 * n) :=
          lt_of_lt_of_le (rd_lt h n) (Nat.pow_le_pow_right (by decide) hge)
        rw [Nat.testBit_lt_two_pow hw]
        have : ¬ k / 32 < n + 1 := by omega
        simp [this]

theorem wordsValue_cons (w : Nat) (ws : List Nat) (n : Nat) :
    wordsValue (w :: ws) (n + 1) = w + 2 ^ 32 * wordsValue ws n := by
  induction n with
  | zero => simp [wordsValue, rd]
  | succ n ih =>
    rw [wordsValue, ih]
    have e : rd (w :: ws) (n + 1) = rd ws n := by simp [rd]
    rw [e]
    simp only [wordsValue]
    have h2 : 2 ^ (32 * (n + 1)) = 2 ^ 32 * 2 ^ (32 * n) := by
      rw [← pow_add]; congr 1; ring
    rw [h2]; ring

theorem toWords_length_pos (fuel n : Nat) : 1 ≤ (toWords fuel n).length := by
  cases fuel with
  | zero => simp [toWords]
  | succ f =>
    simp only [toWords]
    split <;> simp

theorem toWords_all_lt (fuel n : Nat) : ∀ w ∈ toWords fuel n, w < WordModulus := by
  induction fuel generalizing n with
  | zero =>
    intro w hw
    simp only [toWords, List.mem_singleton] at hw
    subst hw
    exact Nat.mod_lt _ (by decide)
  | succ f ih =>
    intro w hw
    simp only [toWords] at hw
    split at hw
    · simp only [List.mem_singleton] at hw
      subst hw; assumption
    · rcases List.mem_cons.1 hw with h | h
      · subst h; exact Nat.mod_lt _ (by decide)
      · exact ih _ w h

theorem wordsValue_toWords (fuel n : Nat) (h : n ≤ fuel) :
    wordsValue (toWords fuel n) (toWords fuel n).length = n := by
  induction fuel generalizing n with
  | zero =>
    have : n = 0 := by omega
    subst this
    simp [toWords, wordsValue, rd]
  | succ f ih =>
    simp only [toWords]
    split
    · simp [wordsValue, rd]
    · rename_i hn
      have hM : WordModulus = 2 ^ 32 := rfl
      have hle : n / WordModulus ≤ f := by
        have : n / WordModulus < n := Nat.div_lt_self (by omega) (by decide)
        omega
      rw [List.length_cons, wordsValue_cons, ih _ hle, hM]
      have := Nat.mod_add_div n (2 ^ 32)
      omega

theorem toWords_top (fuel n : Nat) (h : n ≤ fuel) :
    (toWords fuel n).length = 1 ∨ rd (toWords fuel n) ((toWords fuel n).length - 1) ≠ 0 := by
  induction fuel generalizing n with
  | zero => left; simp [toWords]
  | succ f ih =>
    simp only [toWords]
    split
    · left; simp
    · rename_i hn
      right
      have hM : WordModulus = 2 ^ 32 := rfl
      have hlt : n / WordModulus < n := Nat.div_lt_self (by omega) (by decide)
      have hle : n / WordModulus ≤ f := by omega
      have hpos := toWords_length_pos f (n / WordModulus)
      have e : rd (n % WordModulus :: toWords f (n / WordModulus))
          ((n % WordModulus :: toWords f (n / WordModulus)).length - 1)
          = rd (toWords f (n / WordModulus)) ((toWords f (n / WordModulus)).length - 1) := by
        simp only [List.length_cons, Nat.add_sub_cancel]
        obtain ⟨k, hk⟩ : ∃ k, (toWords f (n / WordModulus)).length = k + 1 :=
          ⟨(toWords f (n / WordModulus)).length - 1, by omega⟩
        rw [hk]; simp [rd]
      rw [e]
      rcases ih _ hle with h1 | h1
      · rw [h1]
        have hv := wordsValue_toWords f _ hle
        rw [h1] at hv
        simp only [wordsValue, Nat.mul_zero, pow_zero, Nat.mul_one, Nat.zero_add] at hv
        simp only [Nat.sub_self]
        rw [hv]
        have : 1 ≤ n / WordModulus := (Nat.one_le_div_iff (by decide)).2 (by omega)
        omega
      · exact h1

theorem ofNat_value (n : Nat) : (Data.ofNat n).value = n := by
  simp only [Data.ofNat, Data.value]
  exact wordsValue_toWords n n (le_refl _)

theorem ofNat_wf (n : Nat) : (Data.ofNat n).wf := by
  simp only [Data.ofNat, Data.wf]
  exact ⟨toWords_length_pos n n, le_refl _, trivial, toWords_all_lt n n⟩

theorem ofNat_magnitude (n : Nat) : (Data.ofNat n).magnitude :=
  ⟨ofNat_wf n, by simp only [Data.ofNat, Data.normalized]; exact toWords_top n n (le_refl _)⟩

theorem value_lt {d : Data} (h : d.wf) : d.value < 2 ^ (32 * d.size) :=
  wordsValue_lt h.2.2.2 d.size

/-! ## Comparison -/

theorem wordsValue_succ_lt {a b : List Nat} (ha : ∀ w ∈ a, w < WordModulus)
    (n : Nat) (h : rd a n < rd b n) :
    wordsValue a (n + 1) < wordsValue b (n + 1) := by
  simp only [wordsValue]
  have h1 := wordsValue_lt ha n
  have h3 : (rd a n + 1) * 2 ^ (32 * n) ≤ rd b n * 2 ^ (32 * n) := Nat.mul_le_mul_right _ h
  have h4 : (rd a n + 1) * 2 ^ (32 * n) = rd a n * 2 ^ (32 * n) + 2 ^ (32 * n) := by ring
  omega

theorem gtLoop_spec {a b : List Nat} (ha : ∀ w ∈ a, w < WordModulus)
    (hb : ∀ w ∈ b, w < WordModulus) (n : Nat) :
    gtLoop a b n = decide (wordsValue a n > wordsValue b n) := by
  induction n with
  | zero => simp [gtLoop, wordsValue]
  | succ n ih =>
    simp only [gtLoop]
    by_cases h1 : rd a n > rd b n
    · have := wordsValue_succ_lt hb n h1
      simp [h1, this]
    · by_cases h2 : rd a n < rd b n
      · have := wordsValue_succ_lt ha n h2
        simp [h1, h2]
        omega
      · have e : rd a n = rd b n := by omega
        simp only [h1, h2, if_false, ih, wordsValue, e]
        simp

theorem compareLoop_spec {a b : List Nat} (ha : ∀ w ∈ a, w < WordModulus)
    (hb : ∀ w ∈ b, w < WordModulus) (n : Nat) :
    compareLoop a b n =
      if wordsValue a n > wordsValue b n then 1
      else if wordsValue a n < wordsValue b n then -1 else 0 := by
  induction n with
  | zero => simp [compareLoop, wordsValue]
  | succ n ih =>
    simp only [compareLoop]
    by_cases h1 : rd a n > rd b n
    · have := wordsValue_succ_lt hb n h1
      simp [h1, this]
    · by_cases h2 : rd a n < rd b n
      · have h3 := wordsValue_succ_lt ha n h2
        have h4 : ¬ wordsValue a (n + 1) > wordsValue b (n + 1) := by omega
        simp [h1, h2, h3, h4]
      · have e : rd a n = rd b n := by omega
        simp only [h1, h2, if_false, ih, wordsValue, e]
        simp

theorem wordsValue_inj {a b : List Nat} (ha : ∀ w ∈ a, w < WordModulus)
    (hb : ∀ w ∈ b, w < WordModulus) (n : Nat) (h : wordsValue a n = wordsValue b n) :
    ∀ i, i < n → rd a i = rd b i := by
  induction n with
  | zero => intro i hi; omega
  | succ n ih =>
    have e : rd a n = rd b n := by
      by_contra hne
      rcases Nat.lt_or_gt_of_ne hne with h1 | h1
      · have := wordsValue_succ_lt ha n h1; omega
      · have := wordsValue_succ_lt hb n h1; omega
    have h2 : wordsValue a n = wordsValue b n := by
      simp only [wordsValue, e] at h; omega
    intro i hi
    by_cases hin : i = n
    · subst hin; exact e
    · exact ih h2 i (by omega)

theorem eqLoop_spec {a b : List Nat} (ha : ∀ w ∈ a, w < WordModulus)
    (hb : ∀ w ∈ b, w < WordModulus) (n : Nat) :
    (List.range n).all (fun i => !(rd a i != rd b i))
      = decide (wordsValue a n = wordsValue b n) := by
  by_cases h : wordsValue a n = wordsValue b n
  · have := wordsValue_inj ha hb n h
    simp only [h, decide_True, List.all_eq_true, List.mem_range]
    intro i hi
    simp [this i hi]
  · simp only [h, decide_False]
    rw [Bool.eq_false_iff]
    intro hall
    apply h
    apply wordsValue_congr
    intro i hi
    have := (List.all_eq_true.1 hall) i (List.mem_range.2 hi)
    simpa using this

theorem value_ge_of_top {d : Data} (hs : 1 < d.size) (hn : d.normalized) :
    2 ^ (32 * (d.size - 1)) ≤ d.value := by
  obtain ⟨k, hk⟩ : ∃ k, d.size = k + 1 := ⟨d.size - 1, by omega⟩
  have htop : rd d.words k ≠ 0 := by
    rcases hn with h | h
    · omega
    · rw [hk] at h; simpa using h
  simp only [Data.value, hk, wordsValue, Nat.add_sub_cancel]
  have : 1 * 2 ^ (32 * k) ≤ rd d.words k * 2 ^ (32 * k) :=
    Nat.mul_le_mul_right _ (by omega)
  omega

theorem value_lt_of_size_lt {a b : Data} (ha : a.magnitude) (hb : b.magnitude)
    (h : a.size < b.size) : a.value < b.value := by
  have h1 := value_lt ha.1
  have h2 := value_ge_of_top (by have := ha.1.1; omega) hb.2
  have h3 : 2 ^ (32 * a.size) ≤ 2 ^ (32 * (b.size - 1)) :=
    Nat.pow_le_pow_right (by decide) (by omega)
  omega

theorem opGt_spec (sameData : Bool) {a b : Data} (ha : a.magnitude) (hb : b.magnitude)
    (hs : sameData = true → a = b) : opGt sameData a b = decide (a.value > b.value) := by
  unfold opGt
  cases sameData with
  | true => have := hs rfl; subst this; simp
  | false =>
    simp only [Bool.false_eq_true, if_false]
    by_cases h1 : a.size > b.size
    · have := value_lt_of_size_lt hb ha h1
      simp [h1, this]
    · by_cases h2 : a.size < b.size
      · have := value_lt_of_size_lt ha hb h2
        simp [h1, h2]; omega
      · have e : a.size = b.size := by omega
        simp only [h1, h2, if_false]
        rw [gtLoop_spec ha.1.2.2.2 hb.1.2.2.2]
        simp [Data.value, e]

theorem opEq_spec (sameData : Bool) {a b : Data} (ha : a.magnitude) (hb : b.magnitude)
    (hs : sameData = true → a = b) : opEq sameData a b = decide (a.value = b.value) := by
  unfold opEq
  cases sameData with
  | true => have := hs rfl; subst this; simp
  | false =>
    simp only [Bool.false_eq_true, if_false]
    by_cases h1 : a.size = b.size
    · simp only [h1, ne_eq, not_true_eq_false, if_false]
      rw [← h1, eqLoop_spec ha.1.2.2.2 hb.1.2.2.2]
      simp [Data.value, h1]
    · have : a.value ≠ b.value := by
        rcases Nat.lt_or_gt_of_ne h1 with h | h
        · have := value_lt_of_size_lt ha hb h; omega
        · have := value_lt_of_size_lt hb ha h; omega
      simp [h1, this]

theorem compare_spec (sameData : Bool) {a b : Data} (ha : a.magnitude) (hb : b.magnitude)
    (hs : sameData = true → a = b) :
    compare sameData a b =
      if a.value > b.value then 1 else if a.value < b.value then -1 else 0 := by
  unfold compare
  cases sameData with
  | true => have := hs rfl; subst this; simp
  | false =>
    simp only [Bool.false_eq_true, if_false]
    by_cases h1 : a.size > b.size
    · have := value_lt_of_size_lt hb ha h1
      simp [h1, this]
    · by_cases h2 : a.size < b.size
      · have h3 := value_lt_of_size_lt ha hb h2
        have h4 : ¬ a.value > b.value := by omega
        simp [h1, h2, h3, h4]
      · have e : a.size = b.size := by omega
        simp only [h1, h2, if_false]
        rw [compareLoop_spec ha.1.2.2.2 hb.1.2.2.2]
        simp [Data.value, e]

/-! ## Buffers -/

theorem all_lt_of_rd {ws : List Nat} (h : ∀ i, rd ws i < WordModulus) :
    ∀ w ∈ ws, w < WordModulus := by
  intro w hw
  obtain ⟨n, hn, e⟩ := List.mem_iff_getElem.1 hw
  have := h n
  unfold rd at this
  rw [List.getD_eq_getElem _ _ hn, e] at this
  exact this

theorem rd_set (ws : List Nat) (i v j : Nat) :
    rd (ws.set i v) j = if i = j ∧ i < ws.length then v else rd ws j := by
  unfold rd
  rw [List.getD_eq_getElem?_getD, List.getD_eq_getElem?_getD, List.getElem?_set]
  by_cases h : i = j
  · subst h
    by_cases h2 : i < ws.length
    · simp [h2]
    · simp [h2, List.getElem?_eq_none (Nat.le_of_not_lt h2)]
  · simp [h]

theorem zeroLoop_length (ws : List Nat) (lo n : Nat) :
    ((List.range n).foldl (fun acc k => acc.set (lo + k) 0) ws).length = ws.length := by
  induction n with
  | zero => simp
  | succ n ih => rw [List.range_succ, List.foldl_append]; simp [ih]

theorem zeroFill_length (ws : List Nat) (lo hi : Nat) :
    (zeroFill ws lo hi).length = ws.length :=
  zeroLoop_length ws lo (hi - lo)

theorem rd_zeroFill (ws : List Nat) (lo hi i : Nat) :
    rd (zeroFill ws lo hi) i = if lo ≤ i ∧ i < hi then 0 else rd ws i := by
  unfold zeroFill
  have key : ∀ n, rd ((List.range n).foldl (fun acc k => acc.set (lo + k) 0) ws) i
      = if lo ≤ i ∧ i < lo + n then 0 else rd ws i := by
    intro n
    induction n with
    | zero =>
      have : ¬ (lo ≤ i ∧ i < lo) := by omega
      simp [this]
    | succ n ih =>
      rw [List.range_succ, List.foldl_append]
      simp only [List.foldl_cons, List.foldl_nil]
      rw [rd_set, ih]
      by_cases h1 : lo + n = i
      · subst h1
        have h2 : lo ≤ lo + n ∧ lo + n < lo + (n + 1) := by omega
        have h3 : ¬ (lo ≤ lo + n ∧ lo + n < lo + n) := by omega
        simp only [h2, h3, if_true, if_false, true_and]
        split
        · rfl
        · rename_i hlen
          rw [zeroLoop_length] at hlen
          have h5 : rd ws (lo + n) = 0 := rd_of_le (Nat.le_of_not_lt hlen)
          simp [h5]
      · have h2 : (lo ≤ i ∧ i < lo + (n + 1)) ↔ (lo ≤ i ∧ i < lo + n) := by omega
        simp [h1, h2]
  rw [key]
  by_cases h : lo ≤ i
  · have : lo + (hi - lo) = max lo hi := by omega
    have h2 : (lo ≤ i ∧ i < lo + (hi - lo)) ↔ (lo ≤ i ∧ i < hi) := by omega
    simp [h2]
  · simp [h]

theorem copyInto_length (src : List Nat) (n extent : Nat) :
    (copyInto src n extent).length = extent := by
  simp [copyInto]

theorem rd_copyInto (src : List Nat) (n extent i : Nat) :
    rd (copyInto src n extent) i =
      if i < extent then (if i < n then rd src i else freshWord) else 0 := by
  unfold copyInto
  by_cases h : i < extent
  · simp only [h, if_true]
    unfold rd
    rw [List.getD_eq_getElem?_getD, List.getElem?_map, List.getElem?_range h]
    simp
  · simp only [h, if_false]
    exact rd_of_le (by simp; omega)

theorem wordLoop_length (f : Nat → Nat → Nat) (ws other : List Nat) (n : Nat) :
    (wordLoop f ws other n).length = ws.length := by
  unfold wordLoop
  induction n with
  | zero => simp
  | succ n ih => rw [List.range_succ, List.foldl_append]; simp [ih]

theorem rd_wordLoop (f : Nat → Nat → Nat) (ws other : List Nat) (n i : Nat) :
    rd (wordLoop f ws other n) i =
      if i < n ∧ i < ws.length then f (rd ws i) (rd other i) else rd ws i := by
  induction n with
  | zero => simp [wordLoop]
  | succ n ih =>
    have hl := wordLoop_length f ws other n
    unfold wordLoop at ih hl ⊢
    rw [List.range_succ, List.foldl_append]
    simp only [List.foldl_cons, List.foldl_nil]
    rw [rd_set, hl]
    by_cases h1 : n = i
    · subst h1
      by_cases h2 : n < ws.length
      · have h3 : ¬ (n < n ∧ n < ws.length) := by omega
        have h4 : rd (List.foldl (fun acc i => acc.set i (f (rd acc i) (rd other i))) ws
            (List.range n)) n = rd ws n := by
          rw [ih]; simp
        simp [h2, h4]
      · simp only [h2, and_false, if_false]
        rw [ih]
        simp [h2]
    · have h2 : (i < n + 1 ∧ i < ws.length) ↔ (i < n ∧ i < ws.length) := by omega
      simp only [h1, false_and, if_false, ih, h2]

theorem word_lt {d : Data} (h : d.wf) (i : Nat) : d.word i < WordModulus := by
  unfold Data.word
  split
  · exact rd_lt h.2.2.2 i
  · decide

theorem word_of_le {d : Data} {i : Nat} (h : d.size ≤ i) : d.word i = 0 := by
  unfold Data.word
  simp [Nat.not_lt.2 h]

theorem testBit_value {d : Data} (h : d.wf) (k : Nat) :
    d.value.testBit k = (d.word (k / 32)).testBit (k % 32) := by
  unfold Data.value Data.word
  rw [testBit_wordsValue h.2.2.2]
  by_cases hk : k / 32 < d.size <;> simp [hk]

theorem value_eq_of_word {a b : Data} (ha : a.wf) (hb : b.wf)
    (h : ∀ i, a.word i = b.word i) : a.value = b.value := by
  apply Nat.eq_of_testBit_eq
  intro k
  rw [testBit_value ha, testBit_value hb, h]

theorem copy_wf {d : Data} (h : d.wf) : d.copy.wf := by
  unfold Data.copy
  split
  · refine ⟨le_refl _, le_refl _, rfl, ?_⟩
    intro w hw
    simp only [List.mem_singleton] at hw
    subst hw
    split
    · exact rd_lt h.2.2.2 0
    · decide
  · refine ⟨h.1, by simp [copyInto_length], by simp [copyInto_length], ?_⟩
    apply all_lt_of_rd
    intro i
    rw [rd_copyInto]
    split_ifs
    · exact rd_lt h.2.2.2 i
    · decide

theorem copy_size {d : Data} (h : d.wf) : d.copy.size = d.size := by
  unfold Data.copy
  split
  · have := h.1; simp; omega
  · rfl

theorem copy_word {d : Data} (h : d.wf) (i : Nat) : d.copy.word i = d.word i := by
  have hs := copy_size h
  unfold Data.word
  rw [hs]
  by_cases hi : i < d.size
  · simp only [hi, if_true]
    unfold Data.copy
    split
    · have h1 := h.1
      have : i = 0 := by omega
      subst this
      have : d.size ≠ 0 := by omega
      simp [rd, this]
    · simp only [rd_copyInto, hi, if_true]
  · simp [hi]

theorem copy_refCount (d : Data) : d.copy.refCount = 1 := by
  unfold Data.copy
  split <;> rfl

theorem onWrite_wf {d : Data} (h : d.wf) : d.onWrite.wf := by
  unfold Data.onWrite
  split
  · exact h
  · exact copy_wf h

theorem onWrite_size {d : Data} (h : d.wf) : d.onWrite.size = d.size := by
  unfold Data.onWrite
  split
  · rfl
  · exact copy_size h

theorem onWrite_word {d : Data} (h : d.wf) (i : Nat) : d.onWrite.word i = d.word i := by
  unfold Data.onWrite
  split
  · rfl
  · exact copy_word h i

theorem onWrite_refCount (d : Data) : d.onWrite.refCount ≤ 1 := by
  unfold Data.onWrite
  split
  · assumption
  · rw [copy_refCount]

theorem onWrite_of_le {d : Data} (h : d.refCount ≤ 1) : d.onWrite = d := by
  unfold Data.onWrite
  simp [h]

theorem onWrite_idem (d : Data) : d.onWrite.onWrite = d.onWrite :=
  onWrite_of_le (onWrite_refCount d)

theorem expand_size (d : Data) (m : Nat) : (d.expand m).size = max d.size m := by
  unfold Data.expand
  by_cases hm : m ≤ d.size
  · simp only [hm, if_true]; omega
  · simp only [hm, if_false]; omega

theorem expand_words (d : Data) (m i : Nat) (hm : d.size < m) :
    rd (d.expand m).words i =
      if d.size ≤ i ∧ i < m then 0
      else if m > d.allocated then
        (if i < m + d.size / 4 then (if i < d.size then rd d.words i else freshWord) else 0)
      else rd d.words i := by
  unfold Data.expand
  have h0 : ¬ m ≤ d.size := by omega
  simp only [h0, if_false]
  by_cases h1 : m > d.allocated
  · simp only [h1, if_true, rd_zeroFill, rd_copyInto]
  · simp only [h1, if_false, rd_zeroFill]

theorem expand_length (d : Data) (m : Nat) (hm : d.size < m) :
    (d.expand m).words.length = if m > d.allocated then m + d.size / 4 else d.words.length := by
  unfold Data.expand
  have h0 : ¬ m ≤ d.size := by omega
  simp only [h0, if_false]
  by_cases h1 : m > d.allocated
  · simp only [h1, if_true, zeroFill_length, copyInto_length]
  · simp only [h1, if_false, zeroFill_length]

theorem expand_allocated (d : Data) (m : Nat) (hm : d.size < m) :
    (d.expand m).allocated = if m > d.allocated then m + d.size / 4 else d.allocated := by
  unfold Data.expand
  have h0 : ¬ m ≤ d.size := by omega
  simp only [h0, if_false]
  by_cases h1 : m > d.allocated
  · simp only [h1, if_true]
  · simp only [h1, if_false]

theorem expand_of_le (d : Data) (m : Nat) (hm : m ≤ d.size) : d.expand m = d := by
  unfold Data.expand
  simp [hm]

theorem expand_wf {d : Data} (h : d.wf) (m : Nat) : (d.expand m).wf := by
  by_cases hm : m ≤ d.size
  · rw [expand_of_le d m hm]; exact h
  · have hm2 : d.size < m := by omega
    obtain ⟨h1, h2, h3, h4⟩ := h
    refine ⟨?_, ?_, ?_, ?_⟩
    · rw [expand_size]; omega
    · rw [expand_size, expand_length d m hm2]
      split_ifs <;> omega
    · rw [expand_allocated d m hm2, expand_length d m hm2]
      split_ifs
      · rfl
      · exact h3
    · apply all_lt_of_rd
      intro i
      rw [expand_words d m i hm2]
      split_ifs
      · decide
      · exact rd_lt h4 i
      · decide
      · decide
      · exact rd_lt h4 i

theorem expand_word (d : Data) (m i : Nat) : (d.expand m).word i = d.word i := by
  by_cases hm : m ≤ d.size
  · rw [expand_of_le d m hm]
  · have hm2 : d.size < m := by omega
    unfold Data.word
    rw [expand_size, expand_words d m i hm2]
    by_cases h1 : i < d.size
    · have h2 : i < max d.size m := by omega
      have h3 : ¬ (d.size ≤ i ∧ i < m) := by omega
      have h5 : i < m + d.size / 4 := by omega
      simp [h1, h2, h3, h5]
    · by_cases h2 : i < m
      · have h3 : i < max d.size m := by omega
        have h4 : d.size ≤ i := by omega
        simp [h1, h3, h2, h4]
      · have h3 : ¬ i < max d.size m := by omega
        simp [h1, h3]

theorem normalizeLoop_le (ws : List Nat) (n : Nat) : normalizeLoop ws n ≤ n := by
  induction n with
  | zero => simp [normalizeLoop]
  | succ n ih =>
    simp only [normalizeLoop]
    split
    · omega
    · omega

theorem normalizeLoop_pos (ws : List Nat) (n : Nat) (h : 1 ≤ n) : 1 ≤ normalizeLoop ws n := by
  induction n with
  | zero => omega
  | succ n ih =>
    simp only [normalizeLoop]
    split
    · rename_i hc
      exact ih (by omega)
    · omega

theorem normalizeLoop_zero (ws : List Nat) (n i : Nat) (h1 : normalizeLoop ws n ≤ i)
    (h2 : i < n) : rd ws i = 0 := by
  induction n with
  | zero => omega
  | succ n ih =>
    simp only [normalizeLoop] at h1
    split at h1
    · rename_i hc
      by_cases hi : i = n
      · subst hi; exact hc.2
      · exact ih h1 (by omega)
    · omega

theorem normalizeLoop_top (ws : List Nat) (n : Nat) :
    normalizeLoop ws n = 1 ∨ normalizeLoop ws n = 0 ∨
      rd ws (normalizeLoop ws n - 1) ≠ 0 := by
  induction n with
  | zero => simp [normalizeLoop]
  | succ n ih =>
    simp only [normalizeLoop]
    split
    · exact ih
    · rename_i hc
      by_cases hn : n = 0
      · left; omega
      · right; right
        simp only [Nat.add_sub_cancel]
        intro h0
        exact hc ⟨by omega, h0⟩

theorem normalizeLoop_fixed (ws : List Nat) (n : Nat) (h : n = 1 ∨ rd ws (n - 1) ≠ 0) :
    normalizeLoop ws n = n := by
  cases n with
  | zero => rfl
  | succ n =>
    simp only [normalizeLoop]
    split
    · rename_i hc
      rcases h with h | h
      · omega
      · simp only [Nat.add_sub_cancel] at h
        exact absurd hc.2 h
    · rfl

theorem normalize_wf {d : Data} (h : d.wf) : d.normalize.wf := by
  have hw := onWrite_wf h
  unfold Data.normalize
  obtain ⟨h1, h2, h3, h4⟩ := hw
  exact ⟨normalizeLoop_pos _ _ h1, le_trans (normalizeLoop_le _ _) h2, h3, h4⟩

theorem normalize_size (d : Data) :
    d.normalize.size = normalizeLoop d.onWrite.words d.onWrite.size := rfl

theorem normalize_words (d : Data) : d.normalize.words = d.onWrite.words := rfl

theorem normalize_word {d : Data} (h : d.wf) (i : Nat) : d.normalize.word i = d.word i := by
  rw [← onWrite_word h i]
  unfold Data.word
  rw [normalize_size, normalize_words]
  have hle := normalizeLoop_le d.onWrite.words d.onWrite.size
  by_cases h1 : i < normalizeLoop d.onWrite.words d.onWrite.size
  · have : i < d.onWrite.size := by omega
    simp [h1, this]
  · by_cases h2 : i < d.onWrite.size
    · have := normalizeLoop_zero d.onWrite.words d.onWrite.size i (by omega) h2
      simp [h1, h2, this]
    · simp [h1, h2]

theorem normalize_normalized {d : Data} (h : d.wf) : d.normalize.normalized := by
  have hw := onWrite_wf h
  unfold Data.normalized
  rw [normalize_size, normalize_words]
  rcases normalizeLoop_top d.onWrite.words d.onWrite.size with h1 | h1 | h1
  · left; exact h1
  · have := normalizeLoop_pos d.onWrite.words d.onWrite.size hw.1
    omega
  · right; exact h1

theorem normalize_size_le {d : Data} (h : d.wf) : d.normalize.size ≤ d.size := by
  rw [← onWrite_size h, normalize_size]
  exact normalizeLoop_le _ _

/-! ## Bitwise operators -/

theorem addRef_wf {d : Data} (h : d.wf) : d.addRef.wf := h

theorem addRef_word (d : Data) (i : Nat) : d.addRef.word i = d.word i := rfl

theorem loop_wf (f : Nat → Nat → Nat)
    (hf : ∀ x y, x < WordModulus → y < WordModulus → f x y < WordModulus)
    {d : Data} (hd : d.wf) {other : List Nat} (ho : ∀ w ∈ other, w < WordModulus) (n : Nat) :
    ({ d with words := wordLoop f d.words other n } : Data).wf := by
  obtain ⟨h1, h2, h3, h4⟩ := hd
  refine ⟨h1, by simp [wordLoop_length]; exact h2, by simp [wordLoop_length]; exact h3, ?_⟩
  apply all_lt_of_rd
  intro i
  simp only [rd_wordLoop]
  split_ifs
  · exact hf _ _ (rd_lt h4 i) (rd_lt ho i)
  · exact rd_lt h4 i

theorem loop_word (f : Nat → Nat → Nat) {d : Data} (hd : d.wf) (other : List Nat) (n : Nat)
    (hn : n ≤ d.size) (i : Nat) :
    ({ d with words := wordLoop f d.words other n } : Data).word i =
      if i < n then f (d.word i) (rd other i) else d.word i := by
  unfold Data.word
  simp only [rd_wordLoop]
  have h2 := hd.2.1
  by_cases h1 : i < n
  · have h3 : i < d.size := by omega
    have h4 : i < d.words.length := by omega
    simp [h1, h3, h4]
  · simp [h1]

theorem xorAssign_wf {a b : Data} (ha : a.wf) (hb : b.wf) : (xorAssign a b).wf := by
  unfold xorAssign
  exact normalize_wf (loop_wf _ (fun x y hx hy => Nat.xor_lt_two_pow hx hy)
    (expand_wf (onWrite_wf ha) _) hb.2.2.2 _)

theorem xorAssign_normalized {a b : Data} (ha : a.wf) (hb : b.wf) :
    (xorAssign a b).normalized := by
  unfold xorAssign
  exact normalize_normalized (loop_wf _ (fun x y hx hy => Nat.xor_lt_two_pow hx hy)
    (expand_wf (onWrite_wf ha) _) hb.2.2.2 _)

theorem xorAssign_word {a b : Data} (ha : a.wf) (hb : b.wf) (i : Nat) :
    (xorAssign a b).word i = a.word i ^^^ b.word i := by
  unfold xorAssign
  have hw := expand_wf (onWrite_wf ha) b.size
  simp only []
  rw [normalize_word (loop_wf _ (fun x y hx hy => Nat.xor_lt_two_pow hx hy) hw hb.2.2.2 _),
    loop_word _ hw _ _ (by rw [expand_size]; omega), expand_word, onWrite_word ha]
  by_cases h1 : i < b.size
  · simp [h1, Data.word]
  · simp [h1, Data.word]

theorem orAssign_wf {a b : Data} (ha : a.wf) (hb : b.wf) : (orAssign a b).wf := by
  unfold orAssign
  exact loop_wf _ (fun x y hx hy => Nat.or_lt_two_pow hx hy)
    (expand_wf (onWrite_wf ha) _) hb.2.2.2 _

theorem orAssign_word {a b : Data} (ha : a.wf) (i : Nat) :
    (orAssign a b).word i = a.word i ||| b.word i := by
  unfold orAssign
  have hw := expand_wf (onWrite_wf ha) b.size
  simp only []
  rw [loop_word _ hw _ _ (by rw [expand_size]; omega), expand_word, onWrite_word ha]
  by_cases h1 : i < b.size
  · simp [h1, Data.word]
  · simp [h1, Data.word]

theorem orAssign_size {a b : Data} (ha : a.wf) : (orAssign a b).size = max a.size b.size := by
  unfold orAssign
  show (a.onWrite.expand b.size).size = _
  rw [expand_size, onWrite_size ha]

theorem shrink_wf {d : Data} (hd : d.wf) (n : Nat) (h1 : 1 ≤ n) (h2 : n ≤ d.size) :
    ({ d with size := n } : Data).wf :=
  ⟨h1, le_trans h2 hd.2.1, hd.2.2.1, hd.2.2.2⟩

theorem andAssign_wf {a b : Data} (ha : a.wf) (hb : b.wf) : (andAssign a b).wf := by
  unfold andAssign
  have hw := onWrite_wf ha
  have hs : ({ a.onWrite with size := min a.onWrite.size b.size } : Data).wf :=
    shrink_wf hw _ (by have := hw.1; have := hb.1; omega) (by omega)
  exact normalize_wf (loop_wf _ (fun x y _ hy => Nat.and_lt_two_pow x hy) hs hb.2.2.2 _)

theorem andAssign_normalized {a b : Data} (ha : a.wf) (hb : b.wf) :
    (andAssign a b).normalized := by
  unfold andAssign
  have hw := onWrite_wf ha
  have hs : ({ a.onWrite with size := min a.onWrite.size b.size } : Data).wf :=
    shrink_wf hw _ (by have := hw.1; have := hb.1; omega) (by omega)
  exact normalize_normalized (loop_wf _ (fun x y _ hy => Nat.and_lt_two_pow x hy) hs hb.2.2.2 _)

theorem andAssign_word {a b : Data} (ha : a.wf) (hb : b.wf) (i : Nat) :
    (andAssign a b).word i = a.word i &&& b.word i := by
  unfold andAssign
  have hw := onWrite_wf ha
  have hs : ({ a.onWrite with size := min a.onWrite.size b.size } : Data).wf :=
    shrink_wf hw _ (by have := hw.1; have := hb.1; omega) (by omega)
  simp only []
  rw [normalize_word (loop_wf _ (fun x y _ hy => Nat.and_lt_two_pow x hy) hs hb.2.2.2 _),
    loop_word _ hs _ _ (le_refl _)]
  have e := onWrite_word ha i
  have es := onWrite_size ha
  unfold Data.word at e ⊢
  simp only []
  rw [es] at e ⊢
  by_cases h1 : i < a.size
  · simp only [h1, if_true] at e
    by_cases h2 : i < b.size
    · have h3 : i < min a.size b.size := by omega
      simp [h1, h2, h3, e]
    · have h3 : ¬ i < min a.size b.size := by omega
      simp [h2, h3]
  · have h3 : ¬ i < min a.size b.size := by omega
    simp [h1, h3]

theorem normalize_size_le_of_owned {d : Data} (h : d.refCount ≤ 1) :
    d.normalize.size ≤ d.size := by
  rw [normalize_size, onWrite_of_le h]
  exact normalizeLoop_le _ _

theorem expand_refCount (d : Data) (m : Nat) : (d.expand m).refCount = d.refCount := by
  unfold Data.expand
  split_ifs <;> rfl

theorem andAssign_size {a b : Data} (ha : a.wf) :
    (andAssign a b).size ≤ min a.size b.size := by
  unfold andAssign
  refine le_trans (normalize_size_le_of_owned ?_) ?_
  · exact onWrite_refCount a
  · show min a.onWrite.size b.size ≤ _
    rw [onWrite_size ha]

theorem xorAssign_size {a b : Data} (ha : a.wf) :
    (xorAssign a b).size ≤ max a.size b.size := by
  unfold xorAssign
  refine le_trans (normalize_size_le_of_owned ?_) ?_
  · show (a.onWrite.expand b.size).refCount ≤ 1
    rw [expand_refCount]
    exact onWrite_refCount a
  · show (a.onWrite.expand b.size).size ≤ _
    rw [expand_size, onWrite_size ha]

theorem value_of_word_op {x a b : Data} (hx : x.wf) (ha : a.wf) (hb : b.wf)
    (f : Nat → Nat → Nat) (g : Bool → Bool → Bool)
    (hfg : ∀ m n k, (f m n).testBit k = g (m.testBit k) (n.testBit k))
    (h : ∀ i, x.word i = f (a.word i) (b.word i)) : x.value = f a.value b.value := by
  apply Nat.eq_of_testBit_eq
  intro k
  rw [testBit_value hx, h, hfg, hfg, testBit_value ha, testBit_value hb]

theorem value_eq_sum (d : Data) :
    d.value = ∑ i in Finset.range d.size, rd d.words i * (2 ^ 32) ^ i := by
  unfold Data.value
  induction d.size with
  | zero => simp [wordsValue]
  | succ n ih => rw [Finset.sum_range_succ, ← ih, wordsValue, pow_mul]

/-! ## Claims -/

/-- C8: for normalized magnitudes `a` and `b`, whose value is the sum of
`words[i] * (2^32)^i`, the operators `==`, `!=`, `>`, `<`, `>=`, `<=` decide the
numeric order of the values, `compare` returns 1, 0 or -1 exactly when the
value of `a` is greater than, equal to or less than the value of `b`, exactly
one of `a < b`, `a == b`, `a > b` holds, and the shortcut taken when both
operands designate the same buffer gives the answer of the full comparison. -/
theorem comparison_decides_numeric_order (sameData : Bool) (a b : Data)
    (ha : a.magnitude) (hb : b.magnitude) (hs : sameData = true → a = b) :
    a.value = ∑ i in Finset.range a.size, rd a.words i * (2 ^ 32) ^ i ∧
    opEq sameData a b = decide (a.value = b.value) ∧
    opNe sameData a b = decide (a.value ≠ b.value) ∧
    opGt sameData a b = decide (a.value > b.value) ∧
    opLt sameData a b = decide (a.value < b.value) ∧
    opGe sameData a b = decide (a.value ≥ b.value) ∧
    opLe sameData a b = decide (a.value ≤ b.value) ∧
    (compare sameData a b = 1 ↔ a.value > b.value) ∧
    (compare sameData a b = 0 ↔ a.value = b.value) ∧
    (compare sameData a b = -1 ↔ a.value < b.value) ∧
    ((opLt sameData a b = true ∧ opEq sameData a b = false ∧ opGt sameData a b = false) ∨
     (opLt sameData a b = false ∧ opEq sameData a b = true ∧ opGt sameData a b = false) ∨
     (opLt sameData a b = false ∧ opEq sameData a b = false ∧ opGt sameData a b = true)) ∧
    opEq sameData a b = opEq false a b ∧
    opGt sameData a b = opGt false a b ∧
    opLt sameData a b = opLt false a b ∧
    compare sameData a b = compare false a b := by
  have hs2 : sameData = true → b = a := fun h => (hs h).symm
  have hf : false = true → a = b := fun h => absurd h (by decide)
  have hf2 : false = true → b = a := fun h => absurd h (by decide)
  have e1 := opEq_spec sameData ha hb hs
  have e2 := opGt_spec sameData ha hb hs
  have e3 : opLt sameData a b = decide (a.value < b.value) := opGt_spec sameData hb ha hs2
  have e4 := compare_spec sameData ha hb hs
  have f1 := opEq_spec false ha hb hf
  have f2 := opGt_spec false ha hb hf
  have f3 : opLt false a b = decide (a.value < b.value) := opGt_spec false hb ha hf2
  have f4 := compare_spec false ha hb hf
  refine ⟨value_eq_sum a, e1, ?_, e2, e3, ?_, ?_, ?_, ?_, ?_, ?_, ?_, ?_, ?_, ?_⟩
  · simp [opNe, e1]
  · unfold opGe; rw [e3]
    by_cases h : a.value < b.value
    · have : ¬ a.value ≥ b.value := by omega
      simp [h, this]
    · have : a.value ≥ b.value := by omega
      simp [h, this]
  · unfold opLe; rw [e2]
    by_cases h : a.value > b.value
    · have : ¬ a.value ≤ b.value := by omega
      simp [h, this]
    · have : a.value ≤ b.value := by omega
      simp [h, this]
  · rw [e4]; split_ifs <;> simp <;> omega
  · rw [e4]; split_ifs <;> simp <;> omega
  · rw [e4]; split_ifs <;> simp <;> omega
  · rw [e1, e2, e3]
    rcases Nat.lt_trichotomy a.value b.value with h | h | h
    · left; simp [h]; omega
    · right; left; simp [h]
    · right; right; simp [h]; omega
  · rw [e1, f1]
  · rw [e2, f2]
  · rw [e3, f3]
  · rw [e4, f4]

/-- Witness for C8: the two-word magnitude `2^32 + 7` against the one-word
magnitude `5`. -/
theorem comparison_decides_numeric_order_witness :
    (Data.mk [7, 1] 2 2 1).magnitude ∧ (ofWord 5).magnitude ∧
    opGt false (Data.mk [7, 1] 2 2 1) (ofWord 5)
      = decide ((Data.mk [7, 1] 2 2 1).value > (ofWord 5).value) :=
  ⟨by decide, by decide,
   (comparison_decides_numeric_order false (Data.mk [7, 1] 2 2 1) (ofWord 5)
    (by decide) (by decide) (by simp)).2.2.2.1⟩

/-- C9: for magnitudes `a` and `b` of any word counts, the values of `a & b`,
`a | b` and `a ^ b` are the bitwise AND, OR and XOR of the values of `a` and
`b`; AND has no more words than the shorter operand, OR has as many words as
the longer operand, XOR no more, and at every position from the length of the
shorter operand on, OR and XOR carry the word of the longer operand. -/
theorem bitwise_operators_value (a b : Data) (ha : a.magnitude) (hb : b.magnitude) :
    (opAnd a b).value = a.value &&& b.value ∧
    (opOr a b).value = a.value ||| b.value ∧
    (opXor a b).value = a.value ^^^ b.value ∧
    (opAnd a b).wf ∧ (opOr a b).wf ∧ (opXor a b).wf ∧
    (opAnd a b).size ≤ min a.size b.size ∧
    (opOr a b).size = max a.size b.size ∧
    (opXor a b).size ≤ max a.size b.size ∧
    (∀ i, (opAnd a b).word i = a.word i &&& b.word i) ∧
    (∀ i, min a.size b.size ≤ i →
      (opOr a b).word i = (if a.size ≤ b.size then b.word i else a.word i) ∧
      (opXor a b).word i = (if a.size ≤ b.size then b.word i else a.word i)) := by
  have ha1 : a.addRef.wf := addRef_wf ha.1
  have hb1 := hb.1
  have wand : ∀ i, (opAnd a b).word i = a.word i &&& b.word i := fun i => by
    unfold opAnd; rw [andAssign_word ha1 hb1, addRef_word]
  have wor : ∀ i, (opOr a b).word i = a.word i ||| b.word i := fun i => by
    unfold opOr; rw [orAssign_word ha1, addRef_word]
  have wxor : ∀ i, (opXor a b).word i = a.word i ^^^ b.word i := fun i => by
    unfold opXor; rw [xorAssign_word ha1 hb1, addRef_word]
  have fand : (opAnd a b).wf := andAssign_wf ha1 hb1
  have for_ : (opOr a b).wf := orAssign_wf ha1 hb1
  have fxor : (opXor a b).wf := xorAssign_wf ha1 hb1
  refine ⟨?_, ?_, ?_, fand, for_, fxor, andAssign_size ha1, orAssign_size ha1,
    xorAssign_size ha1, wand, ?_⟩
  · exact value_of_word_op fand ha.1 hb1 (fun x y => x &&& y) (fun x y => x && y)
      (fun m n k => Nat.testBit_and m n k) wand
  · exact value_of_word_op for_ ha.1 hb1 (fun x y => x ||| y) (fun x y => x || y)
      (fun m n k => Nat.testBit_or m n k) wor
  · exact value_of_word_op fxor ha.1 hb1 (fun x y => x ^^^ y) (fun x y => xor x y)
      (fun m n k => Nat.testBit_xor m n k) wxor
  · intro i hi
    rw [wor, wxor]
    by_cases h : a.size ≤ b.size
    · have : a.word i = 0 := word_of_le (by omega)
      simp [h, this]
    · have : b.word i = 0 := word_of_le (by omega)
      simp [h, this]

/-- Witness for C9: the two-word magnitude `2^32 + 7` and the one-word
magnitude `5`. -/
theorem bitwise_operators_value_witness :
    (Data.mk [7, 1] 2 2 1).magnitude ∧ (ofWord 5).magnitude ∧
    (opXor (Data.mk [7, 1] 2 2 1) (ofWord 5)).value
      = (Data.mk [7, 1] 2 2 1).value ^^^ (ofWord 5).value :=
  ⟨by decide, by decide,
   (bitwise_operators_value (Data.mk [7, 1] 2 2 1) (ofWord 5) (by decide) (by decide)).2.2.1⟩

/-! ## Exponentiation -/

theorem bitMask_eq {bi : Nat} (h : bi < 32) : bitMask bi = 2 ^ bi := by
  unfold bitMask
  rw [Nat.one_shiftLeft]
  apply Nat.mod_eq_of_lt
  exact Nat.pow_lt_pow_right (by decide) h

theorem and_two_pow (w bi : Nat) : w &&& 2 ^ bi = if w.testBit bi then 2 ^ bi else 0 := by
  apply Nat.eq_of_testBit_eq
  intro k
  rw [Nat.testBit_and, Nat.testBit_two_pow]
  by_cases h : bi = k
  · subst h
    by_cases h2 : w.testBit bi <;> simp [h2, Nat.testBit_two_pow]
  · by_cases h2 : w.testBit bi <;> simp [h2, h, Nat.testBit_two_pow]

theorem bitIsSet_eq (w : Nat) {bi : Nat} (h : bi < 32) : bitIsSet w bi = w.testBit bi := by
  unfold bitIsSet
  rw [bitMask_eq h, and_two_pow]
  by_cases h2 : w.testBit bi <;> simp [h2]

theorem testBit_word_high {w k : Nat} (hw : w < WordModulus) (hk : 32 ≤ k) :
    w.testBit k = false :=
  Nat.testBit_lt_two_pow (lt_of_lt_of_le hw (Nat.pow_le_pow_right (by decide) hk))

theorem testBit_clearBit {w : Nat} (hw : w < WordModulus) {bi : Nat} (h : bi < 32) (k : Nat) :
    (clearBit w bi).testBit k = (w.testBit k && !decide (k = bi)) := by
  unfold clearBit
  rw [bitMask_eq h, Nat.testBit_and, Nat.testBit_xor, Nat.testBit_two_pow]
  have hm : WordMax = 2 ^ 32 - 1 := rfl
  rw [hm, Nat.testBit_two_pow_sub_one]
  by_cases hk : k < 32
  · by_cases h2 : bi = k
    · subst h2; simp [hk]
    · have h3 : ¬ k = bi := fun e => h2 e.symm
      simp [hk, h2, h3]
  · rw [testBit_word_high hw (by omega)]
    simp

theorem clearBit_lt {w : Nat} (hw : w < WordModulus) (bi : Nat) : clearBit w bi < WordModulus :=
  lt_of_le_of_lt Nat.and_le_left hw

theorem setWord_wf {d : Data} (h : d.wf) (i : Nat) {v : Nat} (hv : v < WordModulus) :
    (d.setWord i v).wf := by
  obtain ⟨h1, h2, h3, h4⟩ := h
  refine ⟨h1, by simp [Data.setWord]; exact h2, by simp [Data.setWord]; exact h3, ?_⟩
  apply all_lt_of_rd
  intro j
  simp only [Data.setWord, rd_set]
  split_ifs
  · exact hv
  · exact rd_lt h4 j

theorem setWord_word {d : Data} (h : d.wf) {i : Nat} (hi : i < d.size) (v j : Nat) :
    (d.setWord i v).word j = if j = i then v else d.word j := by
  unfold Data.word Data.setWord
  simp only [rd_set]
  have := h.2.1
  by_cases hj : j = i
  · subst hj
    have : j < d.words.length := by omega
    simp [hi, this]
  · have : ¬ i = j := fun e => hj e.symm
    simp [hj, this]

theorem setWord_size (d : Data) (i v : Nat) : (d.setWord i v).size = d.size := rfl

theorem testBit_value_clear {e : Data} (he : e.wf) (wi bi : Nat) (hwi : wi < e.size)
    (hbi : bi < 32) (k : Nat) :
    (e.setWord wi (clearBit (rd e.words wi) bi)).value.testBit k
      = (e.value.testBit k && !decide (k = 32 * wi + bi)) := by
  have hw : rd e.words wi < WordModulus := rd_lt he.2.2.2 wi
  rw [testBit_value (setWord_wf he wi (clearBit_lt hw bi)), testBit_value he,
    setWord_word he hwi]
  by_cases h1 : k / 32 = wi
  · subst h1
    have e1 : e.word (k / 32) = rd e.words (k / 32) := by
      unfold Data.word; simp [hwi]
    simp only [if_true]
    rw [testBit_clearBit hw hbi, e1]
    have h3 : (k % 32 = bi) ↔ (k = 32 * (k / 32) + bi) := by omega
    simp [h3]
  · have h3 : ¬ k = 32 * wi + bi := by omega
    simp [h1, h3]

theorem testBit_value_at {e : Data} (he : e.wf) (wi bi : Nat) (hwi : wi < e.size)
    (hbi : bi < 32) :
    bitIsSet (rd e.words wi) bi = e.value.testBit (32 * wi + bi) := by
  rw [bitIsSet_eq _ hbi, testBit_value he]
  have h1 : (32 * wi + bi) / 32 = wi := by omega
  have h2 : (32 * wi + bi) % 32 = bi := by omega
  rw [h1, h2]
  unfold Data.word
  simp [hwi]

theorem mod_two_pow_succ (E p : Nat) :
    E % 2 ^ (p + 1) = E % 2 ^ p + (if E.testBit p then 2 ^ p else 0) := by
  rw [Nat.mod_pow_succ, Nat.testBit_to_div_mod]
  have : E / 2 ^ p % 2 < 2 := Nat.mod_lt _ (by decide)
  by_cases h : E / 2 ^ p % 2 = 1
  · simp [h]
  · have h0 : E / 2 ^ p % 2 = 0 := by omega
    simp [h0]

theorem mul_value (a b : Data) : (mul a b).value = a.value * b.value := ofNat_value _

/-- The exit condition of the exponent loop: once the top word is zero, or the
word index has left the buffer, no bit of the exponent remains at or above the
current position. -/
theorem exponent_exhausted {e : Data} (he : e.wf) {E pos wi : Nat} (hE : E < 2 ^ (32 * e.size))
    (htop : e.size = 1 ∨ 2 ^ (32 * (e.size - 1)) ≤ E) (hpos : 32 * wi ≤ pos)
    (hinv : ∀ k, e.value.testBit k = (E.testBit k && decide (pos ≤ k)))
    (hexit : ¬ (wi < e.size ∧ rd e.words (e.size - 1) ≠ 0)) : E % 2 ^ pos = E := by
  apply Nat.mod_eq_of_lt
  apply Nat.lt_pow_two_of_testBit
  intro k hk
  by_cases hw : wi < e.size
  · have h0 : rd e.words (e.size - 1) = 0 := by
      by_contra h; exact hexit ⟨hw, h⟩
    have hs := he.1
    have hwz : e.word (e.size - 1) = 0 := by
      unfold Data.word
      have : e.size - 1 < e.size := by omega
      simp [this, h0]
    -- every bit of the top word of `E` lies below `pos`
    have htopbits : ∀ j, j / 32 = e.size - 1 → E.testBit j = true → j < pos := by
      intro j hj hbit
      by_contra hlt
      have := hinv j
      rw [testBit_value he, hj, hwz] at this
      simp [hbit] at this
      omega
    by_cases hk2 : k / 32 < e.size - 1
    · -- then the size is at least two and the top word of `E` has a set bit
      exfalso
      have hs2 : e.size ≠ 1 := by omega
      have hge : 2 ^ (32 * (e.size - 1)) ≤ E := by
        rcases htop with h | h
        · exact absurd h hs2
        · exact h
      have : ∃ j, 32 * (e.size - 1) ≤ j ∧ E.testBit j = true := by
        by_contra hno
        have : E < 2 ^ (32 * (e.size - 1)) := by
          apply Nat.lt_pow_two_of_testBit
          intro j hj
          by_contra hb
          exact hno ⟨j, hj, by simpa using hb⟩
        omega
      obtain ⟨j, hj1, hj2⟩ := this
      have hj3 : j < 32 * e.size := by
        by_contra hge2
        have : E.testBit j = false :=
          Nat.testBit_lt_two_pow (lt_of_lt_of_le hE (Nat.pow_le_pow_right (by decide)
            (by omega)))
        rw [this] at hj2
        exact absurd hj2 (by decide)
      have := htopbits j (by omega) hj2
      omega
    · by_cases hk3 : k / 32 = e.size - 1
      · by_contra hb
        have := htopbits k hk3 (by simpa using hb)
        omega
      · exact Nat.testBit_lt_two_pow (lt_of_lt_of_le hE (Nat.pow_le_pow_right (by decide)
          (by omega)))
  · exact Nat.testBit_lt_two_pow (lt_of_lt_of_le hE (Nat.pow_le_pow_right (by decide)
      (by omega)))

theorem powLoop_spec (B E n : Nat) (hE : E < 2 ^ (32 * n))
    (htop : n = 1 ∨ 2 ^ (32 * (n - 1)) ≤ E) :
    ∀ (fuel : Nat) (base retval e : Data) (wi bi : Nat),
      e.wf → e.size = n → bi < 32 → 1 ≤ 32 * wi + bi → 32 * n ≤ fuel + (32 * wi + bi) →
      (∀ k, e.value.testBit k = (E.testBit k && decide (32 * wi + bi ≤ k))) →
      base.value = B ^ (2 ^ (32 * wi + bi - 1)) →
      retval.value = B ^ (E % 2 ^ (32 * wi + bi)) →
      ∃ r, powLoop fuel base retval e wi bi = .ok r ∧ r.value = B ^ E := by
  intro fuel
  induction fuel with
  | zero =>
    intro base retval e wi bi he hn hbi hpos hfuel hinv hbase hret
    have hexit : ¬ (wi < e.size ∧ rd e.words (e.size - 1) ≠ 0) := by
      intro h; omega
    rw [powLoop, if_neg hexit]
    refine ⟨retval, rfl, ?_⟩
    rw [hret, exponent_exhausted he (by rw [hn]; exact hE) (by rw [hn]; exact htop)
      (by omega) hinv hexit]
  | succ fuel ih =>
    intro base retval e wi bi he hn hbi hpos hfuel hinv hbase hret
    by_cases hc : wi < e.size ∧ rd e.words (e.size - 1) ≠ 0
    · rw [powLoop, if_pos hc]
      simp only []
      have hbit := testBit_value_at he wi bi hc.1 hbi
      have hEbit : e.value.testBit (32 * wi + bi) = E.testBit (32 * wi + bi) := by
        rw [hinv]; simp
      rw [hEbit] at hbit
      have hw : rd e.words wi < WordModulus := rd_lt he.2.2.2 wi
      -- the state after the body of the loop
      have hbase2 : (mul base base).value = B ^ (2 ^ (32 * wi + bi + 1 - 1)) := by
        rw [mul_value, hbase, ← pow_add]
        congr 1
        have : 32 * wi + bi + 1 - 1 = (32 * wi + bi - 1) + 1 := by omega
        rw [this, pow_succ]; ring
      have he2 : (if bitIsSet (rd e.words wi) bi = true then
          e.setWord wi (clearBit (rd e.words wi) bi) else e).wf := by
        split_ifs
        · exact setWord_wf he wi (clearBit_lt hw bi)
        · exact he
      have hn2 : (if bitIsSet (rd e.words wi) bi = true then
          e.setWord wi (clearBit (rd e.words wi) bi) else e).size = n := by
        split_ifs
        · exact hn
        · exact hn
      have hinv2 : ∀ k, (if bitIsSet (rd e.words wi) bi = true then
          e.setWord wi (clearBit (rd e.words wi) bi) else e).value.testBit k
            = (E.testBit k && decide (32 * wi + bi + 1 ≤ k)) := by
        intro k
        by_cases ht : bitIsSet (rd e.words wi) bi = true
        · rw [if_pos ht]
          rw [testBit_value_clear he wi bi hc.1 hbi, hinv]
          by_cases h1 : k = 32 * wi + bi
          · simp [h1]
          · by_cases h2 : 32 * wi + bi ≤ k
            · have : 32 * wi + bi + 1 ≤ k := by omega
              simp [h1, h2, this]
            · have : ¬ 32 * wi + bi + 1 ≤ k := by omega
              simp [h2, this]
        · rw [if_neg ht]
          rw [hinv]
          by_cases h1 : k = 32 * wi + bi
          · rw [hbit] at ht
            subst h1
            simp [ht]
          · by_cases h2 : 32 * wi + bi ≤ k
            · have : 32 * wi + bi + 1 ≤ k := by omega
              simp [h2, this]
            · have : ¬ 32 * wi + bi + 1 ≤ k := by omega
              simp [h2, this]
      have hret2 : (if bitIsSet (rd e.words wi) bi = true then mul retval (mul base base)
          else retval).value = B ^ (E % 2 ^ (32 * wi + bi + 1)) := by
        rw [mod_two_pow_succ]
        by_cases ht : bitIsSet (rd e.words wi) bi = true
        · rw [if_pos ht]
          rw [hbit] at ht
          rw [if_pos ht, mul_value, hret, hbase2, ← pow_add]
          simp
        · rw [if_neg ht]
          rw [hbit] at ht
          rw [if_neg ht]
          simpa using hret
      by_cases hb : bi + 1 ≥ BitsPerWord
      · rw [if_pos hb]
        have hb31 : bi = 31 := by unfold BitsPerWord at hb; omega
        have epos : 32 * (wi + 1) + 0 = 32 * wi + bi + 1 := by omega
        apply ih
        · exact he2
        · exact hn2
        · decide
        · omega
        · omega
        · rw [epos]; exact hinv2
        · rw [epos]; exact hbase2
        · rw [epos]; exact hret2
      · rw [if_neg hb]
        have hb31 : bi + 1 < 32 := by unfold BitsPerWord at hb; omega
        have epos : 32 * wi + (bi + 1) = 32 * wi + bi + 1 := by omega
        apply ih
        · exact he2
        · exact hn2
        · exact hb31
        · omega
        · omega
        · rw [epos]; exact hinv2
        · rw [epos]; exact hbase2
        · rw [epos]; exact hret2
    · rw [powLoop, if_neg hc]
      refine ⟨retval, rfl, ?_⟩
      rw [hret, exponent_exhausted he (by rw [hn]; exact hE) (by rw [hn]; exact htop)
        (by omega) hinv hc]

theorem new_one_value (v : Nat) : (Data.new v 1).value = v := by
  simp [Data.new, Data.value, wordsValue, rd]

theorem ofWord_value (v : Nat) : (ofWord v).value = v := by
  unfold ofWord
  split
  · exact new_one_value v
  · exact new_one_value v

theorem ofWord_magnitude {v : Nat} (h : v < WordModulus) : (ofWord v).magnitude := by
  have h1 : (Data.new v 1).magnitude := by
    refine ⟨⟨by simp [Data.new], by simp [Data.new], by simp [Data.new], ?_⟩, ?_⟩
    · intro w hw
      simp only [Data.new, gt_iff_lt, lt_self_iff_false, if_false, List.mem_singleton] at hw
      subst hw; exact h
    · left; simp [Data.new]
  unfold ofWord
  split
  · exact h1
  · exact h1

theorem eqWord_spec {d : Data} (hd : d.magnitude) {w : Nat} (hw : w < WordModulus) :
    eqWord d w = decide (d.value = w) := by
  unfold eqWord
  by_cases hs : d.size > 1
  · have h1 := value_ge_of_top hs hd.2
    have h2 : 2 ^ 32 ≤ 2 ^ (32 * (d.size - 1)) := Nat.pow_le_pow_right (by decide) (by omega)
    have hM : WordModulus = 2 ^ 32 := rfl
    have : d.value ≠ w := by omega
    simp [hs, this]
  · have h1 : d.size = 1 := by have := hd.1.1; omega
    have : d.value = rd d.words 0 := by
      simp [Data.value, h1, wordsValue]
    rw [this, if_neg hs, Bool.eq_iff_iff]
    simp

theorem pow_initial_inv {e0 : Data} (he0 : e0.wf) (k : Nat) :
    (if bitIsSet (rd e0.words 0) 0 = true then
        e0.setWord 0 (clearBit (rd e0.words 0) 0) else e0).value.testBit k
      = (e0.value.testBit k && decide (32 * 0 + 1 ≤ k)) := by
  have hbit := testBit_value_at he0 0 0 (by have := he0.1; omega) (by decide)
  simp only [Nat.mul_zero, Nat.add_zero] at hbit
  by_cases ht : bitIsSet (rd e0.words 0) 0 = true
  · rw [if_pos ht, testBit_value_clear he0 0 0 (by have := he0.1; omega) (by decide)]
    simp only [Nat.mul_zero, Nat.add_zero, Nat.zero_add]
    by_cases hk : k = 0
    · simp [hk]
    · have : 1 ≤ k := by omega
      simp [hk, this]
  · rw [if_neg ht]
    rw [hbit] at ht
    by_cases hk : k = 0
    · subst hk
      simp at ht
      simp [ht]
    · have : 1 ≤ k := by omega
      simp [this]

theorem pow_initial_wf {e0 : Data} (he0 : e0.wf) :
    (if bitIsSet (rd e0.words 0) 0 = true then
        e0.setWord 0 (clearBit (rd e0.words 0) 0) else e0).wf := by
  split_ifs
  · exact setWord_wf he0 0 (clearBit_lt (rd_lt he0.2.2.2 0) 0)
  · exact he0

theorem pow_initial_size (e0 : Data) :
    (if bitIsSet (rd e0.words 0) 0 = true then
        e0.setWord 0 (clearBit (rd e0.words 0) 0) else e0).size = e0.size := by
  split_ifs <;> rfl

theorem onWrite_value {d : Data} (h : d.wf) : d.onWrite.value = d.value :=
  value_eq_of_word (onWrite_wf h) h (onWrite_word h)

theorem magnitude_top {d : Data} (h : d.magnitude) :
    d.size = 1 ∨ 2 ^ (32 * (d.size - 1)) ≤ d.value := by
  by_cases hs : d.size = 1
  · left; exact hs
  · right; exact value_ge_of_top (by have := h.1.1; omega) h.2

theorem pow_total (base exponent : Data) (he : exponent.magnitude) :
    ∃ r, pow base exponent = .ok r ∧ r.value = base.value ^ exponent.value := by
  have he0 := onWrite_wf he.1
  have hs0 := onWrite_size he.1
  have hv0 := onWrite_value he.1
  unfold pow
  simp only []
  apply powLoop_spec base.value exponent.value exponent.size (value_lt he.1) (magnitude_top he)
  · exact pow_initial_wf he0
  · rw [pow_initial_size, hs0]
  · decide
  · omega
  · rw [pow_initial_size, hs0]; unfold BitsPerWord; omega
  · intro k; rw [pow_initial_inv he0, hv0]
  · simp
  · have hbit := testBit_value_at he0 0 0 (by have := he0.1; omega) (by decide)
    simp only [Nat.mul_zero, Nat.add_zero] at hbit
    rw [hv0, Nat.testBit_zero] at hbit
    have hlt : exponent.value % 2 < 2 := Nat.mod_lt _ (by decide)
    by_cases ht : bitIsSet (rd exponent.onWrite.words 0) 0 = true
    · rw [if_pos ht]
      rw [hbit] at ht
      have : exponent.value % 2 = 1 := by simpa using ht
      simp [this]
    · rw [if_neg ht]
      rw [hbit] at ht
      have : exponent.value % 2 = 0 := by
        have : ¬ exponent.value % 2 = 1 := by simpa using ht
        omega
      simp [this, ofWord_value]

/-- C2: for every base and every normalized exponent of any word count, the
unsigned `pow` returns (the iteration bound `32 * size` is enough) a magnitude
denoting the base raised to the exponent; in particular `pow(base, 0)` is 1
for every base, zero included. -/
theorem pow_returns_power (base exponent : Data) (he : exponent.magnitude) :
    ∃ r, pow base exponent = .ok r ∧ r.value = base.value ^ exponent.value ∧
      (exponent.value = 0 → r.value = 1) := by
  obtain ⟨r, h1, h2⟩ := pow_total base exponent he
  exact ⟨r, h1, h2, fun h0 => by rw [h2, h0, pow_zero]⟩

/-- Witness for C2: `pow(3, e)` for the two-word exponent `e = 2^32 + 7`. -/
theorem pow_returns_power_witness :
    (Data.mk [7, 1] 2 2 1).magnitude ∧
    ∃ r, pow (ofWord 3) (Data.mk [7, 1] 2 2 1) = .ok r ∧
      r.value = (ofWord 3).value ^ (Data.mk [7, 1] 2 2 1).value ∧
      ((Data.mk [7, 1] 2 2 1).value = 0 → r.value = 1) :=
  ⟨by decide, pow_returns_power (ofWord 3) (Data.mk [7, 1] 2 2 1) (by decide)⟩

theorem mod_ok (a : Data) {m : Data} (hm : m.value ≠ 0) :
    mod a m = .ok (Data.ofNat (a.value % m.value)) := by
  unfold mod divMod
  rw [if_neg hm]
  rfl

theorem div_ok (a : Data) {m : Data} (hm : m.value ≠ 0) :
    div a m = .ok (Data.ofNat (a.value / m.value)) := by
  unfold div divMod
  rw [if_neg hm]
  rfl

theorem powModLoop_spec (B E n : Nat) (modulus : Data) (hM : modulus.value ≠ 0)
    (hE : E < 2 ^ (32 * n)) (htop : n = 1 ∨ 2 ^ (32 * (n - 1)) ≤ E) :
    ∀ (fuel : Nat) (base retval e : Data) (wi bi : Nat),
      e.wf → e.size = n → bi < 32 → 1 ≤ 32 * wi + bi → 32 * n ≤ fuel + (32 * wi + bi) →
      (∀ k, e.value.testBit k = (E.testBit k && decide (32 * wi + bi ≤ k))) →
      base.value = B ^ (2 ^ (32 * wi + bi - 1)) % modulus.value →
      retval.value = B ^ (E % 2 ^ (32 * wi + bi)) % modulus.value →
      retval.magnitude →
      ∃ r, powModLoop fuel base retval e modulus wi bi = .ok r ∧
        r.value = B ^ E % modulus.value ∧ r.magnitude := by
  intro fuel
  induction fuel with
  | zero =>
    intro base retval e wi bi he hn hbi hpos hfuel hinv hbase hret hmag
    have hexit : ¬ (wi < e.size ∧ rd e.words (e.size - 1) ≠ 0) := by
      intro h; omega
    rw [powModLoop, if_neg hexit]
    refine ⟨retval, rfl, ?_, hmag⟩
    rw [hret, exponent_exhausted he (by rw [hn]; exact hE) (by rw [hn]; exact htop)
      (by omega) hinv hexit]
  | succ fuel ih =>
    intro base retval e wi bi he hn hbi hpos hfuel hinv hbase hret hmag
    by_cases hc : wi < e.size ∧ rd e.words (e.size - 1) ≠ 0
    · rw [powModLoop, if_pos hc, mod_ok _ hM]
      simp only []
      have hbit := testBit_value_at he wi bi hc.1 hbi
      have hEbit : e.value.testBit (32 * wi + bi) = E.testBit (32 * wi + bi) := by
        rw [hinv]; simp
      rw [hEbit] at hbit
      have hw : rd e.words wi < WordModulus := rd_lt he.2.2.2 wi
      have hbase2 : (Data.ofNat ((mul base base).value % modulus.value)).value
          = B ^ (2 ^ (32 * wi + bi + 1 - 1)) % modulus.value := by
        rw [ofNat_value, mul_value, hbase, ← Nat.mul_mod, ← pow_add]
        congr 2
        have : 32 * wi + bi + 1 - 1 = (32 * wi + bi - 1) + 1 := by omega
        rw [this, pow_succ]; ring
      have he2 : (if bitIsSet (rd e.words wi) bi = true then
          e.setWord wi (clearBit (rd e.words wi) bi) else e).wf := by
        split_ifs
        · exact setWord_wf he wi (clearBit_lt hw bi)
        · exact he
      have hn2 : (if bitIsSet (rd e.words wi) bi = true then
          e.setWord wi (clearBit (rd e.words wi) bi) else e).size = n := by
        split_ifs
        · exact hn
        · exact hn
      have hinv2 : ∀ k, (if bitIsSet (rd e.words wi) bi = true then
          e.setWord wi (clearBit (rd e.words wi) bi) else e).value.testBit k
            = (E.testBit k && decide (32 * wi + bi + 1 ≤ k)) := by
        intro k
        by_cases ht : bitIsSet (rd e.words wi) bi = true
        · rw [if_pos ht]
          rw [testBit_value_clear he wi bi hc.1 hbi, hinv]
          by_cases h1 : k = 32 * wi + bi
          · simp [h1]
          · by_cases h2 : 32 * wi + bi ≤ k
            · have : 32 * wi + bi + 1 ≤ k := by omega
              simp [h1, h2, this]
            · have : ¬ 32 * wi + bi + 1 ≤ k := by omega
              simp [h2, this]
        · rw [if_neg ht]
          rw [hinv]
          by_cases h1 : k = 32 * wi + bi
          · rw [hbit] at ht
            subst h1
            simp [ht]
          · by_cases h2 : 32 * wi + bi ≤ k
            · have : 32 * wi + bi + 1 ≤ k := by omega
              simp [h2, this]
            · have : ¬ 32 * wi + bi + 1 ≤ k := by omega
              simp [h2, this]
      -- the new value of `retval`
      obtain ⟨retval2, hr1, hr2, hr3⟩ : ∃ retval2,
          (if bitIsSet (rd e.words wi) bi = true then
            mod (mul retval (Data.ofNat ((mul base base).value % modulus.value))) modulus
           else Except.ok retval) = .ok retval2 ∧
          retval2.value = B ^ (E % 2 ^ (32 * wi + bi + 1)) % modulus.value ∧
          retval2.magnitude := by
        rw [mod_two_pow_succ]
        by_cases ht : bitIsSet (rd e.words wi) bi = true
        · rw [if_pos ht, mod_ok _ hM]
          refine ⟨_, rfl, ?_, ofNat_magnitude _⟩
          rw [hbit] at ht
          rw [if_pos ht, ofNat_value, mul_value, hret, hbase2, ← Nat.mul_mod, ← pow_add]
          simp
        · rw [if_neg ht]
          refine ⟨retval, rfl, ?_, hmag⟩
          rw [hbit] at ht
          rw [if_neg ht]
          simpa using hret
      rw [hr1]
      simp only []
      by_cases hb : bi + 1 ≥ BitsPerWord
      · rw [if_pos hb]
        have hb31 : bi = 31 := by unfold BitsPerWord at hb; omega
        have epos : 32 * (wi + 1) + 0 = 32 * wi + bi + 1 := by omega
        apply ih
        · exact he2
        · exact hn2
        · decide
        · omega
        · omega
        · rw [epos]; exact hinv2
        · rw [epos]; exact hbase2
        · rw [epos]; exact hr2
        · exact hr3
      · rw [if_neg hb]
        have hb31 : bi + 1 < 32 := by unfold BitsPerWord at hb; omega
        have epos : 32 * wi + (bi + 1) = 32 * wi + bi + 1 := by omega
        apply ih
        · exact he2
        · exact hn2
        · exact hb31
        · omega
        · omega
        · rw [epos]; exact hinv2
        · rw [epos]; exact hbase2
        · rw [epos]; exact hr2
        · exact hr3
    · rw [powModLoop, if_neg hc]
      refine ⟨retval, rfl, ?_, hmag⟩
      rw [hret, exponent_exhausted he (by rw [hn]; exact hE) (by rw [hn]; exact htop)
        (by omega) hinv hc]

theorem powMod_total (base exponent modulus : Data) (he : exponent.magnitude)
    (hm : modulus.magnitude) (h1 : 1 ≤ modulus.value) :
    ∃ r, powMod base exponent modulus = .ok r ∧
      r.value = base.value ^ exponent.value % modulus.value ∧ r.magnitude := by
  have he0 := onWrite_wf he.1
  have hs0 := onWrite_size he.1
  have hv0 := onWrite_value he.1
  have hM : modulus.value ≠ 0 := by omega
  unfold powMod
  rw [eqWord_spec hm (by decide)]
  by_cases hone : modulus.value = 1
  · simp only [hone, decide_True, if_true]
    refine ⟨_, rfl, ?_, ofWord_magnitude (by decide)⟩
    rw [ofWord_value, Nat.mod_one]
  · simp only [hone, decide_False, Bool.false_eq_true, if_false]
    rw [mod_ok _ hM]
    simp only []
    apply powModLoop_spec base.value exponent.value exponent.size modulus hM
      (value_lt he.1) (magnitude_top he)
    · exact pow_initial_wf he0
    · rw [pow_initial_size, hs0]
    · decide
    · omega
    · rw [pow_initial_size, hs0]; unfold BitsPerWord; omega
    · intro k; rw [pow_initial_inv he0, hv0]
    · simp [ofNat_value]
    · have hbit := testBit_value_at he0 0 0 (by have := he0.1; omega)
        (by decide)
      simp only [Nat.mul_zero, Nat.add_zero] at hbit
      rw [hv0, Nat.testBit_zero] at hbit
      have hlt : exponent.value % 2 < 2 := Nat.mod_lt _ (by decide)
      by_cases ht : bitIsSet (rd exponent.onWrite.words 0) 0 = true
      · rw [if_pos ht]
        rw [hbit] at ht
        have : exponent.value % 2 = 1 := by simpa using ht
        simp [this, ofNat_value]
      · rw [if_neg ht]
        rw [hbit] at ht
        have : exponent.value % 2 = 0 := by
          have : ¬ exponent.value % 2 = 1 := by simpa using ht
          omega
        have h2 : 1 < modulus.value := by omega
        simp [this, ofWord_value, Nat.mod_eq_of_lt h2]
    · split_ifs
      · exact ofNat_magnitude _
      · exact ofWord_magnitude (by decide)

/-- C1: for every base, every normalized exponent and every normalized modulus
of value at least 1, `powMod(base, exponent, modulus)` returns a magnitude that
compares equal to `pow(base, exponent) % modulus` (both are computed without
error) and denotes `base ^ exponent mod modulus`: 0 when the modulus is 1, and
1 when the exponent is 0 and the modulus exceeds 1.  The operators `*` and `%`
are the exact product and remainder. -/
theorem powMod_eq_pow_mod (base exponent modulus : Data) (he : exponent.magnitude)
    (hm : modulus.magnitude) (h1 : 1 ≤ modulus.value) :
    ∃ r p q, powMod base exponent modulus = .ok r ∧ pow base exponent = .ok p ∧
      mod p modulus = .ok q ∧ opEq false r q = true ∧ r.value = q.value ∧
      r.value = base.value ^ exponent.value % modulus.value ∧
      (modulus.value = 1 → r.value = 0) ∧
      (exponent.value = 0 → 1 < modulus.value → r.value = 1) := by
  obtain ⟨r, hr1, hr2, hr3⟩ := powMod_total base exponent modulus he hm h1
  obtain ⟨p, hp1, hp2⟩ := pow_total base exponent he
  have hM : modulus.value ≠ 0 := by omega
  have hq : (Data.ofNat (p.value % modulus.value)).value = r.value := by
    rw [ofNat_value, hp2, hr2]
  refine ⟨r, p, _, hr1, hp1, mod_ok p hM, ?_, hq.symm, hr2, ?_, ?_⟩
  · rw [opEq_spec false hr3 (ofNat_magnitude _) (fun h => absurd h (by decide)), hq]
    simp
  · intro h; rw [hr2, h, Nat.mod_one]
  · intro h0 h2; rw [hr2, h0, pow_zero, Nat.mod_eq_of_lt h2]

/-- Witness for C1: `powMod(4, 13, 497) == 445`. -/
theorem powMod_eq_pow_mod_witness :
    (ofWord 13).magnitude ∧ (ofWord 497).magnitude ∧ 1 ≤ (ofWord 497).value ∧
    (powMod (ofWord 4) (ofWord 13) (ofWord 497)).map Data.value = .ok 445 ∧
    ∃ r p q, powMod (ofWord 4) (ofWord 13) (ofWord 497) = .ok r ∧
      pow (ofWord 4) (ofWord 13) = .ok p ∧ mod p (ofWord 497) = .ok q ∧
      opEq false r q = true ∧ r.value = q.value ∧
      r.value = (ofWord 4).value ^ (ofWord 13).value % (ofWord 497).value ∧
      ((ofWord 497).value = 1 → r.value = 0) ∧
      ((ofWord 13).value = 0 → 1 < (ofWord 497).value → r.value = 1) :=
  ⟨by decide, by decide, by decide, by decide,
   powMod_eq_pow_mod (ofWord 4) (ofWord 13) (ofWord 497) (by decide) (by decide) (by decide)⟩

/-! ## Greatest common divisor -/

theorem gcdLoop_spec : ∀ (fuel : Nat) (a b : Data), b.value < fuel → b.value ≠ 0 →
    b.magnitude →
    ∃ r, gcdLoop fuel a b = .ok r ∧ r.value = Nat.gcd a.value b.value ∧ r.magnitude := by
  intro fuel
  induction fuel with
  | zero => intro a b h; omega
  | succ fuel ih =>
    intro a b hf hb hmag
    rw [gcdLoop, mod_ok a hb]
    simp only []
    rw [eqWord_spec (ofNat_magnitude _) (by decide), ofNat_value]
    have hrec : Nat.gcd a.value b.value = Nat.gcd (a.value % b.value) b.value := by
      rw [Nat.gcd_comm, Nat.gcd_rec]
    by_cases hz : a.value % b.value = 0
    · simp only [hz, decide_True, if_true]
      refine ⟨b, rfl, ?_, hmag⟩
      rw [hrec, hz, Nat.gcd_zero_left]
    · simp only [hz, decide_False, Bool.false_eq_true, if_false]
      have hlt : a.value % b.value < b.value := Nat.mod_lt _ (by omega)
      obtain ⟨r, h1, h2, h3⟩ := ih b (Data.ofNat (a.value % b.value))
        (by rw [ofNat_value]; omega) (by rw [ofNat_value]; exact hz) (ofNat_magnitude _)
      refine ⟨r, h1, ?_, h3⟩
      rw [h2, ofNat_value, hrec, Nat.gcd_comm]

theorem gcd_value (sameData : Bool) (a b : Data) (ha : a.magnitude) (hb : b.magnitude)
    (hs : sameData = true → a = b) :
    ∃ r, gcd sameData a b = .ok r ∧ r.magnitude ∧
      r.value = if a.value = 0 ∨ b.value = 0 then 0
        else if a.value = 1 ∨ b.value = 1 then 1 else Nat.gcd a.value b.value := by
  unfold gcd
  rw [eqWord_spec ha (by decide), eqWord_spec hb (by decide), eqWord_spec ha (by decide),
    eqWord_spec hb (by decide)]
  by_cases h0 : a.value = 0 ∨ b.value = 0
  · have : (decide (a.value = 0) || decide (b.value = 0)) = true := by simpa using h0
    rw [if_pos this, if_pos h0]
    exact ⟨_, rfl, ofWord_magnitude (by decide), ofWord_value 0⟩
  · have : ¬ (decide (a.value = 0) || decide (b.value = 0)) = true := by simpa using h0
    rw [if_neg this, if_neg h0]
    by_cases h1 : a.value = 1 ∨ b.value = 1
    · have : (decide (a.value = 1) || decide (b.value = 1)) = true := by simpa using h1
      rw [if_pos this, if_pos h1]
      exact ⟨_, rfl, ofWord_magnitude (by decide), ofWord_value 1⟩
    · have : ¬ (decide (a.value = 1) || decide (b.value = 1)) = true := by simpa using h1
      rw [if_neg this, if_neg h1]
      simp only []
      have hlt : opLt sameData a b = decide (a.value < b.value) :=
        opGt_spec sameData hb ha (fun h => (hs h).symm)
      rw [hlt]
      have ha0 : a.value ≠ 0 := fun h => h0 (Or.inl h)
      have hb0 : b.value ≠ 0 := fun h => h0 (Or.inr h)
      by_cases hsw : a.value < b.value
      · simp only [hsw, decide_True, if_true]
        obtain ⟨r, h1, h2, h3⟩ := gcdLoop_spec (a.value + 1) b a (by omega) ha0 ha
        exact ⟨r, h1, h3, by rw [h2, Nat.gcd_comm]⟩
      · simp only [hsw, decide_False, Bool.false_eq_true, if_false]
        obtain ⟨r, h1, h2, h3⟩ := gcdLoop_spec (b.value + 1) a b (by omega) hb0 hb
        exact ⟨r, h1, h3, h2⟩

/-- C5: the unsigned `gcd(a, b)` returns 0 when either operand is 0, otherwise
1 when either operand is 1, otherwise its Euclidean loop returns (the bound of
one iteration per value of the decreasing second component is enough) the
greatest common divisor of the two values: a common divisor that every common
divisor divides.  The operator `%` is the exact remainder. -/
theorem gcd_fast_paths_and_euclid (sameData : Bool) (a b : Data) (ha : a.magnitude)
    (hb : b.magnitude) (hs : sameData = true → a = b) :
    ∃ r, gcd sameData a b = .ok r ∧
      ((a.value = 0 ∨ b.value = 0) → r.value = 0) ∧
      (a.value ≠ 0 → b.value ≠ 0 → (a.value = 1 ∨ b.value = 1) → r.value = 1) ∧
      (a.value ≠ 0 → b.value ≠ 0 →
        r.value = Nat.gcd a.value b.value ∧ r.value ∣ a.value ∧ r.value ∣ b.value ∧
        ∀ d, d ∣ a.value → d ∣ b.value → d ∣ r.value) := by
  obtain ⟨r, h1, _, h3⟩ := gcd_value sameData a b ha hb hs
  refine ⟨r, h1, ?_, ?_, ?_⟩
  · intro h0; rw [h3, if_pos h0]
  · intro ha0 hb0 h; rw [h3, if_neg (by tauto), if_pos h]
  · intro ha0 hb0
    have hg : r.value = Nat.gcd a.value b.value := by
      rw [h3, if_neg (by tauto)]
      split_ifs with h
      · rcases h with h | h
        · rw [h, Nat.gcd_one_left]
        · rw [h, Nat.gcd_one_right]
      · rfl
    refine ⟨hg, ?_, ?_, ?_⟩
    · rw [hg]; exact Nat.gcd_dvd_left _ _
    · rw [hg]; exact Nat.gcd_dvd_right _ _
    · intro d hd1 hd2; rw [hg]; exact Nat.dvd_gcd hd1 hd2

/-- Witness for C5: `gcd(48, 18) == 6`. -/
theorem gcd_fast_paths_and_euclid_witness :
    (ofWord 48).magnitude ∧ (ofWord 18).magnitude ∧
    (gcd false (ofWord 48) (ofWord 18)).map Data.value = .ok 6 ∧
    ∃ r, gcd false (ofWord 48) (ofWord 18) = .ok r ∧
      (((ofWord 48).value = 0 ∨ (ofWord 18).value = 0) → r.value = 0) ∧
      ((ofWord 48).value ≠ 0 → (ofWord 18).value ≠ 0 →
        ((ofWord 48).value = 1 ∨ (ofWord 18).value = 1) → r.value = 1) ∧
      ((ofWord 48).value ≠ 0 → (ofWord 18).value ≠ 0 →
        r.value = Nat.gcd (ofWord 48).value (ofWord 18).value ∧
        r.value ∣ (ofWord 48).value ∧ r.value ∣ (ofWord 18).value ∧
        ∀ d, d ∣ (ofWord 48).value → d ∣ (ofWord 18).value → d ∣ r.value) :=
  ⟨by decide, by decide, by decide,
   gcd_fast_paths_and_euclid false (ofWord 48) (ofWord 18) (by decide) (by decide) (by simp)⟩

/-- Counterexample to C4 as stated: `gcd(0, 5)` is 0, so neither remainder by
it can be computed (division by zero), and 0 is not the largest common divisor
of 0 and 5, which 5 divides. -/
theorem gcd_divides_counterexample :
    (ofWord 0).magnitude ∧ (ofWord 5).magnitude ∧
    gcd false (ofWord 0) (ofWord 5) = .ok (ofWord 0) ∧
    mod (ofWord 0) (ofWord 0) = .error .divideByZero ∧
    mod (ofWord 5) (ofWord 0) = .error .divideByZero ∧
    (5 ∣ (ofWord 0).value ∧ 5 ∣ (ofWord 5).value ∧ (ofWord 0).value < 5) := by
  decide

/-- C4 (amended): for all non-zero magnitudes `a` and `b`, `gcd(a, b)` is
returned, both `a % gcd(a, b)` and `b % gcd(a, b)` are computed without error
and compare equal to 0, and no common divisor of `a` and `b` exceeds it. -/
theorem gcd_divides_both_nonzero (sameData : Bool) (a b : Data) (ha : a.magnitude)
    (hb : b.magnitude) (hs : sameData = true → a = b) (ha0 : a.value ≠ 0)
    (hb0 : b.value ≠ 0) :
    ∃ g ra rb, gcd sameData a b = .ok g ∧ mod a g = .ok ra ∧ mod b g = .ok rb ∧
      eqWord ra 0 = true ∧ eqWord rb 0 = true ∧
      a.value % g.value = 0 ∧ b.value % g.value = 0 ∧
      ∀ d, d ∣ a.value → d ∣ b.value → d ≤ g.value := by
  obtain ⟨g, h1, _, h3⟩ := gcd_value sameData a b ha hb hs
  have hg : g.value = Nat.gcd a.value b.value := by
    rw [h3, if_neg (by tauto)]
    split_ifs with h
    · rcases h with h | h
      · rw [h, Nat.gcd_one_left]
      · rw [h, Nat.gcd_one_right]
    · rfl
  have hpos : 0 < g.value := by
    rw [hg]; exact Nat.gcd_pos_of_pos_left _ (by omega)
  have hg0 : g.value ≠ 0 := by omega
  have da : a.value % g.value = 0 := by
    rw [hg]; exact Nat.mod_eq_zero_of_dvd (Nat.gcd_dvd_left _ _)
  have db : b.value % g.value = 0 := by
    rw [hg]; exact Nat.mod_eq_zero_of_dvd (Nat.gcd_dvd_right _ _)
  refine ⟨g, _, _, h1, mod_ok a hg0, mod_ok b hg0, ?_, ?_, da, db, ?_⟩
  · rw [eqWord_spec (ofNat_magnitude _) (by decide), ofNat_value, da]; simp
  · rw [eqWord_spec (ofNat_magnitude _) (by decide), ofNat_value, db]; simp
  · intro d hd1 hd2
    exact Nat.le_of_dvd hpos (by rw [hg]; exact Nat.dvd_gcd hd1 hd2)

/-- Witness for C4 (amended): `gcd(48, 18)`. -/
theorem gcd_divides_both_nonzero_witness :
    (ofWord 48).magnitude ∧ (ofWord 18).magnitude ∧ (ofWord 48).value ≠ 0 ∧
    (ofWord 18).value ≠ 0 ∧
    ∃ g ra rb, gcd false (ofWord 48) (ofWord 18) = .ok g ∧ mod (ofWord 48) g = .ok ra ∧
      mod (ofWord 18) g = .ok rb ∧ eqWord ra 0 = true ∧ eqWord rb 0 = true ∧
      (ofWord 48).value % g.value = 0 ∧ (ofWord 18).value % g.value = 0 ∧
      ∀ d, d ∣ (ofWord 48).value → d ∣ (ofWord 18).value → d ≤ g.value :=
  ⟨by decide, by decide, by decide, by decide,
   gcd_divides_both_nonzero false (ofWord 48) (ofWord 18) (by decide) (by decide) (by simp)
     (by decide) (by decide)⟩

/-! ## BigInteger -/

theorem add_value (a b : Data) : (add a b).value = a.value + b.value := ofNat_value _

theorem subAssign_ok {a b : Data} (h : b.value ≤ a.value) :
    subAssign a b = .ok (Data.ofNat (a.value - b.value)) := by
  unfold subAssign
  rw [if_neg (by omega)]

theorem sub_ok {a b : Data} (h : b.value ≤ a.value) :
    sub a b = .ok (Data.ofNat (a.value - b.value)) := subAssign_ok h

theorem neg_value (x : BigInteger) : x.neg.value = x.value := rfl

theorem neg_negative (x : BigInteger) : x.neg.negative = !x.negative := rfl

theorem ofSignMagnitude_eq (v : Data) (n : Bool) :
    BigInteger.ofSignMagnitude v n = { value := v, negative := n } := rfl

theorem neg_toInt (x : BigInteger) : x.neg.toInt = -x.toInt := by
  unfold BigInteger.toInt
  rw [neg_value, neg_negative]
  cases x.negative <;> simp

theorem addAssign_spec (sameData : Bool) (a b : BigInteger) (ha : a.value.magnitude)
    (hb : b.value.magnitude) (hs : sameData = true → a.value = b.value) :
    ∃ s, BigInteger.addAssign sameData a b = .ok s ∧ s.toInt = a.toInt + b.toInt ∧
      (a.negative = b.negative →
        s.negative = a.negative ∧ s.value.value = a.value.value + b.value.value) ∧
      (a.negative ≠ b.negative →
        (b.value.value < a.value.value →
          s.negative = a.negative ∧ s.value.value = a.value.value - b.value.value) ∧
        (a.value.value < b.value.value →
          s.negative = b.negative ∧ s.value.value = b.value.value - a.value.value) ∧
        (a.value.value = b.value.value → s.negative = false ∧ s.value.value = 0)) := by
  have hgt := opGt_spec sameData ha hb hs
  have hlt : opLt sameData a.value b.value = decide (a.value.value < b.value.value) :=
    opGt_spec sameData hb ha (fun h => (hs h).symm)
  obtain ⟨av, an⟩ := a
  obtain ⟨bv, bn⟩ := b
  simp only at ha hb hs hgt hlt
  unfold BigInteger.addAssign
  cases an <;> cases bn
  · -- both non-negative
    refine ⟨_, rfl, ?_, ?_, ?_⟩
    · simp [BigInteger.toInt, add_value]
    · intro _; exact ⟨rfl, add_value _ _⟩
    · intro h; exact absurd rfl h
  · -- non-negative plus negative
    simp only [Bool.false_and, Bool.not_false, Bool.not_true, Bool.and_false,
      Bool.false_eq_true, if_false, hlt]
    by_cases h : av.value < bv.value
    · simp only [h, decide_True, if_true]
      rw [sub_ok (by omega)]
      refine ⟨_, rfl, ?_, ?_, ?_⟩
      · simp [BigInteger.toInt, ofNat_value]; omega
      · intro h2; exact absurd h2 (by decide)
      · intro _
        refine ⟨fun h2 => by omega, fun _ => ⟨rfl, ofNat_value _⟩, fun h2 => by omega⟩
    · simp only [h, decide_False, Bool.false_eq_true, if_false]
      rw [subAssign_ok (by omega)]
      refine ⟨_, rfl, ?_, ?_, ?_⟩
      · simp [BigInteger.toInt, ofNat_value]; omega
      · intro h2; exact absurd h2 (by decide)
      · intro _
        refine ⟨fun _ => ⟨rfl, ofNat_value _⟩, fun h2 => h2.elim, fun h2 => ⟨rfl, ?_⟩⟩
        rw [ofNat_value]; omega
  · -- negative plus non-negative
    simp only [Bool.true_and, Bool.not_false, Bool.not_true, Bool.and_false, Bool.false_and,
      Bool.false_eq_true, if_false, if_true, hgt]
    by_cases h : av.value > bv.value
    · simp only [h, decide_True, if_true]
      rw [subAssign_ok (by omega)]
      refine ⟨_, rfl, ?_, ?_, ?_⟩
      · simp [BigInteger.toInt, ofNat_value]; omega
      · intro h2; exact absurd h2 (by decide)
      · intro _
        refine ⟨fun _ => ⟨rfl, ofNat_value _⟩, fun h2 => by omega, fun h2 => by omega⟩
    · simp only [h, decide_False, Bool.false_eq_true, if_false]
      rw [sub_ok (by omega)]
      refine ⟨_, rfl, ?_, ?_, ?_⟩
      · simp [BigInteger.toInt, ofNat_value]; omega
      · intro h2; exact absurd h2 (by decide)
      · intro _
        refine ⟨fun h2 => h2.elim, fun _ => ⟨rfl, ofNat_value _⟩, fun h2 => ⟨rfl, ?_⟩⟩
        rw [ofNat_value]; omega
  · -- both negative
    refine ⟨_, rfl, ?_, ?_, ?_⟩
    · simp [BigInteger.toInt, add_value]; omega
    · intro _; exact ⟨rfl, add_value _ _⟩
    · intro h; exact absurd rfl h

/-- C6: for all BigIntegers `a` and `b` (normalized magnitudes), `a + b` and
`a += b` return a value denoting the integer sum, `a - b` and `a -= b` one
denoting the integer difference; same-sign operands add magnitudes and keep the
sign, opposite-sign operands give the larger magnitude minus the smaller with
the sign of the larger operand, and equal opposite magnitudes give zero with a
non-negative sign.  The magnitude `+=` and `-=` are exact. -/
theorem BigInteger_add_sub_denote (sameData : Bool) (a b : BigInteger)
    (ha : a.value.magnitude) (hb : b.value.magnitude)
    (hs : sameData = true → a.value = b.value) :
    ∃ s d, BigInteger.add sameData a b = .ok s ∧ BigInteger.addAssign sameData a b = .ok s ∧
      BigInteger.sub sameData a b = .ok d ∧ BigInteger.subAssign sameData a b = .ok d ∧
      s.toInt = a.toInt + b.toInt ∧ d.toInt = a.toInt - b.toInt ∧
      (a.negative = b.negative →
        s.negative = a.negative ∧ s.value.value = a.value.value + b.value.value) ∧
      (a.negative ≠ b.negative →
        (b.value.value < a.value.value →
          s.negative = a.negative ∧ s.value.value = a.value.value - b.value.value) ∧
        (a.value.value < b.value.value →
          s.negative = b.negative ∧ s.value.value = b.value.value - a.value.value) ∧
        (a.value.value = b.value.value → s.negative = false ∧ s.value.value = 0)) := by
  obtain ⟨s, h1, h2, h3, h4⟩ := addAssign_spec sameData a b ha hb hs
  obtain ⟨d, k1, k2, _, _⟩ := addAssign_spec sameData a b.neg ha hb hs
  refine ⟨s, d, h1, h1, k1, k1, h2, ?_, h3, h4⟩
  rw [k2, neg_toInt]; ring

/-- Witness for C6: `(-5) + 3` and `(-5) - 3`. -/
theorem BigInteger_add_sub_denote_witness :
    (ofWord 5).magnitude ∧ (ofWord 3).magnitude ∧
    ∃ s d, BigInteger.add false ⟨ofWord 5, true⟩ ⟨ofWord 3, false⟩ = .ok s ∧
      BigInteger.sub false ⟨ofWord 5, true⟩ ⟨ofWord 3, false⟩ = .ok d ∧
      s.toInt = -2 ∧ d.toInt = -8 := by
  obtain ⟨s, d, h1, _, h3, _, h5, h6, _⟩ :=
    BigInteger_add_sub_denote false ⟨ofWord 5, true⟩ ⟨ofWord 3, false⟩
      (by decide) (by decide) (by simp)
  refine ⟨by decide, by decide, s, d, h1, h3, ?_, ?_⟩
  · rw [h5]; decide
  · rw [h6]; decide

theorem toInt_natAbs (x : BigInteger) : x.toInt.natAbs = x.value.value := by
  unfold BigInteger.toInt
  cases x.negative <;> simp

theorem int_neg_tmod (a b : Int) : (-a).tmod b = -(a.tmod b) := by
  have h1 := Int.tdiv_add_tmod (-a) b
  have h2 := Int.tdiv_add_tmod a b
  rw [Int.neg_tdiv] at h1
  have h3 : b * -(a.tdiv b) = -(b * a.tdiv b) := by ring
  rw [h3] at h1
  omega

theorem BigInteger_opEq_of_eq (sameData : Bool) (s a : BigInteger) (hs : s.value.magnitude)
    (ha : a.value.magnitude) (hn : s.negative = a.negative)
    (hv : s.value.value = a.value.value) : BigInteger.opEq sameData s a = true := by
  unfold BigInteger.opEq
  split_ifs
  · rfl
  · rw [hn]
    cases sameData with
    | true => simp [opEq]
    | false =>
      rw [opEq_spec false hs ha (fun h => absurd h (by decide)), hv]
      simp

/-- C7: for all BigIntegers `a` and `b` with `b` non-zero, `a / b` denotes the
quotient of the two integers truncated toward zero, `a % b` denotes the
truncated remainder, which is zero or has the sign of `a` and is smaller than
`b` in absolute value, and `(a / b) * b + (a % b) == a` holds.  The magnitude
`*`, `/` and `%` are the exact product, floor quotient and remainder. -/
theorem BigInteger_truncated_division (sd1 sd2 : Bool) (a b : BigInteger)
    (ha : a.value.magnitude) (hb0 : b.value.value ≠ 0) :
    ∃ q r s, BigInteger.div a b = .ok q ∧ BigInteger.mod a b = .ok r ∧
      q.toInt = Int.tdiv a.toInt b.toInt ∧ r.toInt = Int.tmod a.toInt b.toInt ∧
      (r.toInt = 0 ∨ (0 < r.toInt ∧ 0 < a.toInt) ∨ (r.toInt < 0 ∧ a.toInt < 0)) ∧
      r.toInt.natAbs < b.toInt.natAbs ∧
      BigInteger.add sd1 (BigInteger.mul q b) r = .ok s ∧
      BigInteger.opEq sd2 s a = true := by
  obtain ⟨av, an⟩ := a
  obtain ⟨bv, bn⟩ := b
  simp only at ha hb0
  have hq : BigInteger.div ⟨av, an⟩ ⟨bv, bn⟩ =
      .ok ⟨Data.ofNat (av.value / bv.value), if an then !bn else bn⟩ := by
    unfold BigInteger.div
    simp only [div_ok av hb0]
    rfl
  have hr : BigInteger.mod ⟨av, an⟩ ⟨bv, bn⟩ =
      .ok ⟨Data.ofNat (av.value % bv.value), an⟩ := by
    unfold BigInteger.mod
    simp only [mod_ok av hb0]
    rfl
  have hlt : av.value % bv.value < bv.value := Nat.mod_lt _ (by omega)
  have hsum : av.value / bv.value * bv.value + av.value % bv.value = av.value :=
    Nat.div_add_mod' _ _
  have hadd : BigInteger.add sd1
      (BigInteger.mul ⟨Data.ofNat (av.value / bv.value), if an then !bn else bn⟩ ⟨bv, bn⟩)
      ⟨Data.ofNat (av.value % bv.value), an⟩ =
      .ok ⟨add (mul (Data.ofNat (av.value / bv.value)) bv)
        (Data.ofNat (av.value % bv.value)), an⟩ := by
    unfold BigInteger.add BigInteger.addAssign BigInteger.mul
    rw [ofSignMagnitude_eq]
    cases an <;> cases bn <;> rfl
  refine ⟨_, _, _, hq, hr, ?_, ?_, ?_, ?_, hadd, ?_⟩
  · unfold BigInteger.toInt
    cases an <;> cases bn <;>
      simp only [ofNat_value, Int.tdiv_neg, Int.neg_tdiv, neg_neg, Int.ofNat_tdiv,
        Bool.not_true, Bool.not_false, if_true, if_false, Bool.false_eq_true]
  · unfold BigInteger.toInt
    cases an <;> cases bn <;>
      simp only [ofNat_value, Int.tmod_neg, int_neg_tmod, Int.ofNat_tmod,
        Bool.not_true, Bool.not_false, if_true, if_false, Bool.false_eq_true]
  · unfold BigInteger.toInt
    simp only [ofNat_value]
    by_cases hz : av.value % bv.value = 0
    · left; cases an <;> simp [hz]
    · have hapos : 0 < av.value := by
        by_contra h
        have : av.value = 0 := by omega
        rw [this, Nat.zero_mod] at hz
        exact hz rfl
      right
      cases an
      · left; simp; omega
      · right; simp; omega
  · rw [toInt_natAbs, toInt_natAbs]
    simp only [ofNat_value]
    exact hlt
  · refine BigInteger_opEq_of_eq sd2
      ⟨add (mul (Data.ofNat (av.value / bv.value)) bv) (Data.ofNat (av.value % bv.value)), an⟩
      ⟨av, an⟩ (ofNat_magnitude _) ha rfl ?_
    simp only [add_value, mul_value, ofNat_value]
    exact hsum

/-- Witness for C7: `(-7) / 2 = -3` and `(-7) % 2 = -1`. -/
theorem BigInteger_truncated_division_witness :
    (ofWord 7).magnitude ∧ (ofWord 2).value ≠ 0 ∧
    ∃ q r s, BigInteger.div ⟨ofWord 7, true⟩ ⟨ofWord 2, false⟩ = .ok q ∧
      BigInteger.mod ⟨ofWord 7, true⟩ ⟨ofWord 2, false⟩ = .ok r ∧
      q.toInt = Int.tdiv (BigInteger.toInt ⟨ofWord 7, true⟩) (BigInteger.toInt ⟨ofWord 2, false⟩) ∧
      r.toInt = Int.tmod (BigInteger.toInt ⟨ofWord 7, true⟩) (BigInteger.toInt ⟨ofWord 2, false⟩) ∧
      (r.toInt = 0 ∨ (0 < r.toInt ∧ 0 < BigInteger.toInt ⟨ofWord 7, true⟩) ∨
        (r.toInt < 0 ∧ BigInteger.toInt ⟨ofWord 7, true⟩ < 0)) ∧
      r.toInt.natAbs < (BigInteger.toInt ⟨ofWord 2, false⟩).natAbs ∧
      BigInteger.add false (BigInteger.mul q ⟨ofWord 2, false⟩) r = .ok s ∧
      BigInteger.opEq false s ⟨ofWord 7, true⟩ = true :=
  ⟨by decide, by decide,
   BigInteger_truncated_division false false ⟨ofWord 7, true⟩ ⟨ofWord 2, false⟩
     (by decide) (by decide)⟩

/-- C3, the code at the failing input: unary minus applied to the BigInteger
zero, and `0 * (-1)`, return the magnitude zero with the negative flag set; the
private constructor keeps `negative = true` for a zero magnitude. -/
theorem negative_zero_is_constructed :
    (BigInteger.ofSignMagnitude (ofWord 0) true).negative = true ∧
    (BigInteger.ofSignMagnitude (ofWord 0) true).value.value = 0 ∧
    (BigInteger.neg (BigInteger.ofWord 0)).negative = true ∧
    (BigInteger.neg (BigInteger.ofWord 0)).value.value = 0 ∧
    (BigInteger.mul (BigInteger.ofWord 0) (BigInteger.neg (BigInteger.ofWord 1))).negative
      = true ∧
    (BigInteger.mul (BigInteger.ofWord 0)
      (BigInteger.neg (BigInteger.ofWord 1))).value.value = 0 := by
  decide

/-! ## Copy on write -/

theorem get_lt {s : State} {p : Nat} {d : Data} (h : s.get p = some d) :
    p < s.heap.length := by
  by_contra hp
  unfold State.get at h
  rw [List.getD_eq_default _ _ (Nat.le_of_not_lt hp)] at h
  exact absurd h (by simp)

theorem get_put (s : State) (q p : Nat) (d : Data) :
    (s.put q d).get p = if q = p ∧ q < s.heap.length then some d else s.get p := by
  unfold State.get State.put
  simp only [List.getD_eq_getElem?_getD, List.getElem?_set]
  by_cases h : q = p
  · subst h
    by_cases h2 : q < s.heap.length
    · simp [h2]
    · simp [h2, List.getElem?_eq_none (Nat.le_of_not_lt h2)]
  · simp [h]

theorem get_set_none (s : State) (q p : Nat) (h : q ≠ p) :
    ({ s with heap := s.heap.set q none } : State).get p = s.get p := by
  unfold State.get
  simp only [List.getD_eq_getElem?_getD, List.getElem?_set, h, if_false]

theorem get_append (s : State) (l : List (Option Data)) (p : Nat) (h : p < s.heap.length)
    (sm : Option Nat) :
    ({ heap := s.heap ++ l, smallNumbers := sm } : State).get p = s.get p := by
  unfold State.get
  simp only [List.getD_eq_getElem?_getD, List.getElem?_append_left h]

theorem get_alloc_old (s : State) (d : Data) (p : Nat) (h : p < s.heap.length) :
    (s.alloc d).1.get p = s.get p :=
  get_append s [some d] p h s.smallNumbers

theorem get_alloc_new (s : State) (d : Data) : (s.alloc d).1.get (s.alloc d).2 = some d := by
  unfold State.alloc State.get
  simp [List.getD_eq_getElem?_getD]

theorem get_addRef_self {s : State} {p : Nat} {d : Data} (h : s.get p = some d) :
    (s.addRef p).get p = some d.addRef := by
  unfold State.addRef
  rw [h]
  simp only [get_put]
  simp [get_lt h]

theorem get_addRef_ne (s : State) {q p : Nat} (h : q ≠ p) : (s.addRef q).get p = s.get p := by
  unfold State.addRef
  cases hq : s.get q with
  | none => rfl
  | some d => simp only [get_put]; simp [h]

theorem get_delRef_self {s : State} {p : Nat} {d : Data} (h : s.get p = some d)
    (hr : 2 ≤ d.refCount) :
    (s.delRef p).get p = some { d with refCount := d.refCount - 1 } := by
  unfold State.delRef
  rw [h]
  have : ¬ d.refCount - 1 = 0 := by omega
  simp only [this, if_false, get_put]
  simp [get_lt h]

theorem get_delRef_ne (s : State) {q p : Nat} (h : q ≠ p) : (s.delRef q).get p = s.get p := by
  unfold State.delRef
  cases hq : s.get q with
  | none => rfl
  | some d =>
    simp only []
    split_ifs
    · exact get_set_none s q p h
    · simp only [get_put]; simp [h]

theorem get_modify_ne (f : Data → Data) (s : State) (y : BigUnsigned) {p : Nat}
    (h : y.data ≠ p) : (BigUnsigned.modify f s y).get p = s.get p := by
  unfold BigUnsigned.modify
  cases hq : s.get y.data with
  | none => rfl
  | some d => simp only [get_put]; simp [h]

theorem get_modify_self (f : Data → Data) {s : State} {y : BigUnsigned} {d : Data}
    (h : s.get y.data = some d) : (BigUnsigned.modify f s y).get y.data = some (f d) := by
  unfold BigUnsigned.modify
  rw [h]
  simp only [get_put]
  simp [get_lt h]

/-- The effect of `onWrite()` on a shared buffer: a copy at a fresh address,
the old buffer kept with its count lowered by one. -/
theorem onWrite_shared {s : State} {y : BigUnsigned} {d : Data} (h : s.get y.data = some d)
    (hr : 2 ≤ d.refCount) :
    (BigUnsigned.onWrite s y).2.data = s.heap.length ∧
    (BigUnsigned.onWrite s y).1.get s.heap.length = some d.copy ∧
    (BigUnsigned.onWrite s y).1.get y.data = some { d with refCount := d.refCount - 1 } := by
  have hlt := get_lt h
  have hne : y.data ≠ s.heap.length := by omega
  unfold BigUnsigned.onWrite
  rw [h]
  have : ¬ d.refCount ≤ 1 := by omega
  simp only [this, if_false]
  refine ⟨rfl, ?_, ?_⟩
  · rw [get_delRef_ne _ hne]
    exact get_alloc_new s d.copy
  · have h2 : (s.alloc d.copy).1.get y.data = some d := by
      rw [get_alloc_old s d.copy y.data hlt]; exact h
    exact get_delRef_self h2 hr

theorem onWrite_owned {s : State} {y : BigUnsigned} {d : Data} (h : s.get y.data = some d)
    (hr : d.refCount ≤ 1) : BigUnsigned.onWrite s y = (s, y) := by
  unfold BigUnsigned.onWrite
  rw [h]
  simp [hr]

theorem mutate_frame (f : Data → Data) {s : State} {y : BigUnsigned} {d : Data}
    (h : s.get y.data = some d) (hr : 2 ≤ d.refCount) :
    (BigUnsigned.mutate f s y).1.view y.data = some (d.size, d.words) := by
  obtain ⟨h1, _, h3⟩ := onWrite_shared h hr
  have hlt := get_lt h
  unfold BigUnsigned.mutate State.view
  simp only []
  rw [get_modify_ne f _ _ (by rw [h1]; omega), h3]
  rfl

theorem clearBits_frame {s : State} {y : BigUnsigned} {d : Data}
    (h : s.get y.data = some d) (hr : 2 ≤ d.refCount) (positions : List (Nat × Nat)) :
    (BigUnsigned.clearExponentBits s y positions).1.view y.data = some (d.size, d.words) := by
  obtain ⟨h1, _, h3⟩ := onWrite_shared h hr
  have hlt := get_lt h
  have hne : (BigUnsigned.onWrite s y).2.data ≠ y.data := by rw [h1]; omega
  unfold BigUnsigned.clearExponentBits State.view
  simp only []
  have key : ∀ (ps : List (Nat × Nat)) (st : State),
      (ps.foldl (fun st p => BigUnsigned.modify
        (fun d => d.setWord p.1 (clearBit (rd d.words p.1) p.2)) st
        (BigUnsigned.onWrite s y).2) st).get y.data = st.get y.data := by
    intro ps
    induction ps with
    | nil => intro st; rfl
    | cons p ps ih =>
      intro st
      rw [List.foldl_cons, ih, get_modify_ne _ _ _ hne]
  rw [key, h3]
  rfl

theorem initSmallNumbers_get (s : State) {p : Nat} (h : p < s.heap.length) :
    s.initSmallNumbers.1.get p = s.get p := by
  unfold State.initSmallNumbers
  cases s.smallNumbers with
  | some base => rfl
  | none => exact get_append s _ p h _

/-- Construction of a magnitude from a word leaves every existing buffer with
its length and words, and does not lower its count. -/
theorem ofWordH_get (s : State) (v : Nat) {p : Nat} {d : Data} (h : s.get p = some d) :
    ∃ d2, (BigUnsigned.ofWordH s v).1.get p = some d2 ∧ d2.size = d.size ∧
      d2.words = d.words ∧ d.refCount ≤ d2.refCount := by
  have hlt := get_lt h
  unfold BigUnsigned.ofWordH
  split_ifs
  · simp only []
    have h1 : s.initSmallNumbers.1.get p = some d := by
      rw [initSmallNumbers_get s hlt]; exact h
    by_cases hp : s.initSmallNumbers.2 + v = p
    · rw [hp, get_addRef_self h1]
      exact ⟨d.addRef, rfl, rfl, rfl, by simp [Data.addRef]⟩
    · rw [get_addRef_ne _ hp, h1]
      exact ⟨d, rfl, rfl, rfl, le_refl _⟩
  · simp only []
    rw [get_alloc_old s _ p hlt, h]
    exact ⟨d, rfl, rfl, rfl, le_refl _⟩

theorem assignWord_frame {s : State} {y : BigUnsigned} {d : Data}
    (h : s.get y.data = some d) (hr : 2 ≤ d.refCount) (v : Nat) :
    (BigUnsigned.assignWord s y v).1.view y.data = some (d.size, d.words) := by
  unfold BigUnsigned.assignWord
  rw [h]
  simp only []
  split_ifs with h1 h2
  · simp [State.view, h]
  · obtain ⟨d2, k1, k2, k3, k4⟩ := ofWordH_get s v h
    simp only [State.view]
    rw [get_delRef_self k1 (by omega)]
    simp [k2, k3]
  · omega

theorem copy_observed {d : Data} (h : 1 ≤ d.size) : d.copy.observed = d.observed := by
  unfold Data.copy
  by_cases h1 : d.size ≤ 1
  · have h2 : d.size = 1 := by omega
    have h3 : d.size ≠ 0 := by omega
    rw [if_pos h1, if_pos h3]
    simp [Data.observed, h2, rd]
  · rw [if_neg h1]
    unfold Data.observed
    apply List.map_congr_left
    intro i hi
    have := List.mem_range.1 hi
    show rd (copyInto d.words d.size d.size) i = rd d.words i
    rw [rd_copyInto]
    simp only [] at this
    simp [this]

theorem mutate_get_old (f : Data → Data) {s : State} {y : BigUnsigned} {d : Data}
    (h : s.get y.data = some d) (hr : 2 ≤ d.refCount) :
    (BigUnsigned.mutate f s y).1.get y.data = some { d with refCount := d.refCount - 1 } := by
  obtain ⟨h1, _, h3⟩ := onWrite_shared h hr
  have hlt := get_lt h
  unfold BigUnsigned.mutate
  simp only []
  rw [get_modify_ne f _ _ (by rw [h1]; omega), h3]

theorem binary_frame (g : Data → Data → Data) {s : State} {y : BigUnsigned} {d : Data}
    (h : s.get y.data = some d) (hr : 2 ≤ d.refCount) (b : BigUnsigned) :
    (BigUnsigned.mutateWith g s y b).1.view y.data = some (d.size, d.words) := by
  unfold BigUnsigned.mutateWith BigUnsigned.copy
  simp only []
  by_cases hb : b.data = y.data
  · have h1 : (s.addRef b.data).get y.data = some d.addRef := by
      rw [hb]; exact get_addRef_self h
    have hr1 : 2 ≤ d.addRef.refCount := by simp only [Data.addRef]; omega
    rw [hb] at h1 ⊢
    rw [h1]
    simp only []
    have h2 := mutate_get_old (fun x => g x d.addRef) h1 hr1
    unfold State.view
    rw [get_delRef_self h2 (by simp only [Data.addRef]; omega)]
    rfl
  · have h1 : (s.addRef b.data).get y.data = some d := by
      rw [get_addRef_ne s hb]; exact h
    cases hc : (s.addRef b.data).get b.data with
    | none => simp [State.view, h]
    | some bd =>
      simp only []
      have h2 := mutate_frame (fun x => g x bd) h1 hr
      unfold State.view at h2 ⊢
      rw [get_delRef_ne _ hb]
      exact h2

theorem onWrite_result {s : State} {y : BigUnsigned} {d : Data} (h : s.get y.data = some d)
    (hr : 1 ≤ d.refCount) (hsz : 1 ≤ d.size) :
    ∃ d2, (BigUnsigned.onWrite s y).1.get (BigUnsigned.onWrite s y).2.data = some d2 ∧
      d2.refCount = 1 ∧ d2.observed = d.observed := by
  by_cases h1 : d.refCount ≤ 1
  · rw [onWrite_owned h h1]
    exact ⟨d, h, by omega, rfl⟩
  · obtain ⟨k1, k2, _⟩ := onWrite_shared h (by omega)
    rw [k1, k2]
    exact ⟨d.copy, rfl, copy_refCount d, copy_observed hsz⟩

/-- C10: copy-on-write isolation.  Let `x` designate a live buffer `d` and let
`y` be a copy of `x` (the copy constructor shares the buffer and raises its
count).  Applying to `y` any mutator of the header (`^=`, `|=`, `&=` with a
magnitude or a word, assignment of a word, `normalize`, the in-place writes of
`pow` and `powMod` to their exponent, word minus magnitude) leaves the length
and the words observed through `x` as they were.  `onWrite` gives its caller a
buffer with reference count 1 holding the same word sequence; when the buffer
was shared, this is another buffer and the count of the old one is lowered by
one, and when it was not shared nothing changes. -/
theorem copy_on_write_isolation (s : State) (x b : BigUnsigned) (d : Data)
    (hx : s.get x.data = some d) (hr : 1 ≤ d.refCount) (hsz : 1 ≤ d.size)
    (w : Nat) (positions : List (Nat × Nat)) :
    (BigUnsigned.copy s x).2.data = x.data ∧
    (BigUnsigned.copy s x).1.get x.data = some { d with refCount := d.refCount + 1 } ∧
    (BigUnsigned.xorAssign (BigUnsigned.copy s x).1 (BigUnsigned.copy s x).2 b).1.view x.data
      = some (d.size, d.words) ∧
    (BigUnsigned.orAssign (BigUnsigned.copy s x).1 (BigUnsigned.copy s x).2 b).1.view x.data
      = some (d.size, d.words) ∧
    (BigUnsigned.andAssign (BigUnsigned.copy s x).1 (BigUnsigned.copy s x).2 b).1.view x.data
      = some (d.size, d.words) ∧
    (BigUnsigned.xorAssignWord (BigUnsigned.copy s x).1 (BigUnsigned.copy s x).2 w).1.view
      x.data = some (d.size, d.words) ∧
    (BigUnsigned.orAssignWord (BigUnsigned.copy s x).1 (BigUnsigned.copy s x).2 w).1.view
      x.data = some (d.size, d.words) ∧
    (BigUnsigned.andAssignWord (BigUnsigned.copy s x).1 (BigUnsigned.copy s x).2 w).1.view
      x.data = some (d.size, d.words) ∧
    (BigUnsigned.assignWord (BigUnsigned.copy s x).1 (BigUnsigned.copy s x).2 w).1.view
      x.data = some (d.size, d.words) ∧
    (BigUnsigned.normalize (BigUnsigned.copy s x).1 (BigUnsigned.copy s x).2).1.view x.data
      = some (d.size, d.words) ∧
    (BigUnsigned.clearExponentBits (BigUnsigned.copy s x).1 (BigUnsigned.copy s x).2
      positions).1.view x.data = some (d.size, d.words) ∧
    (∀ r, BigUnsigned.wordMinus (BigUnsigned.copy s x).1 w (BigUnsigned.copy s x).2 = .ok r →
      r.1.view x.data = some (d.size, d.words)) ∧
    (∃ d2, (BigUnsigned.onWrite s x).1.get (BigUnsigned.onWrite s x).2.data = some d2 ∧
      d2.refCount = 1 ∧ d2.observed = d.observed) ∧
    (2 ≤ d.refCount →
      (BigUnsigned.onWrite s x).2.data ≠ x.data ∧
      (BigUnsigned.onWrite s x).1.get x.data = some { d with refCount := d.refCount - 1 }) ∧
    (d.refCount = 1 → BigUnsigned.onWrite s x = (s, x)) := by
  have hc : (BigUnsigned.copy s x).1.get (BigUnsigned.copy s x).2.data = some d.addRef :=
    get_addRef_self hx
  have hc2 : 2 ≤ d.addRef.refCount := by simp [Data.addRef]; omega
  refine ⟨rfl, hc, ?_, ?_, ?_, ?_, ?_, ?_, ?_, ?_, ?_, ?_, ?_, ?_, ?_⟩
  · exact @binary_frame BigMath.xorAssign _ _ d.addRef hc hc2 b
  · exact @binary_frame BigMath.orAssign _ _ d.addRef hc hc2 b
  · exact @binary_frame BigMath.andAssign _ _ d.addRef hc hc2 b
  · exact @mutate_frame _ _ _ d.addRef hc hc2
  · exact @mutate_frame _ _ _ d.addRef hc hc2
  · exact @mutate_frame _ _ _ d.addRef hc hc2
  · exact @assignWord_frame _ _ d.addRef hc hc2 w
  · exact @mutate_frame _ _ _ d.addRef hc hc2
  · exact @clearBits_frame _ _ d.addRef hc hc2 positions
  · intro r hres
    unfold BigUnsigned.wordMinus at hres
    rw [hc] at hres
    simp only [] at hres
    split_ifs at hres
    injection hres with hres
    rw [← hres]
    exact @mutate_frame _ _ _ d.addRef hc hc2
  · exact onWrite_result hx hr hsz
  · intro h2
    obtain ⟨k1, _, k3⟩ := onWrite_shared hx h2
    refine ⟨?_, k3⟩
    rw [k1]
    have := get_lt hx
    omega
  · intro h1
    exact onWrite_owned hx (by omega)

/-- Witness for C10: a store holding the two-word magnitude `2^32 + 7` at
address 0, with one holder. -/
theorem copy_on_write_isolation_witness :
    (State.mk [some (Data.mk [7, 1] 2 2 1)] none).get 0 = some (Data.mk [7, 1] 2 2 1) ∧
    (BigUnsigned.xorAssign
      (BigUnsigned.copy (State.mk [some (Data.mk [7, 1] 2 2 1)] none) (BigUnsigned.mk 0)).1
      (BigUnsigned.copy (State.mk [some (Data.mk [7, 1] 2 2 1)] none) (BigUnsigned.mk 0)).2
      (BigUnsigned.mk 0)).1.view 0 = some (2, [7, 1]) :=
  ⟨by decide,
   (copy_on_write_isolation (State.mk [some (Data.mk [7, 1] 2 2 1)] none) (BigUnsigned.mk 0)
     (BigUnsigned.mk 0) (Data.mk [7, 1] 2 2 1) (by decide) (by decide) (by decide) 5
     []).2.2.1⟩

/-! ## Conversion to a magnitude and the negative exponent check -/

theorem toInt_neg_iff (x : BigInteger) :
    x.toInt < 0 ↔ (x.negative = true ∧ x.value.value ≠ 0) := by
  unfold BigInteger.toInt
  cases x.negative
  · simp
  · simp only [if_true, true_and]
    omega

/-- C11: converting a BigInteger (normalized magnitude) to BigUnsigned fails
with the sign conversion error exactly when the integer it denotes is negative,
that is when the negative flag is set and the magnitude is not zero; in every
other case, a zero carrying a negative flag included, it returns the magnitude
unchanged. -/
theorem toBigUnsigned_fails_iff_negative (x : BigInteger) (hx : x.value.magnitude) :
    (x.toBigUnsigned = .error .signConversion ↔ x.toInt < 0) ∧
    (x.toInt < 0 ↔ (x.negative = true ∧ x.value.value ≠ 0)) ∧
    (¬ x.toInt < 0 → x.toBigUnsigned = .ok x.value) ∧
    (x.value.value = 0 → x.toBigUnsigned = .ok x.value) := by
  have hiff := toInt_neg_iff x
  have he : neWord x.value 0 = decide (x.value.value ≠ 0) := by
    unfold neWord
    rw [eqWord_spec hx (by decide)]
    simp
  have hcond : (neWord x.value 0 && x.negative) = true ↔ x.toInt < 0 := by
    rw [hiff, he]
    simp only [Bool.and_eq_true, decide_eq_true_eq]
    tauto
  refine ⟨?_, hiff, ?_, ?_⟩
  · unfold BigInteger.toBigUnsigned
    constructor
    · intro h
      by_contra hn
      rw [if_neg (fun hc => hn (hcond.1 hc))] at h
      exact absurd h (by simp)
    · intro h
      rw [if_pos (hcond.2 h)]
  · intro h
    unfold BigInteger.toBigUnsigned
    rw [if_neg (fun hc => h (hcond.1 hc))]
  · intro h
    unfold BigInteger.toBigUnsigned
    rw [if_neg (fun hc => (hiff.1 (hcond.1 hc)).2 h)]

/-- Witness for C11: the conversion of `-5` fails and the conversion of a zero
with the negative flag set returns the magnitude. -/
theorem toBigUnsigned_fails_iff_negative_witness :
    (ofWord 5).magnitude ∧ (ofWord 0).magnitude ∧
    BigInteger.toBigUnsigned ⟨ofWord 5, true⟩ = .error .signConversion ∧
    BigInteger.toBigUnsigned ⟨ofWord 0, true⟩ = .ok (ofWord 0) :=
  ⟨by decide, by decide,
   (toBigUnsigned_fails_iff_negative ⟨ofWord 5, true⟩ (by decide)).1.2 (by decide),
   (toBigUnsigned_fails_iff_negative ⟨ofWord 0, true⟩ (by decide)).2.2.2 (by decide)⟩

theorem ofInt_zero : BigInteger.ofInt 0 = ⟨ofWord 0, false⟩ := by decide

theorem compare_zero_nonneg (sameData : Bool) (a : Data) (ha : 1 ≤ a.size) :
    0 ≤ compare sameData a (ofWord 0) := by
  unfold compare
  have hs : (ofWord 0).size = 1 := by decide
  have hw : rd (ofWord 0).words 0 = 0 := by decide
  split_ifs with h1 h2 h3
  · decide
  · decide
  · omega
  · have : a.size = 1 := by omega
    rw [this]
    simp only [compareLoop, hw]
    split_ifs <;> first | decide | omega

theorem opLt_zero (sameData : Bool) (x : BigInteger) (hx : x.value.magnitude) :
    BigInteger.opLt sameData x (BigInteger.ofInt 0) = decide (x.toInt < 0) := by
  have hiff := toInt_neg_iff x
  have hz : eqWord (ofWord 0) 0 = true := by decide
  unfold BigInteger.opLt BigInteger.compare
  rw [ofInt_zero]
  simp only [hz, Bool.and_true, Bool.not_false, Bool.and_false, Bool.false_eq_true, if_false]
  rw [eqWord_spec hx (by decide)]
  by_cases h0 : x.value.value = 0
  · have : ¬ x.toInt < 0 := fun h => (hiff.1 h).2 h0
    simp [h0, this]
  · simp only [h0, decide_False, Bool.false_eq_true, if_false]
    cases hn : x.negative
    · have h1 : ¬ x.toInt < 0 := fun h => by rw [(hiff.1 h).1] at hn; exact absurd hn (by decide)
      have h2 := compare_zero_nonneg sameData x.value hx.1.1
      simp only [Bool.false_eq_true, if_false, h1, decide_False, decide_eq_false_iff_not]
      omega
    · have h1 : x.toInt < 0 := hiff.2 ⟨hn, h0⟩
      simp [h1]

theorem mod_error {a m : Data} {e : Err} (h : mod a m = .error e) : e = .divideByZero := by
  unfold mod divMod at h
  split_ifs at h
  · injection h with h; exact h.symm
  · exact absurd h (by simp [Except.map])

theorem powModLoop_error : ∀ (fuel : Nat) (base retval e modulus : Data) (wi bi : Nat)
    (err : Err), powModLoop fuel base retval e modulus wi bi = .error err →
    err ≠ .negativeExponent := by
  intro fuel
  induction fuel with
  | zero =>
    intro base retval e modulus wi bi err h
    rw [powModLoop] at h
    split_ifs at h
    · injection h with h; rw [← h]; decide
  | succ fuel ih =>
    intro base retval e modulus wi bi err h
    rw [powModLoop] at h
    by_cases hc : wi < e.size ∧ rd e.words (e.size - 1) ≠ 0
    · rw [if_pos hc] at h
      cases hm : mod (mul base base) modulus with
      | error e1 =>
        rw [hm] at h
        simp only [] at h
        injection h with h
        rw [← h, mod_error hm]; decide
      | ok b1 =>
        rw [hm] at h
        simp only [] at h
        by_cases ht : bitIsSet (rd e.words wi) bi = true
        · rw [if_pos ht, if_pos ht] at h
          cases hm2 : mod (mul retval b1) modulus with
          | error e2 =>
            rw [hm2] at h
            simp only [] at h
            injection h with h
            rw [← h, mod_error hm2]; decide
          | ok r2 =>
            rw [hm2] at h
            simp only [] at h
            by_cases hb : bi + 1 ≥ BitsPerWord
            · rw [if_pos hb] at h; exact ih _ _ _ _ _ _ _ h
            · rw [if_neg hb] at h; exact ih _ _ _ _ _ _ _ h
        · rw [if_neg ht, if_neg ht] at h
          simp only [] at h
          by_cases hb : bi + 1 ≥ BitsPerWord
          · rw [if_pos hb] at h; exact ih _ _ _ _ _ _ _ h
          · rw [if_neg hb] at h; exact ih _ _ _ _ _ _ _ h
    · rw [if_neg hc] at h
      exact absurd h (by simp)

theorem powMod_error {base e modulus : Data} {err : Err}
    (h : powMod base e modulus = .error err) : err ≠ .negativeExponent := by
  unfold powMod at h
  split_ifs at h
  cases hm : mod base modulus with
  | error e1 =>
    rw [hm] at h
    simp only [] at h
    injection h with h
    rw [← h, mod_error hm]; decide
  | ok b1 =>
    rw [hm] at h
    simp only [] at h
    exact powModLoop_error _ _ _ _ _ _ _ _ h

/-- C12: the signed `pow` and `powMod` fail with the negative exponent error
exactly when the exponent (normalized magnitude) denotes an integer below zero.
The test comes first: with a negative exponent `powMod` fails with this error
whatever the modulus, 0 and 1 included.  For an exponent that denotes zero or
more, a zero carrying a negative flag included, this error is not raised, and
`pow` returns. -/
theorem negative_exponent_error (sameData : Bool) (base exponent modulus : BigInteger)
    (he : exponent.value.magnitude) :
    (exponent.toInt < 0 →
      BigInteger.pow sameData base exponent = .error .negativeExponent ∧
      BigInteger.powMod sameData base exponent modulus = .error .negativeExponent) ∧
    (0 ≤ exponent.toInt →
      BigInteger.pow sameData base exponent ≠ .error .negativeExponent ∧
      BigInteger.powMod sameData base exponent modulus ≠ .error .negativeExponent ∧
      ∃ r, BigInteger.pow sameData base exponent = .ok r) := by
  have hlt := opLt_zero sameData exponent he
  constructor
  · intro h
    unfold BigInteger.pow BigInteger.powMod
    rw [hlt]
    simp [h]
  · intro h
    have hn : ¬ exponent.toInt < 0 := by omega
    obtain ⟨p, hp, _⟩ := pow_total base.value exponent.value he
    have hpow : BigInteger.pow sameData base exponent = .ok (BigInteger.ofSignMagnitude p
        (base.negative && neWord (opAndWord exponent.value 1) 0)) := by
      unfold BigInteger.pow
      rw [hlt, hp]
      simp [hn, Except.map]
    refine ⟨?_, ?_, _, hpow⟩
    · rw [hpow]; simp
    · unfold BigInteger.powMod
      rw [hlt]
      simp only [hn, decide_False, Bool.false_eq_true, if_false]
      cases hm : powMod base.value exponent.value modulus.value with
      | error e1 =>
        have := powMod_error hm
        simp only [Except.map]
        intro hc
        injection hc with hc
        exact this hc
      | ok r => simp [Except.map]

/-- Witness for C12: exponent `-3`, with modulus 0 for `powMod`. -/
theorem negative_exponent_error_witness :
    (ofWord 3).magnitude ∧
    BigInteger.pow false ⟨ofWord 2, false⟩ ⟨ofWord 3, true⟩ = .error .negativeExponent ∧
    BigInteger.powMod false ⟨ofWord 2, false⟩ ⟨ofWord 3, true⟩ ⟨ofWord 0, false⟩
      = .error .negativeExponent :=
  ⟨by decide,
   (negative_exponent_error false ⟨ofWord 2, false⟩ ⟨ofWord 3, true⟩ ⟨ofWord 0, false⟩
     (by decide)).1 (by decide)⟩

/-! ## Cancellation, symmetry of gcd, normalized results -/

theorem gtLoop_self (a : List Nat) (n : Nat) : gtLoop a a n = false := by
  induction n with
  | zero => rfl
  | succ n ih => simp [gtLoop, ih]

theorem opGt_self (sameData : Bool) (a : Data) : opGt sameData a a = false := by
  unfold opGt
  cases sameData <;> simp [gtLoop_self]

theorem add_neg_self (sameData : Bool) (x : BigInteger) :
    BigInteger.add sameData x x.neg = .ok ⟨Data.ofNat 0, false⟩ := by
  obtain ⟨v, n⟩ := x
  have h1 : opGt sameData v v = false := opGt_self sameData v
  have h2 : opLt sameData v v = false := opGt_self sameData v
  have h3 : subAssign v v = .ok (Data.ofNat 0) := by
    rw [subAssign_ok (le_refl _), Nat.sub_self]
  cases n
  · simp [BigInteger.add, BigInteger.addAssign, BigInteger.neg, ofSignMagnitude_eq, h2, h3,
      Except.map]
  · simp [BigInteger.add, BigInteger.addAssign, BigInteger.neg, ofSignMagnitude_eq, h1, sub, h3,
      Except.map]

/-- C13: for every BigInteger `x`, `x + (-x)` and `x - x` return the magnitude
zero (one word, 0) with the negative flag cleared, and compare equal to 0.
Magnitude subtraction of equal values is the exact zero. -/
theorem add_negation_is_canonical_zero (sameData sameData2 : Bool) (x : BigInteger) :
    ∃ s, BigInteger.add sameData x x.neg = .ok s ∧ BigInteger.sub sameData x x = .ok s ∧
      s.value.value = 0 ∧ s.value.observed = [0] ∧ s.negative = false ∧
      BigInteger.opEq sameData2 s (BigInteger.ofInt 0) = true := by
  refine ⟨⟨Data.ofNat 0, false⟩, add_neg_self sameData x, add_neg_self sameData x, ?_, ?_, rfl,
    ?_⟩
  · decide
  · decide
  · cases sameData2 <;> decide

/-- Witness for C13: `parse("-5") + parse("5") == 0` with a non-negative sign. -/
theorem add_negation_is_canonical_zero_witness :
    BigInteger.parse ['-', '5'] false = .ok ⟨Data.ofNat 5, true⟩ ∧
    BigInteger.parse ['5'] false = .ok (BigInteger.neg ⟨Data.ofNat 5, true⟩) ∧
    ∃ s, BigInteger.add false ⟨Data.ofNat 5, true⟩ (BigInteger.neg ⟨Data.ofNat 5, true⟩)
        = .ok s ∧
      BigInteger.sub false ⟨Data.ofNat 5, true⟩ ⟨Data.ofNat 5, true⟩ = .ok s ∧
      s.value.value = 0 ∧ s.value.observed = [0] ∧ s.negative = false ∧
      BigInteger.opEq false s (BigInteger.ofInt 0) = true :=
  ⟨by decide, by decide, add_negation_is_canonical_zero false false ⟨Data.ofNat 5, true⟩⟩

/-- C14: the unsigned gcd is symmetric: for all magnitudes `a` and `b`, both
`gcd(a, b)` and `gcd(b, a)` return and the results compare equal, whichever
operand is smaller and also when one of them is 0 or 1. -/
theorem gcd_symmetric (sameData sameData2 : Bool) (a b : Data) (ha : a.magnitude)
    (hb : b.magnitude) (hs : sameData = true → a = b) (hs2 : sameData2 = true → b = a) :
    ∃ r1 r2, gcd sameData a b = .ok r1 ∧ gcd sameData2 b a = .ok r2 ∧
      r1.value = r2.value ∧ opEq false r1 r2 = true := by
  obtain ⟨r1, h1, m1, v1⟩ := gcd_value sameData a b ha hb hs
  obtain ⟨r2, h2, m2, v2⟩ := gcd_value sameData2 b a hb ha hs2
  have hv : r1.value = r2.value := by
    rw [v1, v2, Nat.gcd_comm a.value b.value]
    by_cases h0 : a.value = 0 ∨ b.value = 0
    · rw [if_pos h0, if_pos (Or.symm h0)]
    · rw [if_neg h0, if_neg (fun h => h0 (Or.symm h))]
      by_cases h1 : a.value = 1 ∨ b.value = 1
      · rw [if_pos h1, if_pos (Or.symm h1)]
      · rw [if_neg h1, if_neg (fun h => h1 (Or.symm h))]
  refine ⟨r1, r2, h1, h2, hv, ?_⟩
  rw [opEq_spec false m1 m2 (fun h => absurd h (by decide)), hv]
  simp

/-- Witness for C14: `gcd(18, 48)` and `gcd(48, 18)`. -/
theorem gcd_symmetric_witness :
    (ofWord 18).magnitude ∧ (ofWord 48).magnitude ∧
    ∃ r1 r2, gcd false (ofWord 18) (ofWord 48) = .ok r1 ∧
      gcd false (ofWord 48) (ofWord 18) = .ok r2 ∧
      r1.value = r2.value ∧ opEq false r1 r2 = true :=
  ⟨by decide, by decide,
   gcd_symmetric false false (ofWord 18) (ofWord 48) (by decide) (by decide) (by simp)
     (by simp)⟩

theorem or_ne_zero_left {x : Nat} (y : Nat) (h : x ≠ 0) : x ||| y ≠ 0 := by
  intro h0
  apply h
  apply Nat.zero_of_testBit_eq_false
  intro i
  have : (x ||| y).testBit i = false := by rw [h0]; simp
  rw [Nat.testBit_or] at this
  cases hx : x.testBit i
  · rfl
  · rw [hx] at this; simp at this

theorem or_ne_zero_right (x : Nat) {y : Nat} (h : y ≠ 0) : x ||| y ≠ 0 := by
  intro h0
  apply h
  apply Nat.zero_of_testBit_eq_false
  intro i
  have : (x ||| y).testBit i = false := by rw [h0]; simp
  rw [Nat.testBit_or] at this
  cases hy : y.testBit i
  · rfl
  · rw [hy] at this; simp at this

theorem word_top {d : Data} (h : 1 ≤ d.size) : d.word (d.size - 1) = rd d.words (d.size - 1) := by
  unfold Data.word
  have : d.size - 1 < d.size := by omega
  simp [this]

theorem normalized_iff_word {d : Data} (h : 1 ≤ d.size) :
    d.normalized ↔ (d.size = 1 ∨ d.word (d.size - 1) ≠ 0) := by
  unfold Data.normalized
  rw [word_top h]

theorem orAssign_normalized {a b : Data} (ha : a.wf) (hb : b.wf)
    (hna : a.size = 1 ∨ a.word (a.size - 1) ≠ 0) (hnb : b.size = 1 ∨ b.word (b.size - 1) ≠ 0) :
    (orAssign a b).normalized := by
  have hwf := orAssign_wf ha hb
  have hs := orAssign_size (b := b) ha
  rw [normalized_iff_word hwf.1, hs, orAssign_word ha]
  by_cases h1 : max a.size b.size = 1
  · left; exact h1
  · right
    have h1a := ha.1
    have h1b := hb.1
    by_cases hm : a.size ≤ b.size
    · have e : max a.size b.size = b.size := by omega
      rw [e]
      apply or_ne_zero_right
      rcases hnb with h | h
      · omega
      · exact h
    · have e : max a.size b.size = a.size := by omega
      rw [e]
      apply or_ne_zero_left
      rcases hna with h | h
      · omega
      · exact h

theorem onWrite_magnitude {d : Data} (h : d.magnitude) : d.onWrite.magnitude := by
  have hwf := onWrite_wf h.1
  refine ⟨hwf, ?_⟩
  rw [normalized_iff_word hwf.1, onWrite_size h.1, onWrite_word h.1]
  exact (normalized_iff_word h.1.1).1 h.2

theorem setWord_zero_magnitude {d : Data} (h : d.magnitude) {v : Nat} (hv : v < WordModulus) :
    (d.setWord 0 v).magnitude := by
  have hwf := setWord_wf h.1 0 hv
  refine ⟨hwf, ?_⟩
  have h1 := h.1.1
  rw [normalized_iff_word hwf.1, setWord_size, setWord_word h.1 (by omega)]
  by_cases hs : d.size = 1
  · left; exact hs
  · right
    have : ¬ d.size - 1 = 0 := by omega
    rw [if_neg this]
    rcases (normalized_iff_word h1).1 h.2 with h2 | h2
    · exact absurd h2 hs
    · exact h2

theorem xorAssignWord_magnitude {a : Data} (h : a.magnitude) {w : Nat} (hw : w < WordModulus) :
    (xorAssignWord a w).magnitude := by
  have hm := onWrite_magnitude h
  exact setWord_zero_magnitude hm (Nat.xor_lt_two_pow (rd_lt hm.1.2.2.2 0) hw)

theorem orAssignWord_magnitude {a : Data} (h : a.magnitude) {w : Nat} (hw : w < WordModulus) :
    (orAssignWord a w).magnitude := by
  have hm := onWrite_magnitude h
  exact setWord_zero_magnitude hm (Nat.or_lt_two_pow (rd_lt hm.1.2.2.2 0) hw)

theorem andAssignWord_magnitude {a : Data} (h : a.wf) {w : Nat} (hw : w < WordModulus) :
    (andAssignWord a w).magnitude := by
  have hwf := onWrite_wf h
  have hs : ({ a.onWrite with size := 1 } : Data).wf :=
    shrink_wf hwf 1 (le_refl _) hwf.1
  have hm : ({ a.onWrite with size := 1 } : Data).magnitude := ⟨hs, Or.inl rfl⟩
  exact setWord_zero_magnitude hm (Nat.and_lt_two_pow _ hw)

theorem magnitude_zero_observed {d : Data} (h : d.magnitude) (hv : d.value = 0) :
    d.observed = [0] := by
  have hs : d.size = 1 := by
    by_contra hne
    have := value_ge_of_top (by have := h.1.1; omega) h.2
    have hp : 0 < 2 ^ (32 * (d.size - 1)) := Nat.two_pow_pos _
    omega
  have hw : rd d.words 0 = 0 := by
    simpa [Data.value, hs, wordsValue] using hv
  simp [Data.observed, hs, hw, List.range_succ]

/-- C15: the bitwise operators preserve normalized form: for normalized
magnitudes `a`, `b` and a word `w`, each of `a & b`, `a | b`, `a ^ b`, `a & w`,
`a | w`, `a ^ w` has at least one word and a non-zero most significant word
unless it has exactly one word; this includes `|` in both forms and `^` with a
word, which do not call `normalize`.  The result of `a ^ a` is the single
word 0. -/
theorem bitwise_operators_normalized (a b : Data) (w : Nat) (ha : a.magnitude)
    (hb : b.magnitude) (hw : w < WordModulus) :
    (opAnd a b).magnitude ∧ (opOr a b).magnitude ∧ (opXor a b).magnitude ∧
    (opAndWord a w).magnitude ∧ (opOrWord a w).magnitude ∧ (opXorWord a w).magnitude ∧
    (opXor a a).observed = [0] := by
  have ha1 : a.addRef.wf := addRef_wf ha.1
  have ham : a.addRef.magnitude := ⟨ha1, ha.2⟩
  have hxx : (opXor a a).magnitude := ⟨xorAssign_wf ha1 ha.1, xorAssign_normalized ha1 ha.1⟩
  refine ⟨⟨andAssign_wf ha1 hb.1, andAssign_normalized ha1 hb.1⟩, ⟨orAssign_wf ha1 hb.1, ?_⟩,
    ⟨xorAssign_wf ha1 hb.1, xorAssign_normalized ha1 hb.1⟩,
    andAssignWord_magnitude ha1 hw, orAssignWord_magnitude ham hw,
    xorAssignWord_magnitude ham hw, ?_⟩
  · exact orAssign_normalized ha1 hb.1 ((normalized_iff_word ha.1.1).1 ha.2)
      ((normalized_iff_word hb.1.1).1 hb.2)
  · apply magnitude_zero_observed hxx
    have hv : (opXor a a).value = a.value ^^^ a.value :=
      value_of_word_op hxx.1 ha.1 ha.1 (fun x y => x ^^^ y) (fun x y => xor x y)
        (fun m n k => Nat.testBit_xor m n k)
        (fun i => by unfold opXor; rw [xorAssign_word ha1 ha.1, addRef_word])
    rw [hv, Nat.xor_self]

/-- Witness for C15: the two-word magnitude `2^32 + 7`, the one-word magnitude
`5` and the word `9`. -/
theorem bitwise_operators_normalized_witness :
    (Data.mk [7, 1] 2 2 1).magnitude ∧ (ofWord 5).magnitude ∧ 9 < WordModulus ∧
    (opOr (Data.mk [7, 1] 2 2 1) (ofWord 5)).magnitude ∧
    (opXorWord (Data.mk [7, 1] 2 2 1) 9).magnitude :=
  ⟨by decide, by decide, by decide,
   (bitwise_operators_normalized (Data.mk [7, 1] 2 2 1) (ofWord 5) 9 (by decide) (by decide)
     (by decide)).2.1,
   (bitwise_operators_normalized (Data.mk [7, 1] 2 2 1) (ofWord 5) 9 (by decide) (by decide)
     (by decide)).2.2.2.2.2.1⟩

/-! ## Construction from machine integers, the convenience parse -/

theorem ofInt_denotes (v : Int) (h1 : -2147483648 < v) (h2 : v < 2147483648) :
    (BigInteger.ofInt v).toInt = v ∧ (BigInteger.ofInt v).negative = decide (v < 0) ∧
    (BigInteger.ofInt v).value.value = v.natAbs := by
  have hv : (BigInteger.ofInt v).value.value = v.natAbs := by
    simp only [BigInteger.ofInt, ofWord_value, toWordType, absInt]
    split_ifs <;> omega
  refine ⟨?_, rfl, hv⟩
  unfold BigInteger.toInt
  rw [hv]
  simp only [BigInteger.ofInt, decide_eq_true_eq]
  split_ifs <;> omega

theorem ofLong_value (v : Int) (h1 : -9223372036854775808 < v)
    (h2 : v < 9223372036854775808) :
    (BigInteger.ofLong v).value.value = v.natAbs % 4294967296 := by
  simp only [BigInteger.ofLong, ofWord_value, toWordType, absLong]
  split_ifs <;> omega

/-- C16, the code at the failing input: `BigInteger(long)` keeps the low 32
bits of the absolute value, so the `long` values `2^32` and `2^32 + 5` give
BigIntegers that denote 0 and 5, and `-2^32` gives the magnitude zero with the
negative flag set. -/
theorem ofLong_keeps_low_word :
    (BigInteger.ofLong 4294967296).toInt = 0 ∧
    (BigInteger.ofLong 4294967301).toInt = 5 ∧
    (BigInteger.ofLong (-4294967296)).value.value = 0 ∧
    (BigInteger.ofLong (-4294967296)).negative = true := by
  decide

/-- C17: the convenience `parse(text, useOctal)` infers the base from the
prefix: after `0x` or `0X` it parses the rest in base 16 whether or not
`useOctal` is set; otherwise, with `useOctal` set, after `0` it parses the rest
in base 8; otherwise it parses the whole text in base 10, so that without
`useOctal` a leading `0` is read as decimal. -/
theorem parse_infers_base (str rest : List Char) (useOctal : Bool) :
    parse ('0' :: 'x' :: rest) useOctal = parseBase rest 16 ∧
    parse ('0' :: 'X' :: rest) useOctal = parseBase rest 16 ∧
    ((rest.head? ≠ some 'x' ∧ rest.head? ≠ some 'X') →
      parse ('0' :: rest) true = parseBase rest 8 ∧
      parse ('0' :: rest) false = parseBase ('0' :: rest) 10) ∧
    (str.head? ≠ some '0' → parse str useOctal = parseBase str 10) ∧
    ((str.take 2 = ['0', 'x'] ∨ str.take 2 = ['0', 'X']) →
      parse str useOctal = parseBase (str.drop 2) 16) ∧
    (¬ (str.take 2 = ['0', 'x'] ∨ str.take 2 = ['0', 'X']) → str.take 1 = ['0'] →
      parse str true = parseBase (str.drop 1) 8 ∧ parse str false = parseBase str 10) ∧
    (¬ (str.take 2 = ['0', 'x'] ∨ str.take 2 = ['0', 'X']) → ¬ str.take 1 = ['0'] →
      parse str useOctal = parseBase str 10) := by
  refine ⟨?_, ?_, ?_, ?_, ?_, ?_, ?_⟩
  · simp [parse]
  · simp [parse]
  · intro h
    have hx : ¬ (List.take 2 ('0' :: rest) = ['0', 'x'] ∨
        List.take 2 ('0' :: rest) = ['0', 'X']) := by
      cases rest with
      | nil => simp
      | cons c r =>
        simp only [List.head?_cons, ne_eq, Option.some.injEq] at h
        simp [h.1, h.2]
    constructor
    · unfold parse
      rw [if_neg hx]
      simp
    · unfold parse
      rw [if_neg hx]
      simp
  · intro h
    cases str with
    | nil => simp [parse]
    | cons c r =>
      simp only [List.head?_cons, ne_eq, Option.some.injEq] at h
      unfold parse
      have h1 : ¬ (List.take 2 (c :: r) = ['0', 'x'] ∨ List.take 2 (c :: r) = ['0', 'X']) := by
        cases r <;> simp [h]
      have h2 : ¬ (useOctal = true ∧ List.take 1 (c :: r) = ['0']) := by simp [h]
      rw [if_neg h1, if_neg h2]
  · intro h
    unfold parse
    rw [if_pos h]
  · intro h1 h2
    constructor
    · unfold parse
      rw [if_neg h1, if_pos ⟨rfl, h2⟩]
    · unfold parse
      rw [if_neg h1, if_neg (by simp)]
  · intro h1 h2
    unfold parse
    rw [if_neg h1, if_neg (fun h => h2 h.2)]

/-- Witness for C17: `0x1f` is 31 with and without `useOctal`, `017` is 15 with
`useOctal` and 17 without, `17` is 17. -/
theorem parse_infers_base_witness :
    (parse ['0', 'x', '1', 'f'] true).map Data.value = .ok 31 ∧
    (parse ['0', 'X', '1', 'f'] false).map Data.value = .ok 31 ∧
    (parse ['0', '1', '7'] true).map Data.value = .ok 15 ∧
    (parse ['0', '1', '7'] false).map Data.value = .ok 17 ∧
    (parse ['1', '7'] true).map Data.value = .ok 17 ∧
    parse ['0', 'x', '1', 'f'] true = parseBase ['1', 'f'] 16 :=
  ⟨by decide, by decide, by decide, by decide, by decide,
   (parse_infers_base [] ['1', 'f'] true).1⟩

/-! ## Growth of the buffer, normalize -/

theorem new_wf {v : Nat} (hv : v < WordModulus) {size : Nat} (hs : 1 ≤ size) :
    (Data.new v size).wf := by
  unfold Data.new
  split_ifs with h
  · refine ⟨hs, ?_, ?_, ?_⟩
    · simp [zeroFill_length, copyInto_length]
    · simp [zeroFill_length, copyInto_length]
    · apply all_lt_of_rd
      intro i
      simp only [rd_zeroFill, rd_set, rd_copyInto]
      split_ifs <;> first | exact hv | omega | decide
  · refine ⟨hs, by simp; omega, by simp; omega, ?_⟩
    intro w hw
    simp only [List.mem_singleton] at hw
    subst hw; exact hv

theorem expand_value (d : Data) (hd : d.wf) (n : Nat) : (d.expand n).value = d.value :=
  value_eq_of_word (expand_wf hd n) hd (expand_word d n)

theorem expand_keeps_low (d : Data) (n i : Nat) (hn : d.size < n) (hi : i < d.size) :
    rd (d.expand n).words i = rd d.words i := by
  rw [expand_words d n i hn]
  have h1 : ¬ (d.size ≤ i ∧ i < n) := by omega
  rw [if_neg h1]
  split_ifs with h2 h3
  · rfl
  · omega
  · rfl

theorem expand_zero_high (d : Data) (n i : Nat) (hn : d.size < n) (h1 : d.size ≤ i)
    (h2 : i < n) : rd (d.expand n).words i = 0 := by
  rw [expand_words d n i hn, if_pos ⟨h1, h2⟩]

theorem expand_allocated_le (d : Data) (n : Nat) : d.allocated ≤ (d.expand n).allocated := by
  by_cases hn : d.size < n
  · rw [expand_allocated d n hn]
    split_ifs <;> omega
  · rw [expand_of_le d n (by omega)]

/-- Counterexample to C19 as stated: `resize(0)` on a one-word buffer leaves
size 0, so `1 <= size` does not hold after every operation. -/
theorem resize_zero_counterexample :
    (Data.new 5 1).wf ∧ 0 ≤ (Data.new 5 1).size ∧ ((Data.new 5 1).resize 0).size = 0 ∧
    ¬ (1 ≤ ((Data.new 5 1).resize 0).size) := by
  decide

/-- C19 (amended): `expand(n)` with `n > size` leaves the words `[0, size)`,
sets every word in `[size, n)` to 0 whatever the storage held there, sets
`size` to `n` and does not lower `allocated`, so the denoted value is the same;
`expand(n)` with `n <= size` changes nothing; `resize(n)` with `n <= size`
lowers `size` to `n` and keeps `allocated` and the storage; a buffer
constructed with `size >= 1` satisfies `1 <= size <= allocated`, and this
holds again after `expand(n)` for every `n` and after `resize(n)` for every
`n >= 1`. -/
theorem buffer_growth (d : Data) (n : Nat) (hd : d.wf) :
    (d.size < n →
      (∀ i, i < d.size → rd (d.expand n).words i = rd d.words i) ∧
      (∀ i, d.size ≤ i → i < n → rd (d.expand n).words i = 0) ∧
      (d.expand n).size = n) ∧
    d.allocated ≤ (d.expand n).allocated ∧
    (d.expand n).value = d.value ∧
    (n ≤ d.size → d.expand n = d) ∧
    (n ≤ d.size →
      (d.resize n).size = n ∧ (d.resize n).allocated = d.allocated ∧
      (d.resize n).words = d.words) ∧
    (1 ≤ d.size ∧ d.size ≤ d.allocated) ∧
    (1 ≤ (d.expand n).size ∧ (d.expand n).size ≤ (d.expand n).allocated) ∧
    (1 ≤ n → 1 ≤ (d.resize n).size ∧ (d.resize n).size ≤ (d.resize n).allocated) ∧
    (∀ v size, v < WordModulus → 1 ≤ size →
      1 ≤ (Data.new v size).size ∧ (Data.new v size).size ≤ (Data.new v size).allocated) := by
  have hwf := expand_wf hd n
  have hse := expand_size d n
  refine ⟨?_, expand_allocated_le d n, expand_value d hd n, expand_of_le d n, ?_, ?_, ?_, ?_, ?_⟩
  · intro hn
    refine ⟨fun i hi => expand_keeps_low d n i hn hi,
      fun i h1 h2 => expand_zero_high d n i hn h1 h2, ?_⟩
    rw [hse]; omega
  · intro hn
    unfold Data.resize
    rw [expand_of_le d n hn]
    exact ⟨rfl, rfl, rfl⟩
  · exact ⟨hd.1, by rw [hd.2.2.1]; exact hd.2.1⟩
  · exact ⟨hwf.1, by rw [hwf.2.2.1]; exact hwf.2.1⟩
  · intro h1
    have hsz : (d.resize n).size = n := rfl
    have hal : (d.resize n).allocated = (d.expand n).allocated := rfl
    rw [hsz, hal, hwf.2.2.1]
    refine ⟨h1, ?_⟩
    have := hwf.2.1
    rw [hse] at this
    omega
  · intro v size hv hs
    have := new_wf hv hs
    exact ⟨this.1, by rw [this.2.2.1]; exact this.2.1⟩

/-- Witness for C19 (amended): a buffer of size 1 whose storage holds a stale
word 9 at index 1; `expand(2)` zeroes it. -/
theorem buffer_growth_witness :
    (Data.mk [7, 9] 1 2 1).wf ∧ ((Data.mk [7, 9] 1 2 1).expand 2).words = [7, 0] ∧
    ((Data.mk [7, 9] 1 2 1).expand 2).value = (Data.mk [7, 9] 1 2 1).value :=
  ⟨by decide, by decide, (buffer_growth (Data.mk [7, 9] 1 2 1) 2 (by decide)).2.2.1⟩

theorem normalizeLoop_idem (ws : List Nat) (n : Nat) :
    normalizeLoop ws (normalizeLoop ws n) = normalizeLoop ws n := by
  rcases normalizeLoop_top ws n with h | h | h
  · exact normalizeLoop_fixed ws _ (Or.inl h)
  · rw [h]; rfl
  · exact normalizeLoop_fixed ws _ (Or.inr h)

theorem normalize_idem (d : Data) : d.normalize.normalize = d.normalize := by
  have hr : d.normalize.refCount ≤ 1 := onWrite_refCount d
  unfold Data.normalize
  rw [show (Data.onWrite { d.onWrite with size := normalizeLoop d.onWrite.words d.onWrite.size })
      = { d.onWrite with size := normalizeLoop d.onWrite.words d.onWrite.size } from
      onWrite_of_le hr]
  simp only [normalizeLoop_idem]

theorem onWrite_rd {d : Data} (h : d.wf) {i : Nat} (hi : i < d.size) :
    rd d.onWrite.words i = rd d.words i := by
  have := onWrite_word h i
  unfold Data.word at this
  rw [onWrite_size h] at this
  simpa [hi] using this

theorem normalize_observed {d : Data} (h : d.wf) :
    d.normalize.observed = d.observed.take d.normalize.size := by
  have hle := normalize_size_le h
  unfold Data.observed
  rw [← List.map_take, List.take_range, normalize_words]
  have : min d.normalize.size d.size = d.normalize.size := by omega
  rw [this]
  apply List.map_congr_left
  intro i hi
  have := List.mem_range.1 hi
  exact onWrite_rd h (by omega)

/-- C20: for every word sequence of length at least 1, `normalize` yields a
sequence in normalized form that denotes the same value and is a prefix of the
input: the words it removes, all at the most significant end, are zero, and at
least one word is kept.  It is idempotent and leaves a sequence that is already
in normalized form as it is. -/
theorem normalize_strips_high_zeros (d : Data) (hd : d.wf) :
    d.normalize.magnitude ∧ 1 ≤ d.normalize.size ∧ d.normalize.size ≤ d.size ∧
    d.normalize.value = d.value ∧
    d.normalize.observed = d.observed.take d.normalize.size ∧
    (∀ i, d.normalize.size ≤ i → i < d.size → rd d.words i = 0) ∧
    d.normalize.normalize = d.normalize ∧
    (d.normalized → d.normalize.size = d.size ∧ d.normalize.observed = d.observed) := by
  have hwf := normalize_wf hd
  have hle := normalize_size_le hd
  have hobs := normalize_observed hd
  refine ⟨⟨hwf, normalize_normalized hd⟩, hwf.1, hle,
    value_eq_of_word hwf hd (normalize_word hd), hobs, ?_, normalize_idem d, ?_⟩
  · intro i h1 h2
    have := normalize_word hd i
    unfold Data.word at this
    simpa [h2, Nat.not_lt.2 h1] using this.symm
  · intro hn
    have hs : d.normalize.size = d.size := by
      rw [normalize_size, onWrite_size hd]
      apply normalizeLoop_fixed
      rcases hn with h | h
      · left; exact h
      · right
        rw [onWrite_rd hd (by have := hd.1; omega)]
        exact h
    refine ⟨hs, ?_⟩
    rw [hobs, hs]
    unfold Data.observed
    rw [← List.map_take, List.take_range, Nat.min_self]

/-- Witness for C20: the three-word sequence `7, 0, 0` is normalized to the
single word `7`. -/
theorem normalize_strips_high_zeros_witness :
    (Data.mk [7, 0, 0] 3 3 1).wf ∧ (Data.mk [7, 0, 0] 3 3 1).normalize.observed = [7] ∧
    (Data.mk [7, 0, 0] 3 3 1).normalize.value = (Data.mk [7, 0, 0] 3 3 1).value :=
  ⟨by decide, by decide, (normalize_strips_high_zeros (Data.mk [7, 0, 0] 3 3 1) (by decide)).2.2.2.1⟩

/-! ## The small number table -/

theorem put_length (s : State) (p : Nat) (d : Data) :
    (s.put p d).heap.length = s.heap.length := by
  simp [State.put]

theorem addRef_length (s : State) (p : Nat) : (s.addRef p).heap.length = s.heap.length := by
  unfold State.addRef
  cases s.get p with
  | none => rfl
  | some d => exact put_length s p _

theorem delRef_length (s : State) (p : Nat) : (s.delRef p).heap.length = s.heap.length := by
  unfold State.delRef
  cases s.get p with
  | none => rfl
  | some d =>
    simp only []
    split_ifs
    · simp
    · exact put_length s p _

theorem modify_length (f : Data → Data) (s : State) (y : BigUnsigned) :
    (BigUnsigned.modify f s y).heap.length = s.heap.length := by
  unfold BigUnsigned.modify
  cases s.get y.data with
  | none => rfl
  | some d => exact put_length s _ _

theorem alloc_length (s : State) (d : Data) : (s.alloc d).1.heap.length = s.heap.length + 1 := by
  simp [State.alloc]

theorem addRef_smallNumbers (s : State) (p : Nat) :
    (s.addRef p).smallNumbers = s.smallNumbers := by
  unfold State.addRef
  cases s.get p with
  | none => rfl
  | some d => rfl

theorem delRef_smallNumbers (s : State) (p : Nat) :
    (s.delRef p).smallNumbers = s.smallNumbers := by
  unfold State.delRef
  cases s.get p with
  | none => rfl
  | some d =>
    simp only []
    split_ifs <;> rfl

theorem modify_smallNumbers (f : Data → Data) (s : State) (y : BigUnsigned) :
    (BigUnsigned.modify f s y).smallNumbers = s.smallNumbers := by
  unfold BigUnsigned.modify
  cases s.get y.data with
  | none => rfl
  | some d => rfl

theorem handle_eq_iff (p q : Nat) : (BigUnsigned.mk p = BigUnsigned.mk q) ↔ p = q := by
  constructor
  · intro h; injection h
  · intro h; rw [h]

theorem ok_perm {s : State} {hs hs2 : List BigUnsigned} (hp : hs.Perm hs2)
    (h : World.bounded ⟨s, hs⟩ ∧ World.tableIntact ⟨s, hs⟩) :
    World.bounded ⟨s, hs2⟩ ∧ World.tableIntact ⟨s, hs2⟩ := by
  constructor
  · intro x hx
    exact h.1 x (hp.mem_iff.2 hx)
  · intro base hb i hi
    obtain ⟨d, h1, h2, h3, h4⟩ := h.2 base hb i hi
    exact ⟨d, h1, h2, h3, by rw [h4]; simp only []; rw [hp.count_eq]⟩

theorem ok_addRef {s : State} {hs : List BigUnsigned} (q : Nat)
    (h : World.bounded ⟨s, hs⟩ ∧ World.tableIntact ⟨s, hs⟩) (hq : q < s.heap.length) :
    World.bounded ⟨s.addRef q, ⟨q⟩ :: hs⟩ ∧ World.tableIntact ⟨s.addRef q, ⟨q⟩ :: hs⟩ := by
  constructor
  · intro x hx
    simp only [addRef_length]
    rcases List.mem_cons.1 hx with hx | hx
    · rw [hx]; exact hq
    · exact h.1 x hx
  · intro base hb i hi
    simp only [addRef_smallNumbers] at hb
    obtain ⟨d, h1, h2, h3, h4⟩ := h.2 base hb i hi
    simp only [] at h1 h4 ⊢
    by_cases hqi : q = base + i
    · subst hqi
      refine ⟨d.addRef, get_addRef_self h1, h2, h3, ?_⟩
      rw [List.count_cons_self]
      simp only [Data.addRef, h4]
      omega
    · refine ⟨d, by rw [get_addRef_ne s hqi]; exact h1, h2, h3, ?_⟩
      rw [List.count_cons_of_ne (fun e => hqi ((handle_eq_iff _ _).1 e).symm)]
      exact h4

theorem ok_delRef {s : State} {hs : List BigUnsigned} (x : BigUnsigned)
    (h : World.bounded ⟨s, hs⟩ ∧ World.tableIntact ⟨s, hs⟩) (hx : x ∈ hs) :
    World.bounded ⟨s.delRef x.data, hs.erase x⟩ ∧
    World.tableIntact ⟨s.delRef x.data, hs.erase x⟩ := by
  constructor
  · intro y hy
    simp only [delRef_length]
    exact h.1 y (List.mem_of_mem_erase hy)
  · intro base hb i hi
    simp only [delRef_smallNumbers] at hb
    obtain ⟨d, h1, h2, h3, h4⟩ := h.2 base hb i hi
    simp only [] at h1 h4 ⊢
    by_cases hqi : x.data = base + i
    · have hx2 : x = ⟨base + i⟩ := by cases x; simp only [] at hqi; rw [hqi]
      subst hx2
      have hc : 0 < hs.count ⟨base + i⟩ := List.count_pos_iff.2 hx
      refine ⟨{ d with refCount := d.refCount - 1 }, get_delRef_self h1 (by omega), h2, h3, ?_⟩
      rw [List.count_erase_self]
      simp only [h4]
      omega
    · refine ⟨d, by rw [get_delRef_ne s hqi]; exact h1, h2, h3, ?_⟩
      rw [List.count_erase_of_ne (fun e => hqi (by rw [← e]))]
      exact h4

theorem ok_alloc {s : State} {hs : List BigUnsigned} (d : Data)
    (h : World.bounded ⟨s, hs⟩ ∧ World.tableIntact ⟨s, hs⟩) :
    World.bounded ⟨(s.alloc d).1, ⟨(s.alloc d).2⟩ :: hs⟩ ∧
    World.tableIntact ⟨(s.alloc d).1, ⟨(s.alloc d).2⟩ :: hs⟩ := by
  constructor
  · intro x hx
    simp only [alloc_length]
    rcases List.mem_cons.1 hx with hx | hx
    · rw [hx]; simp [State.alloc]
    · have := h.1 x hx
      simp only [] at this
      omega
  · intro base hb i hi
    have hb2 : s.smallNumbers = some base := hb
    obtain ⟨d1, h1, h2, h3, h4⟩ := h.2 base hb2 i hi
    simp only [] at h1 h4 ⊢
    have hlt := get_lt h1
    refine ⟨d1, by rw [get_alloc_old s d _ hlt]; exact h1, h2, h3, ?_⟩
    have hne : (BigUnsigned.mk (base + i)) ≠ BigUnsigned.mk (s.alloc d).2 := by
      intro e
      have := (handle_eq_iff _ _).1 e
      simp only [State.alloc] at this
      omega
    rw [List.count_cons_of_ne hne]
    exact h4

theorem ok_modify {s : State} {hs : List BigUnsigned} (f : Data → Data) (y : BigUnsigned)
    (h : World.bounded ⟨s, hs⟩ ∧ World.tableIntact ⟨s, hs⟩) (hy : y ∈ hs)
    (hown : ∀ d, s.get y.data = some d → d.refCount ≤ 1) :
    World.bounded ⟨BigUnsigned.modify f s y, hs⟩ ∧
    World.tableIntact ⟨BigUnsigned.modify f s y, hs⟩ := by
  constructor
  · intro x hx
    simp only [modify_length]
    exact h.1 x hx
  · intro base hb i hi
    simp only [modify_smallNumbers] at hb
    obtain ⟨d, h1, h2, h3, h4⟩ := h.2 base hb i hi
    simp only [] at h1 h4 ⊢
    have hne : y.data ≠ base + i := by
      intro e
      have hy2 : y = ⟨base + i⟩ := by cases y; simp only [] at e; rw [e]
      subst hy2
      have hc : 0 < hs.count ⟨base + i⟩ := List.count_pos_iff.2 hy
      have := hown d h1
      omega
    exact ⟨d, by rw [get_modify_ne f s y hne]; exact h1, h2, h3, h4⟩

theorem ok_init {s : State} {hs : List BigUnsigned}
    (h : World.bounded ⟨s, hs⟩ ∧ World.tableIntact ⟨s, hs⟩) :
    (World.bounded ⟨s.initSmallNumbers.1, hs⟩ ∧ World.tableIntact ⟨s.initSmallNumbers.1, hs⟩) ∧
    s.initSmallNumbers.1.smallNumbers = some s.initSmallNumbers.2 := by
  unfold State.initSmallNumbers
  cases hsn : s.smallNumbers with
  | some base => exact ⟨h, hsn⟩
  | none =>
    refine ⟨⟨?_, ?_⟩, rfl⟩
    · intro x hx
      have := h.1 x hx
      simp only [List.length_append] at this ⊢
      omega
    · intro base hb i hi
      simp only [Option.some.injEq] at hb
      subst hb
      refine ⟨(Data.new 0 1).setWord 0 i, ?_, rfl, rfl, ?_⟩
      · unfold State.get
        simp only [List.getD_eq_getElem?_getD]
        rw [List.getElem?_append_right (by omega)]
        simp only [Nat.add_sub_cancel_left, List.getElem?_map, List.getElem?_range hi]
        rfl
      · have : hs.count ⟨s.heap.length + i⟩ = 0 := by
          rw [List.count_eq_zero]
          intro hm
          have := h.1 _ hm
          simp only [] at this
          omega
        simp only []
        rw [this]
        rfl

theorem ok_ofWordH {s : State} {hs : List BigUnsigned} (v : Nat)
    (h : World.bounded ⟨s, hs⟩ ∧ World.tableIntact ⟨s, hs⟩) :
    World.bounded ⟨(BigUnsigned.ofWordH s v).1, (BigUnsigned.ofWordH s v).2 :: hs⟩ ∧
    World.tableIntact ⟨(BigUnsigned.ofWordH s v).1, (BigUnsigned.ofWordH s v).2 :: hs⟩ := by
  unfold BigUnsigned.ofWordH
  by_cases hv : v < SmallNumberCount
  · rw [if_pos hv]
    obtain ⟨h1, h2⟩ := ok_init h
    obtain ⟨d, hd, _⟩ := h1.2 _ h2 v hv
    exact ok_addRef _ h1 (get_lt hd)
  · rw [if_neg hv]
    exact ok_alloc _ h

theorem erase_cons_perm {hs : List BigUnsigned} {x : BigUnsigned} (a : BigUnsigned)
    (hx : x ∈ hs) : ((a :: hs).erase x).Perm (a :: hs.erase x) := by
  have h1 : (a :: hs).Perm (x :: (a :: hs).erase x) :=
    List.perm_cons_erase (List.mem_cons_of_mem a hx)
  have h2 : (a :: hs).Perm (x :: a :: hs.erase x) :=
    ((List.perm_cons_erase hx).cons a).trans (List.Perm.swap x a _)
  exact List.Perm.cons_inv (h1.symm.trans h2)

theorem ok_mutate {s : State} {hs : List BigUnsigned} (f : Data → Data) (x : BigUnsigned)
    (h : World.bounded ⟨s, hs⟩ ∧ World.tableIntact ⟨s, hs⟩) (hx : x ∈ hs) :
    World.bounded ⟨(BigUnsigned.mutate f s x).1, (BigUnsigned.mutate f s x).2 :: hs.erase x⟩ ∧
    World.tableIntact
      ⟨(BigUnsigned.mutate f s x).1, (BigUnsigned.mutate f s x).2 :: hs.erase x⟩ := by
  have hperm : hs.Perm (x :: hs.erase x) := List.perm_cons_erase hx
  unfold BigUnsigned.mutate
  cases hg : s.get x.data with
  | none =>
    have e : BigUnsigned.onWrite s x = (s, x) := by
      unfold BigUnsigned.onWrite; rw [hg]
    rw [e]
    simp only []
    have e2 : BigUnsigned.modify f s x = s := by
      unfold BigUnsigned.modify; rw [hg]
    rw [e2]
    exact ok_perm hperm h
  | some d =>
    by_cases hr : d.refCount ≤ 1
    · rw [onWrite_owned hg hr]
      simp only []
      exact ok_perm hperm (ok_modify f x h hx (fun d2 h2 => by
        rw [hg] at h2; injection h2 with h2; rw [← h2]; exact hr))
    · have hr2 : 2 ≤ d.refCount := by omega
      obtain ⟨k1, k2, _⟩ := onWrite_shared hg hr2
      have e : BigUnsigned.onWrite s x =
          ((s.alloc d.copy).1.delRef x.data, ⟨(s.alloc d.copy).2⟩) := by
        unfold BigUnsigned.onWrite
        rw [hg]
        simp [hr]
      have hnew : (BigUnsigned.onWrite s x).2 = ⟨s.heap.length⟩ := by rw [e]; rfl
      have o1 := ok_alloc d.copy h
      have o2 := ok_delRef x o1 (List.mem_cons_of_mem _ hx)
      have o3 := ok_perm (erase_cons_perm _ hx) o2
      rw [e]
      simp only []
      refine ok_modify f _ o3 (List.mem_cons_self _ _) ?_
      intro d2 h2
      rw [e] at k2
      simp only [] at k2
      have : (s.alloc d.copy).2 = s.heap.length := rfl
      rw [this] at h2
      rw [k2] at h2
      injection h2 with h2
      rw [← h2, copy_refCount]

theorem ok_assignWord {s : State} {hs : List BigUnsigned} (x : BigUnsigned) (v : Nat)
    (h : World.bounded ⟨s, hs⟩ ∧ World.tableIntact ⟨s, hs⟩) (hx : x ∈ hs) :
    World.bounded
      ⟨(BigUnsigned.assignWord s x v).1, (BigUnsigned.assignWord s x v).2 :: hs.erase x⟩ ∧
    World.tableIntact
      ⟨(BigUnsigned.assignWord s x v).1, (BigUnsigned.assignWord s x v).2 :: hs.erase x⟩ := by
  have hperm : hs.Perm (x :: hs.erase x) := List.perm_cons_erase hx
  unfold BigUnsigned.assignWord
  cases hg : s.get x.data with
  | none => exact ok_perm hperm h
  | some d =>
    simp only []
    by_cases h1 : d.size = 1 ∧ rd d.words 0 = v
    · rw [if_pos h1]
      exact ok_perm hperm h
    · rw [if_neg h1]
      by_cases h2 : d.refCount > 1
      · rw [if_pos h2]
        simp only []
        have o1 := ok_ofWordH v h
        have o2 := ok_delRef x o1 (List.mem_cons_of_mem _ hx)
        exact ok_perm (erase_cons_perm _ hx) o2
      · rw [if_neg h2]
        simp only []
        have e : s.put x.data ({ d with size := 1 }.setWord 0 v) =
            BigUnsigned.modify (fun d => { d with size := 1 }.setWord 0 v) s x := by
          unfold BigUnsigned.modify; rw [hg]
        rw [e]
        exact ok_perm hperm (ok_modify _ x h hx (fun d2 hd2 => by
          rw [hg] at hd2; injection hd2 with hd2; rw [← hd2]; omega))

theorem addRef_of_none {s : State} {p : Nat} (h : s.get p = none) : s.addRef p = s := by
  unfold State.addRef
  rw [h]

theorem erase_argument_perm (r x b : BigUnsigned) (hs : List BigUnsigned) (hx : x ∈ hs) :
    b ∈ r :: (b :: hs).erase x ∧
    ((r :: (b :: hs).erase x).erase b).Perm (r :: hs.erase x) := by
  by_cases hxb : x = b
  · subst hxb
    rw [List.erase_cons_head]
    refine ⟨List.mem_cons_of_mem _ hx, ?_⟩
    exact erase_cons_perm r hx
  · have hbx : ¬ b = x := fun e => hxb e.symm
    have e : (b :: hs).erase x = b :: hs.erase x := by
      rw [List.erase_cons_tail]
      simpa using hbx
    rw [e]
    refine ⟨List.mem_cons_of_mem _ (List.mem_cons_self _ _), ?_⟩
    have h1 := @erase_cons_perm (b :: hs.erase x) b r (List.mem_cons_self _ _)
    rw [List.erase_cons_head] at h1
    exact h1

theorem ok_binary {s : State} {hs : List BigUnsigned} (g : Data → Data → Data)
    (x b : BigUnsigned) (h : World.bounded ⟨s, hs⟩ ∧ World.tableIntact ⟨s, hs⟩) (hx : x ∈ hs) :
    World.bounded
      ⟨(BigUnsigned.mutateWith g s x b).1, (BigUnsigned.mutateWith g s x b).2 :: hs.erase x⟩ ∧
    World.tableIntact
      ⟨(BigUnsigned.mutateWith g s x b).1, (BigUnsigned.mutateWith g s x b).2 :: hs.erase x⟩ := by
  unfold BigUnsigned.mutateWith BigUnsigned.copy
  simp only []
  cases hb : s.get b.data with
  | none =>
    rw [addRef_of_none hb, hb]
    exact ok_perm (List.perm_cons_erase hx) h
  | some bd0 =>
    rw [get_addRef_self hb]
    simp only []
    have o1 := ok_addRef b.data h (get_lt hb)
    have o2 := ok_mutate (fun d => g d bd0.addRef) x o1 (List.mem_cons_of_mem _ hx)
    obtain ⟨hmem, hperm⟩ :=
      erase_argument_perm (BigUnsigned.mutate (fun d => g d bd0.addRef) (s.addRef b.data) x).2
        x ⟨b.data⟩ hs hx
    have o3 := ok_delRef ⟨b.data⟩ o2 hmem
    exact ok_perm hperm o3

theorem ok_onWrite {s : State} {hs : List BigUnsigned} (x : BigUnsigned)
    (h : World.bounded ⟨s, hs⟩ ∧ World.tableIntact ⟨s, hs⟩) (hx : x ∈ hs) :
    World.bounded ⟨(BigUnsigned.onWrite s x).1, (BigUnsigned.onWrite s x).2 :: hs.erase x⟩ ∧
    World.tableIntact
      ⟨(BigUnsigned.onWrite s x).1, (BigUnsigned.onWrite s x).2 :: hs.erase x⟩ := by
  have hperm : hs.Perm (x :: hs.erase x) := List.perm_cons_erase hx
  cases hg : s.get x.data with
  | none =>
    have e : BigUnsigned.onWrite s x = (s, x) := by
      unfold BigUnsigned.onWrite; rw [hg]
    rw [e]
    exact ok_perm hperm h
  | some d =>
    by_cases hr : d.refCount ≤ 1
    · rw [onWrite_owned hg hr]
      exact ok_perm hperm h
    · have e : BigUnsigned.onWrite s x =
          ((s.alloc d.copy).1.delRef x.data, ⟨(s.alloc d.copy).2⟩) := by
        unfold BigUnsigned.onWrite
        rw [hg]
        simp [hr]
      have o1 := ok_alloc d.copy h
      have o2 := ok_delRef x o1 (List.mem_cons_of_mem _ hx)
      rw [e]
      exact ok_perm (erase_cons_perm _ hx) o2

theorem ok_modify_list {hs : List BigUnsigned} (y : BigUnsigned) (hy : y ∈ hs) :
    ∀ (positions : List (Nat × Nat)) (st : State),
      (World.bounded ⟨st, hs⟩ ∧ World.tableIntact ⟨st, hs⟩) →
      (∀ d, st.get y.data = some d → d.refCount ≤ 1) →
      (World.bounded ⟨positions.foldl (fun st p => BigUnsigned.modify
          (fun d => d.setWord p.1 (clearBit (rd d.words p.1) p.2)) st y) st, hs⟩ ∧
       World.tableIntact ⟨positions.foldl (fun st p => BigUnsigned.modify
          (fun d => d.setWord p.1 (clearBit (rd d.words p.1) p.2)) st y) st, hs⟩) := by
  intro positions
  induction positions with
  | nil => intro st h _; exact h
  | cons p ps ih =>
    intro st h hown
    rw [List.foldl_cons]
    apply ih _ (ok_modify _ y h hy hown)
    intro d hd
    cases hg : st.get y.data with
    | none =>
      have e : BigUnsigned.modify
          (fun d => d.setWord p.1 (clearBit (rd d.words p.1) p.2)) st y = st := by
        unfold BigUnsigned.modify; rw [hg]
      rw [e, hg] at hd
      exact absurd hd (by simp)
    | some d0 =>
      rw [get_modify_self _ hg] at hd
      injection hd with hd
      rw [← hd]
      exact hown d0 hg

theorem ok_clearExponentBits {s : State} {hs : List BigUnsigned} (x : BigUnsigned)
    (positions : List (Nat × Nat)) (h : World.bounded ⟨s, hs⟩ ∧ World.tableIntact ⟨s, hs⟩)
    (hx : x ∈ hs) :
    World.bounded ⟨(BigUnsigned.clearExponentBits s x positions).1,
      (BigUnsigned.clearExponentBits s x positions).2 :: hs.erase x⟩ ∧
    World.tableIntact ⟨(BigUnsigned.clearExponentBits s x positions).1,
      (BigUnsigned.clearExponentBits s x positions).2 :: hs.erase x⟩ := by
  have hm := ok_onWrite x h hx
  unfold BigUnsigned.clearExponentBits
  simp only []
  apply ok_modify_list _ (List.mem_cons_self _ _) positions _ hm
  intro d hd
  cases hg : s.get x.data with
  | none =>
    have e : BigUnsigned.onWrite s x = (s, x) := by
      unfold BigUnsigned.onWrite; rw [hg]
    rw [e] at hd
    simp only [] at hd
    rw [hg] at hd
    exact absurd hd (by simp)
  | some d0 =>
    by_cases hr : d0.refCount ≤ 1
    · rw [onWrite_owned hg hr] at hd
      simp only [] at hd
      rw [hg] at hd
      injection hd with hd
      rw [← hd]; exact hr
    · obtain ⟨k1, k2, _⟩ := onWrite_shared hg (by omega)
      rw [k1, k2] at hd
      injection hd with hd
      rw [← hd, copy_refCount]

theorem ok_step (w : World) (op : Op) (h : w.bounded ∧ w.tableIntact) :
    (w.step op).bounded ∧ (w.step op).tableIntact := by
  obtain ⟨s, hs⟩ := w
  cases op with
  | construct v => exact ok_ofWordH v h
  | result d => exact ok_alloc _ h
  | copy x =>
    simp only [World.step]
    split_ifs with hx
    · exact ok_addRef x.data h (h.1 x hx)
    · exact h
  | destroy x =>
    simp only [World.step]
    split_ifs with hx
    · exact ok_delRef x h hx
    · exact h
  | assign x y =>
    simp only [World.step]
    split_ifs with hx
    · have o1 := ok_addRef y.data h (h.1 y hx.2)
      have o2 := ok_delRef x o1 (List.mem_cons_of_mem _ hx.1)
      exact ok_perm (erase_cons_perm _ hx.1) o2
    · exact h
  | assignWord x v =>
    simp only [World.step]
    split_ifs with hx
    · exact ok_assignWord x v h hx
    · exact h
  | xorAssign x b =>
    simp only [World.step]
    split_ifs with hx
    · exact ok_binary _ x b h hx
    · exact h
  | orAssign x b =>
    simp only [World.step]
    split_ifs with hx
    · exact ok_binary _ x b h hx
    · exact h
  | andAssign x b =>
    simp only [World.step]
    split_ifs with hx
    · exact ok_binary _ x b h hx
    · exact h
  | xorAssignWord x v =>
    simp only [World.step]
    split_ifs with hx
    · exact ok_mutate _ x h hx
    · exact h
  | orAssignWord x v =>
    simp only [World.step]
    split_ifs with hx
    · exact ok_mutate _ x h hx
    · exact h
  | andAssignWord x v =>
    simp only [World.step]
    split_ifs with hx
    · exact ok_mutate _ x h hx
    · exact h
  | normalize x =>
    simp only [World.step]
    split_ifs with hx
    · exact ok_mutate _ x h hx
    · exact h
  | clearExponentBits x positions =>
    simp only [World.step]
    split_ifs with hx
    · exact ok_clearExponentBits x positions h hx
    · exact h
  | wordMinus v x =>
    simp only [World.step]
    split_ifs with hx
    · unfold BigUnsigned.wordMinus
      cases hg : s.get x.data with
      | none => exact ok_perm (List.perm_cons_erase hx) h
      | some bd =>
        simp only []
        split_ifs
        · exact h
        · exact ok_mutate _ x h hx
    · exact h
  | mutate x f =>
    simp only [World.step]
    split_ifs with hx
    · exact ok_mutate f x h hx
    · exact h

theorem reachable_ok {w : World} (h : Reachable w) : w.bounded ∧ w.tableIntact := by
  induction h with
  | init =>
    constructor
    · intro x hx; exact absurd hx (by simp [World.init])
    · intro base hb; exact absurd hb (by simp [World.init])
  | step op _ ih => exact ok_step _ op ih

/-- C18: the small number table is never written in place.  In every reachable
state, entry `i` of the table (`0 <= i < 32`) has length 1 and the single word
`i`, and its reference count is one plus the number of magnitudes pointing at
it, hence at least 2 whenever a magnitude holds it and never 0.  For such a
holder `onWrite` returns another buffer, a mutator leaves the entry as it was,
and assignment of another word leaves the entry as it was and makes the holder
point elsewhere. -/
theorem small_number_table_intact (w : World) (hr : Reachable w) :
    w.tableIntact ∧
    (∀ base i x, w.state.smallNumbers = some base → i < SmallNumberCount →
      x ∈ w.handles → x.data = base + i →
      (∃ d, w.state.get x.data = some d ∧ 2 ≤ d.refCount) ∧
      (BigUnsigned.onWrite w.state x).2.data ≠ x.data ∧
      (∀ f, (BigUnsigned.mutate f w.state x).1.view x.data = some (1, [i])) ∧
      (∀ v, (BigUnsigned.assignWord w.state x v).1.view x.data = some (1, [i])) ∧
      (∀ v, v ≠ i → (BigUnsigned.assignWord w.state x v).2.data ≠ x.data)) := by
  obtain ⟨hb, ht⟩ := reachable_ok hr
  refine ⟨ht, ?_⟩
  intro base i x hbase hi hx hxi
  obtain ⟨d, h1, h2, h3, h4⟩ := ht base hbase i hi
  have hx2 : x = ⟨base + i⟩ := by cases x; simp only [] at hxi; rw [hxi]
  have hc : 0 < w.handles.count ⟨base + i⟩ := List.count_pos_iff.2 (by rw [← hx2]; exact hx)
  have hr2 : 2 ≤ d.refCount := by omega
  rw [← hxi] at h1
  have hlt := get_lt h1
  have hview : some (d.size, d.words) = some (1, [i]) := by rw [h2, h3]
  refine ⟨⟨d, h1, hr2⟩, ?_, ?_, ?_, ?_⟩
  · rw [(onWrite_shared h1 hr2).1]; omega
  · intro f
    rw [mutate_frame f h1 hr2, hview]
  · intro v
    rw [assignWord_frame h1 hr2 v, hview]
  · intro v hv
    unfold BigUnsigned.assignWord
    rw [h1]
    simp only []
    have hne : ¬ (d.size = 1 ∧ rd d.words 0 = v) := by
      intro hc2
      have : rd d.words 0 = i := by rw [h3]; rfl
      exact hv (by rw [← hc2.2, this])
    rw [if_neg hne, if_pos (by omega)]
    simp only []
    unfold BigUnsigned.ofWordH
    split_ifs with hv2
    · simp only []
      have e : w.state.initSmallNumbers = (w.state, base) := by
        unfold State.initSmallNumbers; rw [hbase]
      rw [e, hxi]
      simp only []
      omega
    · simp only [State.alloc]
      omega

/-- Witness for C18: the state after `BigUnsigned(5)` and a copy of it. -/
theorem small_number_table_intact_witness :
    Reachable ((World.init.step (Op.construct 5)).step (Op.copy ⟨5⟩)) ∧
    ((World.init.step (Op.construct 5)).step (Op.copy ⟨5⟩)).state.get 5
      = some (Data.mk [5] 1 1 3) ∧
    ((World.init.step (Op.construct 5)).step (Op.copy ⟨5⟩)).tableIntact :=
  ⟨Reachable.step _ (Reachable.step _ Reachable.init), by decide,
   (small_number_table_intact _ (Reachable.step _ (Reachable.step _ Reachable.init))).1⟩

/-! ## Underflow freedom, compound assignments -/

theorem addAssign_by_subtraction (sameData : Bool) (a b : BigInteger) :
    BigInteger.addAssign sameData a b =
      match BigInteger.addAssignSubtraction sameData a b with
      | none => .ok { a with value := add a.value b.value }
      | some (m, s) =>
        (subAssign m s).map (fun v =>
          { value := v,
            negative := if a.negative then opGt sameData a.value b.value
              else opLt sameData a.value b.value }) := by
  obtain ⟨av, an⟩ := a
  obtain ⟨bv, bn⟩ := b
  unfold BigInteger.addAssign BigInteger.addAssignSubtraction
  cases an <;> cases bn
  · rfl
  · simp only [Bool.false_and, Bool.not_false, Bool.not_true, Bool.and_false,
      Bool.false_eq_true, if_false]
    by_cases h : opLt sameData av bv = true
    · simp only [h, if_true]; rfl
    · have h2 : opLt sameData av bv = false := by simpa using h
      simp only [h2, Bool.false_eq_true, if_false]
  · simp only [Bool.true_and, Bool.not_false, Bool.not_true, Bool.and_false, Bool.false_and,
      Bool.false_eq_true, if_false, if_true]
    by_cases h : opGt sameData av bv = true
    · simp only [h, if_true]
    · have h2 : opGt sameData av bv = false := by simpa using h
      simp only [h2, Bool.false_eq_true, if_false]; rfl
  · rfl

theorem addAssign_subtraction_safe (sameData : Bool) (a b : BigInteger)
    (ha : a.value.magnitude) (hb : b.value.magnitude)
    (hs : sameData = true → a.value = b.value) (m s : Data)
    (h : BigInteger.addAssignSubtraction sameData a b = some (m, s)) : s.value ≤ m.value := by
  have hgt := opGt_spec sameData ha hb hs
  have hlt : opLt sameData a.value b.value = decide (a.value.value < b.value.value) :=
    opGt_spec sameData hb ha (fun h => (hs h).symm)
  unfold BigInteger.addAssignSubtraction at h
  rw [hgt, hlt] at h
  by_cases h1 : (a.negative && b.negative) = true
  · rw [if_pos h1] at h; exact absurd h (by simp)
  · rw [if_neg h1] at h
    by_cases h2 : (!a.negative && !b.negative) = true
    · rw [if_pos h2] at h; exact absurd h (by simp)
    · rw [if_neg h2] at h
      by_cases h3 : a.negative = true
      · rw [if_pos h3] at h
        by_cases h4 : a.value.value > b.value.value
        · rw [if_pos (by simpa using h4)] at h
          injection h with h; injection h with e1 e2
          rw [← e1, ← e2]; omega
        · rw [if_neg (by simpa using h4)] at h
          injection h with h; injection h with e1 e2
          rw [← e1, ← e2]; omega
      · rw [if_neg h3] at h
        by_cases h4 : a.value.value < b.value.value
        · rw [if_pos (by simpa using h4)] at h
          injection h with h; injection h with e1 e2
          rw [← e1, ← e2]; omega
        · rw [if_neg (by simpa using h4)] at h
          injection h with h; injection h with e1 e2
          rw [← e1, ← e2]; omega

/-- C21: BigInteger addition and subtraction do not reach the unsigned
underflow path.  For all operands with normalized magnitudes, zeros of either
sign flag included, `operator +=` is a magnitude addition or one magnitude
subtraction `minuend - subtrahend`; whatever subtraction it invokes has a
minuend at least as large as the subtrahend, both for `a += b` and for
`a += -b`, so `+=`, `+`, `-=`, `-`, `++` and `--` return. -/
theorem BigInteger_addition_never_underflows (sameData sameOne : Bool) (a b : BigInteger)
    (ha : a.value.magnitude) (hb : b.value.magnitude)
    (hs : sameData = true → a.value = b.value)
    (h1 : sameOne = true → a.value = (BigInteger.ofWord 1).value) :
    (BigInteger.addAssign sameData a b =
      match BigInteger.addAssignSubtraction sameData a b with
      | none => .ok { a with value := add a.value b.value }
      | some (m, s) =>
        (subAssign m s).map (fun v =>
          { value := v,
            negative := if a.negative then opGt sameData a.value b.value
              else opLt sameData a.value b.value })) ∧
    (∀ m s, BigInteger.addAssignSubtraction sameData a b = some (m, s) →
      s.value ≤ m.value) ∧
    (∀ m s, BigInteger.addAssignSubtraction sameData a b.neg = some (m, s) →
      s.value ≤ m.value) ∧
    (∃ r, BigInteger.addAssign sameData a b = .ok r) ∧
    (∃ r, BigInteger.add sameData a b = .ok r) ∧
    (∃ r, BigInteger.subAssign sameData a b = .ok r) ∧
    (∃ r, BigInteger.sub sameData a b = .ok r) ∧
    (∃ r, BigInteger.increment sameOne a = .ok r) ∧
    (∃ r, BigInteger.decrement sameOne a = .ok r) := by
  have hone : (BigInteger.ofWord 1).value.magnitude := by decide
  obtain ⟨r1, k1, _⟩ := addAssign_spec sameData a b ha hb hs
  obtain ⟨r2, k2, _⟩ := addAssign_spec sameData a b.neg ha hb hs
  obtain ⟨r3, k3, _⟩ := addAssign_spec sameOne a (BigInteger.ofWord 1) ha hone h1
  obtain ⟨r4, k4, _⟩ := addAssign_spec sameOne a (BigInteger.ofWord 1).neg ha hone h1
  exact ⟨addAssign_by_subtraction sameData a b,
    fun m s h => addAssign_subtraction_safe sameData a b ha hb hs m s h,
    fun m s h => addAssign_subtraction_safe sameData a b.neg ha hb hs m s h,
    ⟨r1, k1⟩, ⟨r1, k1⟩, ⟨r2, k2⟩, ⟨r2, k2⟩, ⟨r3, k3⟩, ⟨r4, k4⟩⟩

/-- Witness for C21: `3 + (-5)`, where the branch subtracts 3 from 5. -/
theorem BigInteger_addition_never_underflows_witness :
    (ofWord 3).magnitude ∧ (ofWord 5).magnitude ∧
    BigInteger.addAssignSubtraction false ⟨ofWord 3, false⟩ ⟨ofWord 5, true⟩
      = some (ofWord 5, ofWord 3) ∧
    ∃ r, BigInteger.add false ⟨ofWord 3, false⟩ ⟨ofWord 5, true⟩ = .ok r :=
  ⟨by decide, by decide, by decide,
   (BigInteger_addition_never_underflows false false ⟨ofWord 3, false⟩ ⟨ofWord 5, true⟩
     (by decide) (by decide) (by simp) (by simp)).2.2.2.2.1⟩

/-- C22, the code at the failing inputs: `0 * (-1)`, `1 / (-2)` and `(-4) % 2`
computed by the binary operators carry the negative flag on a zero magnitude,
while `*=`, `/=` and `%=` on the same operands clear it. -/
theorem binary_and_compound_differ_at_zero :
    BigInteger.mul (BigInteger.ofInt 0) (BigInteger.ofInt (-1)) = ⟨Data.ofNat 0, true⟩ ∧
    BigInteger.mulAssign (BigInteger.ofInt 0) (BigInteger.ofInt (-1)) = ⟨Data.ofNat 0, false⟩ ∧
    BigInteger.div (BigInteger.ofInt 1) (BigInteger.ofInt (-2)) = .ok ⟨Data.ofNat 0, true⟩ ∧
    BigInteger.divAssign (BigInteger.ofInt 1) (BigInteger.ofInt (-2))
      = .ok ⟨Data.ofNat 0, false⟩ ∧
    BigInteger.mod (BigInteger.ofInt (-4)) (BigInteger.ofInt 2) = .ok ⟨Data.ofNat 0, true⟩ ∧
    BigInteger.modAssign (BigInteger.ofInt (-4)) (BigInteger.ofInt 2)
      = .ok ⟨Data.ofNat 0, false⟩ := by
  decide

theorem binary_and_compound_agree_nonzero (a b : BigInteger) (hb : b.value.value ≠ 0) :
    (a.value.value * b.value.value ≠ 0 → BigInteger.mul a b = BigInteger.mulAssign a b) ∧
    (a.value.value / b.value.value ≠ 0 → BigInteger.div a b = BigInteger.divAssign a b) ∧
    (a.value.value % b.value.value ≠ 0 → BigInteger.mod a b = BigInteger.modAssign a b) := by
  have hz : ∀ n, n ≠ 0 → eqWord (Data.ofNat n) 0 = false := by
    intro n hn
    rw [eqWord_spec (ofNat_magnitude n) (by decide), ofNat_value]
    simp [hn]
  refine ⟨?_, ?_, ?_⟩
  · intro h
    unfold BigInteger.mul BigInteger.mulAssign
    simp only [ofSignMagnitude_eq, BigMath.mul, hz _ h, Bool.false_eq_true, if_false]
  · intro h
    unfold BigInteger.div BigInteger.divAssign
    rw [div_ok a.value hb]
    simp only [Except.map, ofSignMagnitude_eq, hz _ h, Bool.false_eq_true, if_false]
  · intro h
    unfold BigInteger.mod BigInteger.modAssign
    rw [mod_ok a.value hb]
    simp only [Except.map, ofSignMagnitude_eq, hz _ h, Bool.false_eq_true, if_false]

/-! ## Signed comparison -/

theorem BigInteger_compare_spec (sameData : Bool) (a b : BigInteger) (ha : a.value.magnitude)
    (hb : b.value.magnitude) (hs : sameData = true → a.value = b.value) :
    BigInteger.compare sameData a b =
      if a.toInt > b.toInt then 1 else if a.toInt < b.toInt then -1 else 0 := by
  have hc := compare_spec sameData ha hb hs
  have ea := @eqWord_spec a.value ha 0 (by decide)
  have eb := @eqWord_spec b.value hb 0 (by decide)
  obtain ⟨av, an⟩ := a
  obtain ⟨bv, bn⟩ := b
  simp only at ha hb hs hc ea eb
  unfold BigInteger.compare BigInteger.toInt
  simp only [ea, eb, hc]
  by_cases h0 : av.value = 0 ∧ bv.value = 0
  · have : (decide (av.value = 0) && decide (bv.value = 0)) = true := by simp [h0]
    rw [if_pos this]
    cases an <;> cases bn <;> simp [h0.1, h0.2]
  · have : ¬ (decide (av.value = 0) && decide (bv.value = 0)) = true := by simpa using h0
    rw [if_neg this]
    have h0' : av.value ≠ 0 ∨ bv.value ≠ 0 := by
      by_contra hn
      push_neg at hn
      exact h0 hn
    cases an <;> cases bn <;>
      simp only [Bool.false_and, Bool.true_and, Bool.and_false, Bool.and_true, Bool.not_false,
        Bool.not_true, Bool.false_eq_true, if_false, if_true] <;>
      split_ifs <;> omega

theorem BigInteger_opEq_spec (sameData : Bool) (a b : BigInteger) (ha : a.value.magnitude)
    (hb : b.value.magnitude) (hs : sameData = true → a.value = b.value) :
    BigInteger.opEq sameData a b = decide (a.toInt = b.toInt) := by
  have he := opEq_spec sameData ha hb hs
  have ea := @eqWord_spec a.value ha 0 (by decide)
  have eb := @eqWord_spec b.value hb 0 (by decide)
  obtain ⟨av, an⟩ := a
  obtain ⟨bv, bn⟩ := b
  simp only at ha hb hs he ea eb
  unfold BigInteger.opEq BigInteger.toInt
  simp only [ea, eb, he]
  by_cases h0 : av.value = 0 ∧ bv.value = 0
  · have : (decide (av.value = 0) && decide (bv.value = 0)) = true := by simp [h0]
    rw [if_pos this]
    cases an <;> cases bn <;> simp [h0.1, h0.2]
  · have : ¬ (decide (av.value = 0) && decide (bv.value = 0)) = true := by simpa using h0
    rw [if_neg this]
    have h0' : av.value ≠ 0 ∨ bv.value ≠ 0 := by
      by_contra hn
      push_neg at hn
      exact h0 hn
    rw [Bool.eq_iff_iff]
    cases an <;> cases bn <;> simp <;> omega

/-- C23: BigInteger comparison depends only on the denoted integers.  For all
`a` and `b` with normalized magnitudes, zeros carrying a negative flag
included, `compare(a, b)` is negative, zero or positive exactly when `int(a)`
is less than, equal to or greater than `int(b)`, the operators `==`, `!=`, `<`,
`<=`, `>`, `>=` decide the corresponding relation of the integers, and
`a == b` holds exactly when `compare(a, b)` is 0. -/
theorem BigInteger_comparison_by_value (sameData : Bool) (a b : BigInteger)
    (ha : a.value.magnitude) (hb : b.value.magnitude)
    (hs : sameData = true → a.value = b.value) :
    (BigInteger.compare sameData a b < 0 ↔ a.toInt < b.toInt) ∧
    (BigInteger.compare sameData a b = 0 ↔ a.toInt = b.toInt) ∧
    (BigInteger.compare sameData a b > 0 ↔ a.toInt > b.toInt) ∧
    BigInteger.opEq sameData a b = decide (a.toInt = b.toInt) ∧
    BigInteger.opNe sameData a b = decide (a.toInt ≠ b.toInt) ∧
    BigInteger.opLt sameData a b = decide (a.toInt < b.toInt) ∧
    BigInteger.opLe sameData a b = decide (a.toInt ≤ b.toInt) ∧
    BigInteger.opGt sameData a b = decide (a.toInt > b.toInt) ∧
    BigInteger.opGe sameData a b = decide (a.toInt ≥ b.toInt) ∧
    (BigInteger.opEq sameData a b = true ↔ BigInteger.compare sameData a b = 0) := by
  have hc := BigInteger_compare_spec sameData a b ha hb hs
  have he := BigInteger_opEq_spec sameData a b ha hb hs
  have c1 : BigInteger.compare sameData a b < 0 ↔ a.toInt < b.toInt := by
    rw [hc]; split_ifs <;> constructor <;> intro hh <;> omega
  have c2 : BigInteger.compare sameData a b = 0 ↔ a.toInt = b.toInt := by
    rw [hc]; split_ifs <;> constructor <;> intro hh <;> first | omega | exact hh.elim
  have c3 : BigInteger.compare sameData a b > 0 ↔ a.toInt > b.toInt := by
    rw [hc]; split_ifs <;> constructor <;> intro hh <;> omega
  have c4 : BigInteger.compare sameData a b ≤ 0 ↔ a.toInt ≤ b.toInt := by
    rw [hc]; split_ifs <;> constructor <;> intro hh <;> omega
  have c5 : BigInteger.compare sameData a b ≥ 0 ↔ a.toInt ≥ b.toInt := by
    rw [hc]; split_ifs <;> constructor <;> intro hh <;> omega
  refine ⟨c1, c2, c3, he, ?_, ?_, ?_, ?_, ?_, ?_⟩
  · unfold BigInteger.opNe
    rw [he]
    simp
  · unfold BigInteger.opLt
    exact decide_eq_decide.2 c1
  · unfold BigInteger.opLe
    exact decide_eq_decide.2 c4
  · unfold BigInteger.opGt
    exact decide_eq_decide.2 c3
  · unfold BigInteger.opGe
    exact decide_eq_decide.2 c5
  · rw [he, c2]
    simp

/-- Witness for C23: a zero carrying the negative flag against `-5`. -/
theorem BigInteger_comparison_by_value_witness :
    (ofWord 0).magnitude ∧ (ofWord 5).magnitude ∧
    (BigInteger.compare false ⟨ofWord 0, true⟩ ⟨ofWord 5, true⟩ > 0 ↔
      BigInteger.toInt ⟨ofWord 0, true⟩ > BigInteger.toInt ⟨ofWord 5, true⟩) ∧
    BigInteger.compare false ⟨ofWord 0, true⟩ ⟨ofWord 5, true⟩ = 1 :=
  ⟨by decide, by decide,
   (BigInteger_comparison_by_value false ⟨ofWord 0, true⟩ ⟨ofWord 5, true⟩ (by decide)
     (by decide) (by decide)).2.2.1,
   by decide⟩

/-! ## Word overloads -/

theorem gtWordRight_spec {d : Data} (hd : d.magnitude) {w : Nat} (hw : w < WordModulus) :
    gtWordRight d w = decide (d.value > w) := by
  unfold gtWordRight
  by_cases hs : d.size > 1
  · have h1 := value_ge_of_top hs hd.2
    have h2 : 2 ^ 32 ≤ 2 ^ (32 * (d.size - 1)) := Nat.pow_le_pow_right (by decide) (by omega)
    have hM : WordModulus = 2 ^ 32 := rfl
    have : d.value > w := by omega
    simp [hs, this]
  · have h1 : d.size = 1 := by have := hd.1.1; omega
    have : d.value = rd d.words 0 := by
      simp [Data.value, h1, wordsValue]
    rw [this, if_neg hs]

theorem gtWordLeft_spec {d : Data} (hd : d.magnitude) {w : Nat} (hw : w < WordModulus) :
    gtWordLeft w d = decide (w > d.value) := by
  unfold gtWordLeft
  by_cases hs : d.size > 1
  · have h1 := value_ge_of_top hs hd.2
    have h2 : 2 ^ 32 ≤ 2 ^ (32 * (d.size - 1)) := Nat.pow_le_pow_right (by decide) (by omega)
    have hM : WordModulus = 2 ^ 32 := rfl
    have : ¬ w > d.value := by omega
    simp [hs, this]
  · have h1 : d.size = 1 := by have := hd.1.1; omega
    have : d.value = rd d.words 0 := by
      simp [Data.value, h1, wordsValue]
    rw [this, if_neg hs]

theorem observed_eq_of_value {a b : Data} (ha : a.magnitude) (hb : b.magnitude)
    (h : a.value = b.value) : a.observed = b.observed := by
  have hs : a.size = b.size := by
    rcases Nat.lt_trichotomy a.size b.size with h1 | h1 | h1
    · have := value_lt_of_size_lt ha hb h1; omega
    · exact h1
    · have := value_lt_of_size_lt hb ha h1; omega
  have hv : wordsValue a.words a.size = wordsValue b.words a.size := by
    have := h
    unfold Data.value at this
    rw [this, hs]
  have hr := wordsValue_inj ha.1.2.2.2 hb.1.2.2.2 a.size hv
  unfold Data.observed
  rw [← hs]
  apply List.map_congr_left
  intro i hi
  exact hr i (List.mem_range.1 hi)

theorem ofWord_word {w : Nat} (i : Nat) : (ofWord w).word i = if i = 0 then w else 0 := by
  unfold ofWord Data.word
  by_cases hi : i = 0
  · subst hi
    split <;> simp [Data.new, Data.addRef, rd]
  · have : ¬ i < 1 := by omega
    split <;> simp [Data.new, Data.addRef, hi, this]

theorem word_zero {d : Data} (h : d.wf) : d.word 0 = rd d.words 0 := by
  unfold Data.word
  rw [if_pos (by have := h.1; omega)]

theorem opXorWord_word {a : Data} (h : a.wf) (w i : Nat) :
    (opXorWord a w).word i = a.word i ^^^ (ofWord w).word i := by
  have hw := onWrite_wf (addRef_wf h)
  show ((a.addRef.onWrite).setWord 0 (rd a.addRef.onWrite.words 0 ^^^ w)).word i = _
  rw [setWord_word hw (by have := hw.1; omega), ofWord_word, ← word_zero hw,
    onWrite_word (addRef_wf h), onWrite_word (addRef_wf h), addRef_word, addRef_word]
  by_cases hi : i = 0
  · subst hi; simp
  · simp [hi]

theorem opOrWord_word {a : Data} (h : a.wf) (w i : Nat) :
    (opOrWord a w).word i = a.word i ||| (ofWord w).word i := by
  have hw := onWrite_wf (addRef_wf h)
  show ((a.addRef.onWrite).setWord 0 (rd a.addRef.onWrite.words 0 ||| w)).word i = _
  rw [setWord_word hw (by have := hw.1; omega), ofWord_word, ← word_zero hw,
    onWrite_word (addRef_wf h), onWrite_word (addRef_wf h), addRef_word, addRef_word]
  by_cases hi : i = 0
  · subst hi; simp
  · simp [hi]

theorem opAndWord_word {a : Data} (h : a.wf) (w i : Nat) :
    (opAndWord a w).word i = a.word i &&& (ofWord w).word i := by
  have hw := onWrite_wf (addRef_wf h)
  have hs : ({ a.addRef.onWrite with size := 1 } : Data).wf :=
    shrink_wf hw 1 (le_refl _) hw.1
  have e0 : rd a.addRef.onWrite.words 0 = a.word 0 := by
    rw [← word_zero hw, onWrite_word (addRef_wf h), addRef_word]
  show (({ a.addRef.onWrite with size := 1 } : Data).setWord 0
    (rd a.addRef.onWrite.words 0 &&& w)).word i = _
  rw [setWord_word hs (Nat.lt_of_lt_of_le Nat.zero_lt_one hs.1), ofWord_word, e0]
  by_cases hi : i = 0
  · subst hi; simp
  · have : ¬ i < 1 := by omega
    simp [hi, Data.word, this]

theorem observed_eq_of_word {x y : Data} (hx : x.magnitude) (hy : y.magnitude)
    (h : ∀ i, x.word i = y.word i) : x.observed = y.observed :=
  observed_eq_of_value hx hy (value_eq_of_word hx.1 hy.1 h)

/-- C24: the machine-word overloads agree with the magnitude overloads on the
promoted word.  For a normalized magnitude `a` and a word `w`, each of
`a == w`, `a != w`, `a < w`, `a <= w`, `a > w`, `a >= w` and of the forms with
the word on the left returns the Boolean of the magnitude operator applied to
`a` and the one-word magnitude `BigUnsigned(w)`, whether or not the two share a
buffer, and each of `a & w`, `a | w`, `a ^ w` holds the same words as the
magnitude operator applied to `a` and `BigUnsigned(w)` in either order. -/
theorem word_overloads_agree (sameData : Bool) (a : Data) (w : Nat) (ha : a.magnitude)
    (hw : w < WordModulus) (hs : sameData = true → a = ofWord w) :
    eqWord a w = opEq sameData a (ofWord w) ∧
    eqWord a w = opEq sameData (ofWord w) a ∧
    neWord a w = opNe sameData a (ofWord w) ∧
    neWord a w = opNe sameData (ofWord w) a ∧
    ltWordRight a w = opLt sameData a (ofWord w) ∧
    ltWordLeft w a = opLt sameData (ofWord w) a ∧
    leWordRight a w = opLe sameData a (ofWord w) ∧
    leWordLeft w a = opLe sameData (ofWord w) a ∧
    gtWordRight a w = opGt sameData a (ofWord w) ∧
    gtWordLeft w a = opGt sameData (ofWord w) a ∧
    geWordRight a w = opGe sameData a (ofWord w) ∧
    geWordLeft w a = opGe sameData (ofWord w) a ∧
    (opAndWord a w).observed = (opAnd a (ofWord w)).observed ∧
    (opAndWord a w).observed = (opAnd (ofWord w) a).observed ∧
    (opOrWord a w).observed = (opOr a (ofWord w)).observed ∧
    (opOrWord a w).observed = (opOr (ofWord w) a).observed ∧
    (opXorWord a w).observed = (opXor a (ofWord w)).observed ∧
    (opXorWord a w).observed = (opXor (ofWord w) a).observed := by
  have hb := ofWord_magnitude hw
  have hs2 : sameData = true → ofWord w = a := fun h => (hs h).symm
  have E1 := eqWord_spec ha hw
  have E2 : opEq sameData a (ofWord w) = decide (a.value = w) := by
    rw [opEq_spec sameData ha hb hs, ofWord_value]
  have E3 : opEq sameData (ofWord w) a = decide (a.value = w) := by
    rw [opEq_spec sameData hb ha hs2, ofWord_value]
    exact decide_eq_decide.2 eq_comm
  have G1 := gtWordRight_spec ha hw
  have G2 := gtWordLeft_spec ha hw
  have O1 : opGt sameData a (ofWord w) = decide (a.value > w) := by
    rw [opGt_spec sameData ha hb hs, ofWord_value]
  have O2 : opGt sameData (ofWord w) a = decide (w > a.value) := by
    rw [opGt_spec sameData hb ha hs2, ofWord_value]
  have ha1 : a.addRef.wf := addRef_wf ha.1
  have ham : a.addRef.magnitude := ⟨ha1, ha.2⟩
  have hb1 : (ofWord w).addRef.wf := addRef_wf hb.1
  have na := (normalized_iff_word ha.1.1).1 ha.2
  have nb := (normalized_iff_word hb.1.1).1 hb.2
  refine ⟨?_, ?_, ?_, ?_, ?_, ?_, ?_, ?_, ?_, ?_, ?_, ?_, ?_, ?_, ?_, ?_, ?_, ?_⟩
  · rw [E1, E2]
  · rw [E1, E3]
  · unfold neWord opNe; rw [E1, E2]
  · unfold neWord opNe; rw [E1, E3]
  · unfold ltWordRight opLt; rw [G2, O2]
  · unfold ltWordLeft opLt; rw [G1, O1]
  · unfold leWordRight opLe; rw [G1, O1]
  · unfold leWordLeft opLe; rw [G2, O2]
  · rw [G1, O1]
  · rw [G2, O2]
  · unfold geWordRight opGe ltWordRight opLt; rw [G2, O2]
  · unfold geWordLeft opGe ltWordLeft opLt; rw [G1, O1]
  · have key : ∀ i, (opAndWord a w).word i = (opAnd a (ofWord w)).word i := fun i => by
      rw [opAndWord_word ha.1]
      unfold opAnd
      rw [andAssign_word ha1 hb.1, addRef_word]
    exact observed_eq_of_word (andAssignWord_magnitude ha1 hw)
      ⟨andAssign_wf ha1 hb.1, andAssign_normalized ha1 hb.1⟩ key
  · have key : ∀ i, (opAndWord a w).word i = (opAnd (ofWord w) a).word i := fun i => by
      rw [opAndWord_word ha.1]
      unfold opAnd
      rw [andAssign_word hb1 ha.1, addRef_word, Nat.land_comm]
    exact observed_eq_of_word (andAssignWord_magnitude ha1 hw)
      ⟨andAssign_wf hb1 ha.1, andAssign_normalized hb1 ha.1⟩ key
  · have key : ∀ i, (opOrWord a w).word i = (opOr a (ofWord w)).word i := fun i => by
      rw [opOrWord_word ha.1]
      unfold opOr
      rw [orAssign_word ha1, addRef_word]
    exact observed_eq_of_word (orAssignWord_magnitude ham hw)
      ⟨orAssign_wf ha1 hb.1, orAssign_normalized ha1 hb.1 na nb⟩ key
  · have key : ∀ i, (opOrWord a w).word i = (opOr (ofWord w) a).word i := fun i => by
      rw [opOrWord_word ha.1]
      unfold opOr
      rw [orAssign_word hb1, addRef_word, Nat.lor_comm]
    exact observed_eq_of_word (orAssignWord_magnitude ham hw)
      ⟨orAssign_wf hb1 ha.1, orAssign_normalized hb1 ha.1 nb na⟩ key
  · have key : ∀ i, (opXorWord a w).word i = (opXor a (ofWord w)).word i := fun i => by
      rw [opXorWord_word ha.1]
      unfold opXor
      rw [xorAssign_word ha1 hb.1, addRef_word]
    exact observed_eq_of_word (xorAssignWord_magnitude ham hw)
      ⟨xorAssign_wf ha1 hb.1, xorAssign_normalized ha1 hb.1⟩ key
  · have key : ∀ i, (opXorWord a w).word i = (opXor (ofWord w) a).word i := fun i => by
      rw [opXorWord_word ha.1]
      unfold opXor
      rw [xorAssign_word hb1 ha.1, addRef_word, Nat.xor_comm]
    exact observed_eq_of_word (xorAssignWord_magnitude ham hw)
      ⟨xorAssign_wf hb1 ha.1, xorAssign_normalized hb1 ha.1⟩ key

/-- Witness for C24: the two-word magnitude `2^32 + 7` and the word `5`. -/
theorem word_overloads_agree_witness :
    (Data.mk [7, 1] 2 2 1).magnitude ∧ 5 < WordModulus ∧
    gtWordRight (Data.mk [7, 1] 2 2 1) 5 = opGt false (Data.mk [7, 1] 2 2 1) (ofWord 5) ∧
    (opAndWord (Data.mk [7, 1] 2 2 1) 5).observed = [5] :=
  ⟨by decide, by decide,
   (word_overloads_agree false (Data.mk [7, 1] 2 2 1) 5 (by decide) (by decide)
     (by simp)).2.2.2.2.2.2.2.2.1,
   by decide⟩

/-! ## Signed exponentiation -/

theorem odd_test_spec {e : Data} (he : e.wf) :
    neWord (opAndWord e 1) 0 = decide (e.value % 2 = 1) := by
  have h1 : (1 : Nat) < WordModulus := by decide
  have hm : (opAndWord e 1).magnitude := andAssignWord_magnitude (addRef_wf he) h1
  have hv : (opAndWord e 1).value = e.value &&& (ofWord 1).value :=
    value_of_word_op hm.1 he (ofWord_magnitude h1).1 (fun x y => x &&& y) (fun x y => x && y)
      (fun m n k => Nat.testBit_and m n k) (fun i => opAndWord_word he 1 i)
  rw [ofWord_value, Nat.and_one_is_mod] at hv
  unfold neWord
  rw [eqWord_spec hm (by decide), hv]
  by_cases h : e.value % 2 = 1
  · simp [h]
  · have : e.value % 2 = 0 := by omega
    simp [this]

theorem signed_pow_ok (sameData : Bool) (base exponent : BigInteger)
    (he : exponent.value.magnitude) (hnn : 0 ≤ exponent.toInt) :
    ∃ p, BigMath.pow base.value exponent.value = .ok p ∧
      p.value = base.value.value ^ exponent.value.value ∧
      BigInteger.pow sameData base exponent =
        .ok ⟨p, base.negative && decide (exponent.value.value % 2 = 1)⟩ := by
  obtain ⟨p, hp, hv⟩ := pow_total base.value exponent.value he
  refine ⟨p, hp, hv, ?_⟩
  unfold BigInteger.pow
  rw [opLt_zero sameData exponent he, hp, odd_test_spec he.1]
  have : ¬ exponent.toInt < 0 := by omega
  simp only [this, decide_False, Bool.false_eq_true, if_false]
  rfl

theorem signed_powMod_ok (sameData : Bool) (base exponent modulus : BigInteger)
    (he : exponent.value.magnitude) (hnn : 0 ≤ exponent.toInt)
    (hm : modulus.value.magnitude) (hm0 : modulus.value.value ≠ 0) :
    ∃ r, BigMath.powMod base.value exponent.value modulus.value = .ok r ∧
      r.value = base.value.value ^ exponent.value.value % modulus.value.value ∧
      r.magnitude ∧
      BigInteger.powMod sameData base exponent modulus =
        .ok ⟨r, base.negative && decide (exponent.value.value % 2 = 1)⟩ := by
  obtain ⟨r, hr, hv, hmag⟩ :=
    powMod_total base.value exponent.value modulus.value he hm (by omega)
  refine ⟨r, hr, hv, hmag, ?_⟩
  unfold BigInteger.powMod
  rw [opLt_zero sameData exponent he, hr, odd_test_spec he.1]
  have : ¬ exponent.toInt < 0 := by omega
  simp only [this, decide_False, Bool.false_eq_true, if_false]
  rfl

theorem toInt_pow (bv : Nat) (bn : Bool) (e : Nat) :
    (if (bn && decide (e % 2 = 1)) = true then -((bv ^ e : Nat) : Int) else ((bv ^ e : Nat) : Int))
      = (if bn = true then -(bv : Int) else (bv : Int)) ^ e := by
  cases bn
  · simp
  · by_cases h : e % 2 = 1
    · have ho : Odd e := Nat.odd_iff.2 h
      simp [h, ho.neg_pow]
    · have hev : Even e := Nat.even_iff.2 (by omega)
      simp [h, hev.neg_pow]

/-- C25: signed `pow` and `powMod`.  For `base`, an exponent that denotes an
integer `>= 0` and a modulus that denotes a non-zero integer, both functions
return; `pow(base, exponent)` denotes the integer `base ^ exponent`, negative
exactly when `base` is negative and the exponent is odd; and
`powMod(base, exponent, modulus)` has the sign flag and the magnitude words of
`pow(base, exponent) % modulus`: it denotes the truncated remainder of
`base ^ exponent` by the modulus, which carries the sign of `base ^ exponent`. -/
theorem signed_pow_and_powMod (sd1 sd2 : Bool) (base exponent modulus : BigInteger)
    (he : exponent.value.magnitude) (hm : modulus.value.magnitude)
    (hnn : 0 ≤ exponent.toInt) (hm0 : modulus.toInt ≠ 0) :
    ∃ p r q, BigInteger.pow sd1 base exponent = .ok p ∧
      BigInteger.powMod sd2 base exponent modulus = .ok r ∧
      BigInteger.mod p modulus = .ok q ∧
      p.toInt = base.toInt ^ exponent.toInt.toNat ∧
      (p.toInt < 0 ↔ base.toInt < 0 ∧ exponent.toInt % 2 = 1) ∧
      r.negative = q.negative ∧
      r.value.observed = q.value.observed ∧
      r.value.value = q.value.value ∧
      r.toInt = q.toInt ∧
      r.toInt = Int.tmod (base.toInt ^ exponent.toInt.toNat) modulus.toInt := by
  obtain ⟨bv, bn⟩ := base
  obtain ⟨ev, en⟩ := exponent
  obtain ⟨mv, mn⟩ := modulus
  simp only at he hm
  have ee : BigInteger.toInt ⟨ev, en⟩ = (ev.value : Int) := by
    unfold BigInteger.toInt at hnn ⊢
    cases en
    · simp
    · simp only [if_true] at hnn ⊢
      omega
  have hmv : mv.value ≠ 0 := by
    intro h
    apply hm0
    unfold BigInteger.toInt
    cases mn <;> simp [h]
  obtain ⟨p, _, hpv, hpow⟩ := signed_pow_ok sd1 ⟨bv, bn⟩ ⟨ev, en⟩ he hnn
  obtain ⟨r, _, hrv, hrm, hpm⟩ := signed_powMod_ok sd2 ⟨bv, bn⟩ ⟨ev, en⟩ ⟨mv, mn⟩ he hnn hm hmv
  simp only at hpv hpow hrv hpm
  have hq : BigInteger.mod ⟨p, bn && decide (ev.value % 2 = 1)⟩ ⟨mv, mn⟩ =
      .ok ⟨Data.ofNat (p.value % mv.value), bn && decide (ev.value % 2 = 1)⟩ := by
    unfold BigInteger.mod
    simp only [mod_ok p hmv]
    rfl
  have hval : r.value = (Data.ofNat (p.value % mv.value)).value := by
    rw [hrv, ofNat_value, hpv]
  have key : BigInteger.toInt ⟨p, bn && decide (ev.value % 2 = 1)⟩ =
      BigInteger.toInt ⟨bv, bn⟩ ^ (BigInteger.toInt ⟨ev, en⟩).toNat := by
    rw [ee, Int.toNat_ofNat]
    unfold BigInteger.toInt
    simp only []
    rw [hpv]
    exact toInt_pow bv.value bn ev.value
  refine ⟨_, _, _, hpow, hpm, hq, key, ?_, rfl,
    observed_eq_of_value hrm (ofNat_magnitude _) hval, hval, ?_, ?_⟩
  · rw [toInt_neg_iff, toInt_neg_iff, ee]
    simp only [Bool.and_eq_true, decide_eq_true_eq, hpv]
    constructor
    · rintro ⟨⟨h1, h2⟩, h3⟩
      refine ⟨⟨h1, ?_⟩, by omega⟩
      intro h0
      apply h3
      rw [h0]
      exact Nat.zero_pow (by omega)
    · rintro ⟨⟨h1, h2⟩, h3⟩
      exact ⟨⟨h1, by omega⟩, pow_ne_zero _ h2⟩
  · unfold BigInteger.toInt
    simp only []
    rw [hval]
  · rw [← key]
    unfold BigInteger.toInt
    simp only []
    rw [hrv, ← hpv]
    generalize (bn && decide (ev.value % 2 = 1)) = f
    cases f <;> cases mn <;>
      simp only [Int.tmod_neg, int_neg_tmod, Int.ofNat_tmod, if_true, if_false,
        Bool.false_eq_true]

/-- Witness for C25: `pow(-2, 3) = -8` and `powMod(-2, 3, 5) = -3`. -/
theorem signed_pow_and_powMod_witness :
    (ofWord 3).magnitude ∧ (ofWord 5).magnitude ∧
    0 ≤ BigInteger.toInt ⟨ofWord 3, false⟩ ∧ BigInteger.toInt ⟨ofWord 5, false⟩ ≠ 0 ∧
    ∃ p r q, BigInteger.pow false ⟨ofWord 2, true⟩ ⟨ofWord 3, false⟩ = .ok p ∧
      BigInteger.powMod false ⟨ofWord 2, true⟩ ⟨ofWord 3, false⟩ ⟨ofWord 5, false⟩ = .ok r ∧
      BigInteger.mod p ⟨ofWord 5, false⟩ = .ok q ∧
      p.toInt = BigInteger.toInt ⟨ofWord 2, true⟩ ^ (BigInteger.toInt ⟨ofWord 3, false⟩).toNat ∧
      (p.toInt < 0 ↔ BigInteger.toInt ⟨ofWord 2, true⟩ < 0 ∧
        BigInteger.toInt ⟨ofWord 3, false⟩ % 2 = 1) ∧
      r.negative = q.negative ∧
      r.value.observed = q.value.observed ∧
      r.value.value = q.value.value ∧
      r.toInt = q.toInt ∧
      r.toInt = Int.tmod
        (BigInteger.toInt ⟨ofWord 2, true⟩ ^ (BigInteger.toInt ⟨ofWord 3, false⟩).toNat)
        (BigInteger.toInt ⟨ofWord 5, false⟩) :=
  ⟨by decide, by decide, by decide, by decide,
   signed_pow_and_powMod false false ⟨ofWord 2, true⟩ ⟨ofWord 3, false⟩ ⟨ofWord 5, false⟩
     (by decide) (by decide) (by decide) (by decide)⟩

end BigMath
